import Mathlib

/-!
triSYCL AI Engine runtime: device to host RPC, grid barriers and connection
ports.

A shallow embedding of

* `include/triSYCL/vendor/Xilinx/acap/aie/rpc.hpp`
  (`rpc_impl::host_side::visit`, `rpc_impl::host_side::wait_all`,
  `rpc_impl::device_side::perform`, the request kinds),
* `include/triSYCL/vendor/Xilinx/acap/aie/tile.hpp`
  (`tile::horizontal_barrier`, `tile::vertical_barrier`, `tile::barrier`), and
* `include/CL/sycl/vendor/Xilinx/acap/aie/connection.hpp`
  (`connection::base::pipe_of`, `connection::input::in`,
  `connection::output::out`),

followed by the properties established about them.

Conventions.  Tile coordinates, sizes and counters are `int` in the source;
they are natural numbers here because the loops start at 0 and only count
upwards, and the grid sizes are geometry constants far below `2^31`.
A response is a `uint32_t`: the result of a callable registered with
`set_handler` is taken modulo `2^32` when `act_on_data` returns it, and is then
stored and read back unchanged.
-/

namespace aie

/-! ## Request kinds (`rpc.hpp`, lines 34 to 117) -/

/-- The payload of an image update request (`struct image_update_data`). -/
structure image_update_data where
  data : Nat
  min_value : Nat
  max_value : Nat
  counter : Nat
deriving DecidableEq, Repr

/-- The payload of a log request (`send_log_rpc::data_type`): a device pointer
to the first character and the number of characters to print. -/
structure send_log_data where
  data : Nat
  size : Nat
deriving DecidableEq, Repr

/-- The tagged payload `Var = std::variant<done_rpc::data_type,
image_update_data, send_log_rpc::data_type>` of
`rpc = rpc_impl<done_rpc, image_update_rpc, send_log_rpc>`.

The host fills its `Var` with `memcpy_d2h` from device memory, so the bytes it
obtains may carry an index that designates none of the three alternatives;
`garbage k` stands for such an image, with index `3 + k`.  Neither `wait_all`
nor `visit` tests for it, and what `std::visit` does with it is undefined. -/
inductive Var where
  | done_rpc
  | image_update_rpc (d : image_update_data)
  | send_log_rpc (d : send_log_data)
  | garbage (k : Nat)
deriving DecidableEq, Repr

/-- The value of `std::variant::index()`. -/
def Var.index : Var → Nat
  | .done_rpc => 0
  | .image_update_rpc _ => 1
  | .send_log_rpc _ => 2
  | .garbage k => 3 + k

/-- The ways the host side of the dispatcher can stop abnormally. -/
inductive fatal where
  /-- The `assert(false && "This should be handeled by wait_all")` of
  `done_rpc::act_on_data`. -/
  | assertion_failed
  /-- Calling the empty `std::function` of a `functor_rpc` whose handler was
  never set. -/
  | bad_function_call
  /-- The `std::bad_variant_access` of a `std::visit` on a valueless variant. -/
  | bad_variant_access
  /-- The exception with which `str.resize(dev_data.size)` in
  `send_log_rpc::act_on_data` refuses a size that no string of the host can
  have: `std::length_error` beyond `max_size()`, and `std::bad_alloc` where the
  host lacks the memory. -/
  | length_error
deriving DecidableEq, Repr

/-- What the host does that is observable from outside, in program order. -/
inductive event where
  /-- A call `get_barrier(x, y).try_arrive()` and its result. -/
  | try_arrive (x y : Nat) (arrived : Bool)
  /-- The read `h.moved(x, y).memcpy_d2h(&data, addr + offsetof(device_side, data), _)`
  and the payload read. -/
  | memcpy_d2h (x y : Nat) (data : Var)
  /-- A call `Tys::act_on_data(x, y, h, data)` of the handler of the request
  kind whose index is `kind`. -/
  | act_on_data (kind : Nat) (x y : Nat) (data : Var)
  /-- The text sent to `std::cout`. -/
  | cout (str : List Char)
  /-- The write `h.moved(x, y).mem_write(addr + offsetof(device_side, ret_val), ret)`. -/
  | mem_write (x y : Nat) (ret : Nat)
  /-- A call `get_barrier(x, y).wait()`. -/
  | wait (x y : Nat)
deriving DecidableEq, Repr

/-- Modelled from the spec: the tile handle `xaie::handle`
(`xaie_wrapper.hpp` is not among the sources), reduced to the coordinates of
the tile it designates.  Section 6: handlers receive
`(x, y, tile-handle, payload)`. -/
structure handle where
  x : Nat
  y : Nat
deriving DecidableEq, Repr

/-- The single instance `functor_rpc<DataTy>::get()`: its member `impl`, a
`std::function<uint32_t(int, int, xaie::handle, data_type)>`, empty until
`set_handler` is called.  What is stored is the callable as it was given; its
result may be of a wider type than `uint32_t`. -/
structure functor_rpc (DataTy : Type) where
  impl : Option (Nat → Nat → handle → DataTy → Nat)

/-- A `functor_rpc` as default constructed: `impl{}`. -/
def functor_rpc.get_default (DataTy : Type) : functor_rpc DataTy := ⟨none⟩

/-- The static member `functor_rpc::set_handler(func)`: `get().impl = func`. -/
def functor_rpc.set_handler {DataTy : Type} (_self : functor_rpc DataTy)
    (func : Nat → Nat → handle → DataTy → Nat) : functor_rpc DataTy := ⟨some func⟩

/-- The static member `functor_rpc::act_on_data(x, y, h, d)`:
`return get().impl(x, y, h, d)`.
Calling an empty `std::function` throws; a call that goes through converts the
result of the callable to `uint32_t`. -/
def functor_rpc.act_on_data {DataTy : Type} (self : functor_rpc DataTy)
    (x y : Nat) (h : handle) (d : DataTy) : Except fatal Nat :=
  match self.impl with
  | none => .error .bad_function_call
  | some f => .ok (f x y h d % 2 ^ 32)

/-- What the host side is connected to: the handler registered for image
updates, the device memory as `memcpy_d2h` reads it from the tile at `(x, y)`,
and what each poll of a tile finds.  `arrivals pass x y` is `none` when
`try_arrive` returns false in scan pass `pass`, and `some data` when it
returns true and the record of the tile then holds `data`.

Two things that the sources do not determine are taken as they come:
`string_capacity` is the largest size that `std::string::resize` accepts on the
host, and `visit_undefined x y k` is how the call of `std::visit` ends for the
tile at `(x, y)` on a payload whose index `3 + k` designates no alternative,
where its behaviour is undefined: with some value, or with the end of the
host. -/
structure device_world where
  image_update : functor_rpc image_update_data
  dev_mem : Nat → Nat → Nat → Char
  arrivals : Nat → Nat → Nat → Option Var
  string_capacity : Nat
  visit_undefined : Nat → Nat → Nat → Except fatal Nat

/-- The handler `send_log_rpc::act_on_data`: `str.resize(dev_data.size)`, which
throws when the size is more than a string can have; then copy `size`
characters of device memory, starting at the device pointer `data`, into the
string, print it, return 0.  The handle `h` serves to read the device memory
of the tile at `(x, y)`. -/
def send_log_rpc.act_on_data (w : device_world) (x y : Nat) (dev_data : send_log_data) :
    List event × Except fatal Nat :=
  if dev_data.size ≤ w.string_capacity then
    ([.cout ((List.range dev_data.size).map (fun i => w.dev_mem x y (dev_data.data + i)))],
      .ok 0)
  else ([], .error .length_error)

/-- The handler `done_rpc::act_on_data`: `assert(false)`. -/
def done_rpc.act_on_data : List event × Except fatal Nat :=
  ([], .error .assertion_failed)

/-! ## The host side of the RPC system (`rpc.hpp`, lines 119 to 176) -/

/-- The class `rpc_impl::host_side`: the dimensions of the grid it serves. -/
structure host_side where
  x_size : Nat
  y_size : Nat
deriving DecidableEq, Repr

/-- The member `host_side::visit(x, y, h, v)`: `std::visit` of the overload set that maps
the payload of each request kind to `Tys::act_on_data(x, y, h, data)`; `wait_all`
calls it with `h.moved(x, y)`, the handle of the tile at `(x, y)`.  The result is what the call did and either its
return value or the reason why it did not return.  There is no test of the
index: on a payload that holds none of the alternatives the call ends as the
world has it in `visit_undefined`. -/
def host_side.visit (w : device_world) (x y : Nat) (v : Var) : List event × Except fatal Nat :=
  match v with
  | .done_rpc =>
      (.act_on_data 0 x y v :: done_rpc.act_on_data.1, done_rpc.act_on_data.2)
  | .image_update_rpc d =>
      ([.act_on_data 1 x y v], w.image_update.act_on_data x y ⟨x, y⟩ d)
  | .send_log_rpc d =>
      (.act_on_data 2 x y v :: (send_log_rpc.act_on_data w x y d).1,
        (send_log_rpc.act_on_data w x y d).2)
  | .garbage k => ([], w.visit_undefined x y k)

/-- The local state of one invocation of `wait_all`: the local variable
`done_counter` and what the host has done so far. -/
structure wait_state where
  done_counter : Nat
  trace : List event
deriving DecidableEq, Repr

/-- The body of the two nested `for` loops of `wait_all` (lines 152 to 171) for
the tile at `(x, y)` in scan pass `pass`.  An exception leaves the function;
the state reached by then is kept with it. -/
def host_side.wait_all_body (w : device_world) (pass x y : Nat) (st : wait_state) :
    Except (fatal × wait_state) wait_state :=
  match w.arrivals pass x y with
  | none => .ok ⟨st.done_counter, st.trace ++ [.try_arrive x y false]⟩
  | some data =>
      let read := st.trace ++ [.try_arrive x y true, .memcpy_d2h x y data]
      if data.index = 0 then
        .ok ⟨st.done_counter + 1, read ++ [.wait x y]⟩
      else
        match host_side.visit w x y data with
        | (evs, .ok ret) =>
            .ok ⟨st.done_counter, read ++ evs ++ [.mem_write x y ret, .wait x y]⟩
        | (evs, .error e) => .error (e, ⟨st.done_counter, read ++ evs⟩)

/-- The tiles in the order in which
`for (int x = 0; x < x_size; x++) for (int y = 0; y < y_size; y++)` visits
them. -/
def host_side.scan_order (self : host_side) : List (Nat × Nat) :=
  (List.range self.x_size).flatMap (fun x => (List.range self.y_size).map (fun y => (x, y)))

/-- One execution of the two nested `for` loops over the tiles still to be
visited. -/
def host_side.wait_all_scan (w : device_world) (pass : Nat) :
    List (Nat × Nat) → wait_state → Except (fatal × wait_state) wait_state
  | [], st => .ok st
  | (x, y) :: rest, st =>
      match host_side.wait_all_body w pass x y st with
      | .ok st1 => host_side.wait_all_scan w pass rest st1
      | .error e => .error e

/-- How an invocation of `wait_all` ends, when followed for a bounded number of
scan passes. -/
inductive outcome where
  /-- The `do ... while` loop was left: `wait_all` returned. -/
  | returned (st : wait_state)
  /-- An exception or assertion failure left `wait_all`. -/
  | aborted (e : fatal) (st : wait_state)
  /-- The loop condition still held after the last pass that was followed. -/
  | still_waiting (st : wait_state)
deriving DecidableEq, Repr

/-- The state with which an outcome was reached. -/
def outcome.state : outcome → wait_state
  | .returned st => st
  | .aborted _ st => st
  | .still_waiting st => st

/-- The `do { ... } while (done_counter < x_size * y_size);` loop of `wait_all`,
followed for at most `fuel` scan passes, the next one being pass `pass`. -/
def host_side.wait_all_loop (self : host_side) (w : device_world) :
    Nat → Nat → wait_state → outcome
  | 0, _, st => .still_waiting st
  | fuel + 1, pass, st =>
      match host_side.wait_all_scan w pass self.scan_order st with
      | .error (e, st1) => .aborted e st1
      | .ok st1 =>
          if st1.done_counter < self.x_size * self.y_size then
            host_side.wait_all_loop self w fuel (pass + 1) st1
          else .returned st1

/-- The member `host_side::wait_all()`: `int done_counter = 0;` then the loop. -/
def host_side.wait_all (self : host_side) (w : device_world) (fuel : Nat) : outcome :=
  host_side.wait_all_loop self w fuel 0 ⟨0, []⟩

/-! ## The handshake between one tile and the host (`rpc.hpp`, lines 179 to 203) -/

/-- Modelled from the spec: the `soft_barrier` shared by a tile and the host
(`lock.hpp`, which defines it, is not among the sources).  Section 4.2: the
device side signals arrival and then blocks until the host signals completion;
the host side has a non-blocking `try_arrive`, which returns whether the tile
has signalled arrival, and a blocking `wait`, which makes the same rendezvous.
`arrived` holds from the moment the device side has arrived until the host
side has met it. -/
structure soft_barrier where
  arrived : Bool
deriving DecidableEq, Repr

/-- Where the tile is in `device_side::perform`. -/
inductive device_pc where
  /-- Not inside `perform`. -/
  | idle
  /-- After `data = d`, before the first `barrier.wait()`. -/
  | notify
  /-- Inside the first `barrier.wait()`, arrived and blocked. -/
  | notified
  /-- Between the two calls of `barrier.wait()`. -/
  | await
  /-- Inside the second `barrier.wait()`, arrived and blocked. -/
  | awaiting
  /-- After the second `barrier.wait()`, before `return ret_val`. -/
  | resume
deriving DecidableEq, Repr

/-- Where the host is in the body of the loops of `wait_all`, for the tile
under consideration. -/
inductive host_pc where
  /-- Before `get_barrier(x, y).try_arrive()` (line 154), or busy with other
  tiles. -/
  | poll
  /-- Before the `memcpy_d2h` of the payload (line 158). -/
  | read
  /-- Before `if (data.index() == 0)` (line 162), with the payload read. -/
  | dispatch (data : Var)
  /-- Before the `mem_write` of the response (line 168). -/
  | write (ret : Nat)
  /-- Before or inside `get_barrier(x, y).wait()` (line 171). -/
  | release
  /-- An exception has left `wait_all`. -/
  | dead (e : fatal)
deriving DecidableEq, Repr

/-- A tile and the host: the record `device_side` of the tile (`barrier`,
`data`, `ret_val`), the control points of both, the requests the program of
the tile still has to `perform`, the local `done_counter` of the host, and
three histories: the requests for which `perform` was called, the values
`perform` returned, and the payloads the host dispatched. -/
structure link_state where
  program : List Var
  dpc : device_pc
  data : Var
  ret_val : Nat
  barrier : soft_barrier
  hpc : host_pc
  done_counter : Nat
  issued : List Var
  answers : List Nat
  served : List Var
deriving DecidableEq, Repr

/-- The tile before its first request, the host before its first poll. -/
def link_state.init (program : List Var) (ret_val : Nat) : link_state :=
  ⟨program, .idle, .done_rpc, ret_val, ⟨false⟩, .poll, 0, [], [], []⟩

/-- One step of the tile: the next statement of `device_side::perform`
(`data = d; barrier.wait(); barrier.wait(); return ret_val;`), or the call of
`perform` with the next request of its program.  `none` when the tile is
blocked or has nothing left to do. -/
def device_side.perform_step (s : link_state) : Option link_state :=
  match s.dpc with
  | .idle =>
      match s.program with
      | [] => none
      | d :: rest =>
          some { s with program := rest, data := d, dpc := .notify, issued := s.issued ++ [d] }
  | .notify => some { s with barrier := ⟨true⟩, dpc := .notified }
  | .notified => if s.barrier.arrived then none else some { s with dpc := .await }
  | .await => some { s with barrier := ⟨true⟩, dpc := .awaiting }
  | .awaiting => if s.barrier.arrived then none else some { s with dpc := .resume }
  | .resume => some { s with answers := s.answers ++ [s.ret_val], dpc := .idle }

/-- One step of the host on the tile at `(x, y)`: the next statement of the
body of the loops of `wait_all`.  A poll that finds no arrival leaves the state
as it is (the host goes on to the next tile).  `none` when the host is blocked
in `wait()` or dead. -/
def host_side.wait_all_step (w : device_world) (x y : Nat) (s : link_state) : Option link_state :=
  match s.hpc with
  | .poll => if s.barrier.arrived then some { s with barrier := ⟨false⟩, hpc := .read } else some s
  | .read => some { s with hpc := .dispatch s.data }
  | .dispatch d =>
      if d.index = 0 then
        some { s with done_counter := s.done_counter + 1, served := s.served ++ [d],
                      hpc := .release }
      else
        match (host_side.visit w x y d).2 with
        | .ok ret => some { s with served := s.served ++ [d], hpc := .write ret }
        | .error e => some { s with served := s.served ++ [d], hpc := .dead e }
  | .write ret => some { s with ret_val := ret, hpc := .release }
  | .release => if s.barrier.arrived then some { s with barrier := ⟨false⟩, hpc := .poll } else none
  | .dead _ => none

/-- The states a tile with the given program and the host can be in, under any
interleaving of their steps. -/
inductive link_reachable (w : device_world) (x y : Nat) (program : List Var) (r0 : Nat) :
    link_state → Prop where
  | init : link_reachable w x y program r0 (link_state.init program r0)
  | device {s s1 : link_state} : link_reachable w x y program r0 s →
      device_side.perform_step s = some s1 → link_reachable w x y program r0 s1
  | host {s s1 : link_state} : link_reachable w x y program r0 s →
      host_side.wait_all_step w x y s = some s1 → link_reachable w x y program r0 s1

/-- The response `r` is what the handler of the request `d` returns for the
tile at `(x, y)`; nothing is asked of the response to a done request. -/
def answers_request (w : device_world) (x y : Nat) (d : Var) (r : Nat) : Prop :=
  d.index ≠ 0 → (host_side.visit w x y d).2 = .ok r

/-- The tile is inside `perform`, past its arrival at the first
`barrier.wait()`, and the barrier is consistent with where it is. -/
def device_inside (s : link_state) : Prop :=
  (s.dpc = .notified ∧ s.barrier.arrived = false) ∨
  (s.dpc = .await ∧ s.barrier.arrived = false) ∨
  (s.dpc = .awaiting ∧ s.barrier.arrived = true)

/-- The invariant of the handshake: `past` are the requests already answered. -/
def link_inv (w : device_world) (x y : Nat) (s : link_state) : Prop :=
  ∃ past, List.Forall₂ (answers_request w x y) past s.answers ∧
    ((s.dpc = .idle ∧ s.hpc = .poll ∧ s.barrier.arrived = false ∧
        s.issued = past ∧ s.served = past) ∨
     (s.issued = past ++ [s.data] ∧
      ((s.served = past ∧
          ((s.dpc = .notify ∧ s.hpc = .poll ∧ s.barrier.arrived = false) ∨
           (s.dpc = .notified ∧ s.hpc = .poll ∧ s.barrier.arrived = true) ∨
           (device_inside s ∧ (s.hpc = .read ∨ s.hpc = .dispatch s.data)))) ∨
       (s.served = past ++ [s.data] ∧
          ((device_inside s ∧ ∃ ret, s.hpc = .write ret ∧ s.data.index ≠ 0 ∧
              (host_side.visit w x y s.data).2 = .ok ret) ∨
           (device_inside s ∧ s.hpc = .release ∧ answers_request w x y s.data s.ret_val) ∨
           ((s.dpc = .awaiting ∨ s.dpc = .resume) ∧ s.barrier.arrived = false ∧
              s.hpc = .poll ∧ answers_request w x y s.data s.ret_val) ∨
           (device_inside s ∧ ∃ e, s.hpc = .dead e))))))

/-- A state of the handshake in which the tile is blocked in its first
`barrier.wait()` with a log request and the host is about to read it. -/
def link_demo : link_state :=
  ⟨[.done_rpc], .notified, .send_log_rpc ⟨0, 2⟩, 7, ⟨false⟩, .read, 0,
    [.send_log_rpc ⟨0, 2⟩], [], []⟩

/-- One step of a tile and the host under the schedule that lets the tile take
its next step whenever it is not blocked, and the host otherwise (a poll that
finds nothing, or a host that cannot step, leaves the state as it is). -/
def link_step (w : device_world) (x y : Nat) (s : link_state) : link_state :=
  match device_side.perform_step s with
  | some s1 => s1
  | none => (host_side.wait_all_step w x y s).getD s

/-- The state after `n` steps of that schedule. -/
def link_run (w : device_world) (x y : Nat) : Nat → link_state → link_state
  | 0, s => s
  | n + 1, s => link_run w x y n (link_step w x y s)

/-- The number of steps that the tile and the host take together for the
requests of a program: six statements of the tile for each call of `perform`
(the call included), and four statements of the host for a done signal, five
for any other request. -/
def link_fuel : List Var → Nat
  | [] => 0
  | d :: rest => (if d.index = 0 then 10 else 11) + link_fuel rest

/-- The number of steps that the tile and the host still have to take in the
state `s` before the tile has finished its program: those for the requests
still to be performed, the statements of `perform` still to be executed for
the request in flight, and the statements of the loop body still to be
executed for it. -/
def link_rank (s : link_state) : Nat :=
  link_fuel s.program +
  (match s.dpc with
    | .idle => 0
    | .notify => 5
    | .notified => 4
    | .await => 3
    | .awaiting => 2
    | .resume => 1) +
  (match s.hpc with
    | .poll =>
        if s.served.length < s.issued.length then (if s.data.index = 0 then 4 else 5) else 0
    | .read => if s.data.index = 0 then 3 else 4
    | .dispatch d => if d.index = 0 then 2 else 3
    | .write _ => 2
    | .release => 1
    | .dead _ => 0)

/-- The tile is between two calls of `perform` and the host is polling. -/
def link_ready (s : link_state) : Prop :=
  s.dpc = .idle ∧ s.hpc = .poll ∧ s.barrier = ⟨false⟩

/-- The number of handler calls recorded in a trace. -/
def handler_calls (t : List event) : Nat :=
  t.countP (fun e => match e with
    | .act_on_data _ _ _ _ => true
    | _ => false)

/-- The number of polls recorded in a trace that found an arrival. -/
def arrivals_seen (t : List event) : Nat :=
  t.countP (fun e => match e with
    | .try_arrive _ _ true => true
    | _ => false)

/-- The number of payloads recorded in a trace that carry the done tag. -/
def done_reads (t : List event) : Nat :=
  t.countP (fun e => match e with
    | .memcpy_d2h _ _ data => decide (data.index = 0)
    | _ => false)

/-- What the host does after it has read the payload `data` of the tile at
`(x, y)`, up to the end of the loop body or to the exception. -/
def follow_events (w : device_world) (x y : Nat) (data : Var) : List event :=
  if data.index = 0 then [.wait x y]
  else
    match (host_side.visit w x y data).2 with
    | .ok ret => (host_side.visit w x y data).1 ++ [.mem_write x y ret, .wait x y]
    | .error _ => (host_side.visit w x y data).1

/-- What one execution of the loop body does, for the tile at `(x, y)` in scan
pass `pass`. -/
def body_events (w : device_world) (pass x y : Nat) : List event :=
  match w.arrivals pass x y with
  | none => [.try_arrive x y false]
  | some data => .try_arrive x y true :: .memcpy_d2h x y data :: follow_events w x y data

/-- What one execution of the loop body adds to `done_counter`. -/
def body_done (w : device_world) (pass x y : Nat) : Nat :=
  if w.arrivals pass x y = some .done_rpc then 1 else 0

/-- Every tile of the grid has signalled done in one of the first `n` scan
passes. -/
def host_side.all_done_by (self : host_side) (w : device_world) (n : Nat) : Prop :=
  ∀ x y, x < self.x_size → y < self.y_size → ∃ pass, pass < n ∧ w.arrivals pass x y = some .done_rpc

/-- The tile `t` signals done in scan pass `pass`. -/
def done_now (w : device_world) (pass : Nat) (t : Nat × Nat) : Bool :=
  decide (w.arrivals pass t.1 t.2 = some .done_rpc)

/-- The tile `t` signals done in one of the first `n` scan passes. -/
def done_before (w : device_world) (n : Nat) (t : Nat × Nat) : Bool :=
  (List.range n).any (fun pass => done_now w pass t)

/-- The number of done signals found in the first `n` scan passes. -/
def host_side.dones_before (self : host_side) (w : device_world) : Nat → Nat
  | 0 => 0
  | n + 1 => host_side.dones_before self w n + self.scan_order.countP (done_now w n)

/-- Every payload read recorded in the trace `t` comes right after the poll
that found it and is followed by what the loop body does with it. -/
def well_followed (w : device_world) (t : List event) : Prop :=
  ∀ pre x y data post, t = pre ++ .memcpy_d2h x y data :: post →
    (∃ pre1, pre = pre1 ++ [.try_arrive x y true]) ∧
    ∃ post1, post = follow_events w x y data ++ post1

/-- The value of `string_capacity` in the worlds below: `2^62 - 1`, the
`max_size()` of a `std::string` of libstdc++ on a 64 bit host, beyond which
`resize` throws whatever the memory of the host. -/
def demo_capacity : Nat := 4611686018427387903

/-- A world in which every tile is found with its done signal in the first
scan pass and is silent afterwards. -/
def done_at_once : device_world :=
  ⟨functor_rpc.get_default image_update_data, fun _ _ _ => 'h',
    fun pass _ _ => if pass = 0 then some .done_rpc else none,
    demo_capacity, fun _ _ k => .ok (3 + k)⟩

/-- A world in which the tile at `(0, 0)` is found with a done signal in each
of the first two scan passes and no other tile ever signals anything. -/
def done_twice : device_world :=
  ⟨functor_rpc.get_default image_update_data, fun _ _ _ => 'h',
    fun pass x _ => if x = 0 ∧ pass < 2 then some .done_rpc else none,
    demo_capacity, fun _ _ k => .ok (3 + k)⟩

/-- A world in which the tile at `(0, 0)` is found with a done signal in every
scan pass and the other tiles in the second scan pass only. -/
def done_thrice : device_world :=
  ⟨functor_rpc.get_default image_update_data, fun _ _ _ => 'h',
    fun pass x _ => if x = 0 ∨ pass = 1 then some .done_rpc else none,
    demo_capacity, fun _ _ k => .ok (3 + k)⟩

/-- A world in which every tile is found with one log request in the first
scan pass, with its done signal in the second, and is silent afterwards. -/
def log_then_done : device_world :=
  ⟨functor_rpc.get_default image_update_data, fun _ _ _ => 'h',
    fun pass _ _ =>
      if pass = 0 then some (.send_log_rpc ⟨0, 2⟩)
      else if pass = 1 then some .done_rpc else none,
    demo_capacity, fun _ _ k => .ok (3 + k)⟩

/-- Every payload recorded as read in the trace `t` was a done signal or a
request whose handler returned. -/
def reads_answered (w : device_world) (t : List event) : Prop :=
  ∀ x y data, event.memcpy_d2h x y data ∈ t →
    data.index = 0 ∨ ∃ r, (host_side.visit w x y data).2 = .ok r

/-- The trace `t` ends where an exception left `wait_all`: with the poll and
the read of a request of the tile at `(x, y)` for which `visit` did not return
but failed with `e`, and what `visit` did until then; every payload read before
was a done signal or a request whose handler returned. -/
def ends_at_fatal (w : device_world) (e : fatal) (t : List event) : Prop :=
  ∃ t0 x y data, reads_answered w t0 ∧ data.index ≠ 0 ∧
    (host_side.visit w x y data).2 = .error e ∧
    t = t0 ++ [.try_arrive x y true, .memcpy_d2h x y data] ++ (host_side.visit w x y data).1

/-- A world on a 1 by 2 grid in which no handler is registered for image
updates: in the first scan pass the tile at `(0, 0)` is found with a log
request and the tile at `(0, 1)` with an image update. -/
def image_unhandled : device_world :=
  ⟨functor_rpc.get_default image_update_data, fun _ _ _ => 'h',
    fun pass _ y =>
      if pass = 0 then
        (if y = 0 then some (.send_log_rpc ⟨0, 2⟩) else some (.image_update_rpc ⟨0, 0, 255, 1⟩))
      else none,
    demo_capacity, fun _ _ k => .ok (3 + k)⟩

/-- The strings sent to `std::cout` in a trace, in order. -/
def printed (t : List event) : List (List Char) :=
  t.filterMap (fun e => match e with
    | .cout str => some str
    | _ => none)

/-- The tiles for which the handler of log requests was called in a trace, in
the order of the calls. -/
def logged (t : List event) : List (Nat × Nat) :=
  t.filterMap (fun e => match e with
    | .act_on_data kind x y _ => if kind = 2 then some (x, y) else none
    | _ => none)

/-- The responses written in a trace, each with the tile it was written to, in
order. -/
def responses (t : List event) : List (Nat × Nat × Nat) :=
  t.filterMap (fun e => match e with
    | .mem_write x y ret => some (x, y, ret)
    | _ => none)

/-- What `wait_all` does in its first `n` scan passes when none of them is cut
short by an exception. -/
def host_side.trace_before (self : host_side) (w : device_world) : Nat → List event
  | 0 => []
  | n + 1 => host_side.trace_before self w n
      ++ self.scan_order.flatMap (fun t => body_events w n t.1 t.2)

/-- The tile `t` is found with a log request in scan pass `pass`. -/
def log_now (w : device_world) (pass : Nat) (t : Nat × Nat) : Bool :=
  match w.arrivals pass t.1 t.2 with
  | some (.send_log_rpc _) => true
  | _ => false

/-- The world `w` as a host serving the grid `self` sees it: nothing ever
arrives from a tile outside the grid. -/
def device_world.on_grid (w : device_world) (self : host_side) : device_world :=
  ⟨w.image_update, w.dev_mem,
    fun pass x y => if x < self.x_size ∧ y < self.y_size then w.arrivals pass x y else none,
    w.string_capacity, w.visit_undefined⟩

/-- A world in which every tile has the characters "hi" at address 100, is
found in the first scan pass with a log request for the 2 characters at that
address, in the second with its done signal, and is silent afterwards. -/
def hi_then_done : device_world :=
  ⟨functor_rpc.get_default image_update_data,
    fun _ _ addr => if addr = 100 then 'h' else if addr = 101 then 'i' else ' ',
    fun pass _ _ =>
      if pass = 0 then some (.send_log_rpc ⟨100, 2⟩)
      else if pass = 1 then some .done_rpc else none,
    demo_capacity, fun _ _ k => .ok (3 + k)⟩

/-- A world in which the tile of a 1 by 1 grid is found in the first scan pass
with a log request whose `size` is `2^64 - 1`. -/
def log_too_long : device_world :=
  ⟨functor_rpc.get_default image_update_data, fun _ _ _ => 'h',
    fun pass _ _ => if pass = 0 then some (.send_log_rpc ⟨100, 18446744073709551615⟩) else none,
    demo_capacity, fun _ _ k => .ok (3 + k)⟩

/-- Every request that arrives in `w` is a done signal or a log request that
designates the two characters "hi". -/
def says_hi (w : device_world) : Prop :=
  ∀ pass x y data, w.arrivals pass x y = some data →
    data = .done_rpc ∨ ∃ d, data = .send_log_rpc d ∧ d.size = 2 ∧
      d.size ≤ w.string_capacity ∧
      w.dev_mem x y d.data = 'h' ∧ w.dev_mem x y (d.data + 1) = 'i'

/-- The tiles polled in a trace, in the order of the calls of `try_arrive`. -/
def polled (t : List event) : List (Nat × Nat) :=
  t.filterMap (fun e => match e with
    | .try_arrive x y _ => some (x, y)
    | _ => none)

/-- The tiles for which a handler was called in a trace, in the order of the
calls. -/
def handled (t : List event) : List (Nat × Nat) :=
  t.filterMap (fun e => match e with
    | .act_on_data _ x y _ => some (x, y)
    | _ => none)

/-! ## Locks and grid barriers (`tile.hpp`, lines 488 to 496 and 552 to 678) -/

/-- The coordinates of a tile (`hw::position`): `x` grows towards the east and
`y` towards the north, both from 0. -/
structure position where
  x : Nat
  y : Nat
deriving DecidableEq, Repr

/-- The four directions in which a tile reaches a memory module (`hw::dir`). -/
inductive dir where
  | west
  | east
  | south
  | north
deriving DecidableEq, Repr

/-- The side on which a tile has its own memory module (`hw::parity`). -/
inductive parity where
  | west
  | east
deriving DecidableEq, Repr

/-- Modelled from the spec: the geometry provider `AIE_Program::geo`
(`geography.hpp` is not among the sources), reduced to the size of the grid.
Section 6: it answers neighbour existence and the row and column edge
predicates. -/
structure geography where
  x_size : Nat
  y_size : Nat
deriving DecidableEq, Repr

/-- Modelled from the spec: the edge predicate `geo::is_west_column`; the
western column is the one with `x = 0`. -/
def geography.is_west_column (_g : geography) (x : Nat) : Bool := decide (x = 0)

/-- Modelled from the spec: the edge predicate `geo::is_east_column`; the
eastern column is the last one. -/
def geography.is_east_column (g : geography) (x : Nat) : Bool := decide (x + 1 = g.x_size)

/-- Modelled from the spec: the edge predicate `geo::is_south_row`; the
southern row is the one with `y = 0`. -/
def geography.is_south_row (_g : geography) (y : Nat) : Bool := decide (y = 0)

/-- Modelled from the spec: the edge predicate `geo::is_north_row`; the
northern row is the last one. -/
def geography.is_north_row (g : geography) (y : Nat) : Bool := decide (y + 1 = g.y_size)

/-- Modelled from the spec: the neighbour predicate
`geo::is_memory_module(x, y, dx, dy)` for the four offsets a tile reaches, as
the `static_assert` messages of `tile::mem_west`, `mem_east`, `mem_south` and
`mem_north` describe it: there is no memory module on the left of a tile in
the left column and on an even row, none on the right of a tile in the right
column and on an odd row, none below the lower row and none above the upper
row. -/
def geography.is_memory_module (g : geography) (x y : Nat) (dx dy : Int) : Bool :=
  if dx = -1 ∧ dy = 0 then !(g.is_west_column x && decide (y % 2 = 0))
  else if dx = 1 ∧ dy = 0 then !(g.is_east_column x && decide (y % 2 = 1))
  else if dx = 0 ∧ dy = -1 then !(g.is_south_row y)
  else if dx = 0 ∧ dy = 1 then !(g.is_north_row y)
  else false

/-- Modelled from the spec: the member `hw::position::get_parity`
(`hardware.hpp` is not among the sources).  `tile::mem()` returns `mem_west()`
for parity west, and a memory module on the west exists for every tile on odd
rows only, so the tiles of odd rows have parity west. -/
def position.get_parity (p : position) : parity :=
  if p.y % 2 = 1 then .west else .east

/-- Modelled from the spec: the member `hw::position::moved`, the tile to which
the memory module in direction `d` belongs (section 3: a lock slot is owned by
exactly one tile and is addressable by its neighbours).  On its own side a tile
finds its own module, on the other side the module of its neighbour in the
row, to the north and south the modules of its neighbours in the column.
The subtractions are never used at 0: `horizontal_barrier` and
`vertical_barrier` guard them with `is_memory_module` and the edge
predicates. -/
def position.moved (p : position) (d : dir) : position :=
  match d with
  | .north => ⟨p.x, p.y + 1⟩
  | .south => ⟨p.x, p.y - 1⟩
  | .west => if p.get_parity = .west then p else ⟨p.x - 1, p.y⟩
  | .east => if p.get_parity = .east then p else ⟨p.x + 1, p.y⟩

/-- A lock slot: the tile whose memory module holds it and its index there. -/
structure lock_id where
  owner : position
  slot : Nat
deriving DecidableEq, Repr

/-- Modelled from the spec: the state of a lock slot (`lock.hpp` is not among
the sources).  Sections 2 and 4.1: a valued semaphore that holds a value and
is marked consumed by an `acquire` until the next `release`. -/
structure lock_unit where
  value : Bool
  consumed : Bool
deriving DecidableEq, Repr

/-- Modelled from the spec: `acquire(expected_value)` "blocks the calling side
until the slot's stored value equals `expected_value`, then atomically marks
it consumed", and blocks forever when "the invariant that releaser and acquirer
alternate is violated": it goes through when the slot is not consumed and holds
the expected value.  `none` stands for blocking. -/
def lock_unit.acquire_with_value (l : lock_unit) (expected : Bool) : Option lock_unit :=
  if l.consumed = false ∧ l.value = expected then some ⟨l.value, true⟩ else none

/-- Modelled from the spec: `release(new_value)` "stores `new_value` and
unblocks any waiter whose expected value matches". -/
def lock_unit.release_with_value (_l : lock_unit) (new_value : Bool) : lock_unit :=
  ⟨new_value, false⟩

/-- The lock operations a tile performs, as calls on the `hw_lock` of a slot. -/
inductive lock_op where
  | acquire_with_value (l : lock_id) (v : Bool)
  | release_with_value (l : lock_id) (v : Bool)
deriving DecidableEq, Repr

/-- The slot an operation is performed on. -/
def lock_op.lock : lock_op → lock_id
  | .acquire_with_value l _ => l
  | .release_with_value l _ => l

/-- The member `tile::is_west_column()` (lines 290 to 292). -/
def tile.is_west_column (g : geography) (p : position) : Bool := g.is_west_column p.x

/-- The member `tile::is_east_column()` (lines 296 to 298). -/
def tile.is_east_column (g : geography) (p : position) : Bool := g.is_east_column p.x

/-- The member `tile::is_south_row()` (lines 302 to 304). -/
def tile.is_south_row (g : geography) (p : position) : Bool := g.is_south_row p.y

/-- The member `tile::is_north_row()` (lines 308 to 310). -/
def tile.is_north_row (g : geography) (p : position) : Bool := g.is_north_row p.y

/-- The member `tile::is_memory_module(dx, dy)` (lines 367 to 369). -/
def tile.is_memory_module (g : geography) (p : position) (dx dy : Int) : Bool :=
  g.is_memory_module p.x p.y dx dy

/-- The member `tile::is_memory_module_west()` (lines 373 to 375). -/
def tile.is_memory_module_west (g : geography) (p : position) : Bool :=
  tile.is_memory_module g p (-1) 0

/-- The member `tile::is_memory_module_east()` (lines 379 to 381). -/
def tile.is_memory_module_east (g : geography) (p : position) : Bool :=
  tile.is_memory_module g p 1 0

/-- The member `tile::is_memory_module_south()` (lines 385 to 387). -/
def tile.is_memory_module_south (g : geography) (p : position) : Bool :=
  tile.is_memory_module g p 0 (-1)

/-- The member `tile::is_memory_module_north()` (lines 391 to 393). -/
def tile.is_memory_module_north (g : geography) (p : position) : Bool :=
  tile.is_memory_module g p 0 1

/-- The member `tile_hw_impl::get_lock(d, i)`: lock `i` of the memory module in
direction `d` (lines 93 to 99). -/
def tile.get_lock (p : position) (d : dir) (i : Nat) : lock_id := ⟨p.moved d, i⟩

/-- The member `tile::get_self_lock(i)` (lines 491 to 496). -/
def tile.get_self_lock (p : position) (i : Nat) : lock_id :=
  if p.get_parity = .west then tile.get_lock p .west i else tile.get_lock p .east i

/-- The member `tile::horizontal_barrier(lock)` of the tile at `p` (lines 559
to 597): the lock operations it performs, in order.  All its conditions are
`if constexpr` on the coordinates of the tile. -/
def tile.horizontal_barrier (g : geography) (p : position) (lock : Nat) : List lock_op :=
  (if p.y % 2 = 1 then
    (if !tile.is_west_column g p then
      [.acquire_with_value (tile.get_self_lock p lock) true] else []) ++
    (if tile.is_memory_module_east g p then
      [.acquire_with_value (tile.get_lock p .east lock) false,
       .release_with_value (tile.get_lock p .east lock) true,
       .acquire_with_value (tile.get_lock p .east lock) false] else []) ++
    (if !tile.is_west_column g p then
      [.release_with_value (tile.get_self_lock p lock) false] else [])
  else
    (if !tile.is_east_column g p then
      [.acquire_with_value (tile.get_self_lock p lock) true] else []) ++
    (if tile.is_memory_module_west g p then
      [.acquire_with_value (tile.get_lock p .west lock) false,
       .release_with_value (tile.get_lock p .west lock) true,
       .acquire_with_value (tile.get_lock p .west lock) false] else []) ++
    (if !tile.is_east_column g p then
      [.release_with_value (tile.get_self_lock p lock) false] else []))
  ++ [.release_with_value (tile.get_self_lock p lock) false]

/-- The member `tile::vertical_barrier(lock)` of the tile at `p` (lines 646 to
668). -/
def tile.vertical_barrier (g : geography) (p : position) (lock : Nat) : List lock_op :=
  (if !tile.is_south_row g p then
    [.acquire_with_value (tile.get_self_lock p lock) true] else []) ++
  (if tile.is_memory_module_north g p then
    [.acquire_with_value (tile.get_lock p .north lock) false,
     .release_with_value (tile.get_lock p .north lock) true,
     .acquire_with_value (tile.get_lock p .north lock) false] else []) ++
  (if !tile.is_south_row g p then
    [.release_with_value (tile.get_self_lock p lock) false] else []) ++
  [.release_with_value (tile.get_self_lock p lock) false]

/-- The member `tile::barrier(h_id, v_id)` (lines 675 to 678):
`horizontal_barrier(h_id); vertical_barrier(v_id);`. -/
def tile.barrier (g : geography) (p : position) (h_id v_id : Nat) : List lock_op :=
  tile.horizontal_barrier g p h_id ++ tile.vertical_barrier g p v_id

/-- The default arguments of `horizontal_barrier`, `vertical_barrier` and
`barrier`: lock 14 for the rows and lock 15 for the columns. -/
def tile.default_h_id : Nat := 14

/-- The default lock of `vertical_barrier`. -/
def tile.default_v_id : Nat := 15

/-! ## The tiles of a grid running side by side -/

/-- The tile at `p` belongs to the grid. -/
def geography.in_grid (g : geography) (p : position) : Prop :=
  p.x < g.x_size ∧ p.y < g.y_size

instance (g : geography) (p : position) : Decidable (g.in_grid p) := by
  unfold geography.in_grid; exact inferInstance

/-- The state of the grid while every tile runs its list of lock operations:
for each tile a counter, 0 before the tile has made its call and `k + 1` once
it is inside the call and has performed `k` operations, and the state of
every lock slot. -/
structure grid_state where
  pc : position → Nat
  locks : lock_id → lock_unit

/-- No tile has made its call, every lock is "not armed" and free. -/
def grid_state.init : grid_state := ⟨fun _ => 0, fun _ => ⟨false, false⟩⟩

/-- The effect of a lock operation on the locks, `none` when it blocks. -/
def lock_op.apply (op : lock_op) (locks : lock_id → lock_unit) :
    Option (lock_id → lock_unit) :=
  match op with
  | .acquire_with_value l v =>
      ((locks l).acquire_with_value v).map (fun u => Function.update locks l u)
  | .release_with_value l v =>
      some (Function.update locks l ((locks l).release_with_value v))

/-- One step of the tile at `p`, whose call performs the operations `prog p`:
it makes the call, or performs its next operation.  `none` when the operation
blocks or the tile has returned. -/
def tile_step (prog : position → List lock_op) (s : grid_state) (p : position) :
    Option grid_state :=
  match s.pc p with
  | 0 => some ⟨Function.update s.pc p 1, s.locks⟩
  | k + 1 =>
      match (prog p)[k]? with
      | none => none
      | some op => (op.apply s.locks).map (fun locks => ⟨Function.update s.pc p (k + 2), locks⟩)

/-- The states the grid can reach from the initial state under any
interleaving of the steps of its tiles. -/
inductive grid_reachable (g : geography) (prog : position → List lock_op) :
    grid_state → Prop where
  | init : grid_reachable g prog grid_state.init
  | step {s s1 : grid_state} (p : position) : grid_reachable g prog s → g.in_grid p →
      tile_step prog s p = some s1 → grid_reachable g prog s1

/-- The tile at `p` has made its call. -/
def grid_state.entered (s : grid_state) (p : position) : Prop := 0 < s.pc p

/-- The tile at `p` has returned from its call. -/
def grid_state.returned (prog : position → List lock_op) (s : grid_state) (p : position) :
    Prop :=
  s.pc p = (prog p).length + 1

/-- The lock operation the tile at `p` performs next, whether or not it has
made its call yet; `none` when it has returned. -/
def grid_state.next_op (prog : position → List lock_op) (s : grid_state) (p : position) :
    Option lock_op :=
  (prog p)[s.pc p - 1]?

/-- The operation does not block in the state `s`. -/
def lock_op.enabled (s : grid_state) (op : lock_op) : Bool :=
  (op.apply s.locks).isSome

/-- The state reached by letting the tiles of `schedule` take one step each,
in that order; `none` when one of them cannot. -/
def run_schedule (prog : position → List lock_op) :
    grid_state → List position → Option grid_state
  | s, [] => some s
  | s, p :: rest =>
      match tile_step prog s p with
      | none => none
      | some s1 => run_schedule prog s1 rest

/-- The number of operations on the lock `l` among the first `k` of a list. -/
def ops_on (l : lock_id) (ops : List lock_op) : Nat :=
  ops.countP (fun op => decide (op.lock = l))

/-- The number of operations on the lock `l` the tile at `p` has performed. -/
def grid_state.count (prog : position → List lock_op) (s : grid_state) (l : lock_id)
    (p : position) : Nat :=
  ops_on l ((prog p).take (s.pc p - 1))

/-- The protocol on one lock between the tile that arms it, which has performed
`na` of its three operations on it (acquire "not armed", release "armed",
acquire "not armed"), and the tile that owns it, which has performed `nb` of
its three (acquire "armed", release "not armed", release "not armed"). -/
def lock_protocol_ok (na nb : Nat) (u : lock_unit) : Prop :=
  (u.value = true ↔ 2 ≤ na ∧ nb < 2) ∧ (1 ≤ nb → 2 ≤ na) ∧ (3 ≤ na → 2 ≤ nb) ∧
  (u.consumed = true → na = 1 ∨ nb = 1 ∨ 3 ≤ na)

/-- The procedure of one tile of a line of tiles through which a token
travels and comes back: unless the tile is the first of the line, acquire its
own lock "armed"; if it has a successor, acquire the lock of the successor "not
armed", release it "armed", acquire it "not armed"; unless it is the first,
release its own lock "not armed"; at last release its own lock "not armed". -/
def token_phase (own : lock_id) (first : Bool) (succ : Option lock_id) : List lock_op :=
  (if first then [] else [.acquire_with_value own true]) ++
  (match succ with
    | none => []
    | some l => [.acquire_with_value l false, .release_with_value l true,
        .acquire_with_value l false]) ++
  (if first then [] else [.release_with_value own false]) ++
  [.release_with_value own false]

/-- The lock of the successor of the tile number `k` of a line of `n` tiles. -/
def chain_succ (slot n : Nat) (tile : Nat → position) (k : Nat) : Option lock_id :=
  if k + 1 < n then some ⟨tile (k + 1), slot⟩ else none

/-- The tiles `tile 0`, ..., `tile (n - 1)` form a line through which a token
travels on the locks `slot`: the operations of each are some operations on
other locks, then its `token_phase`, then some operations on other locks, and
no other tile of the grid operates on the locks `slot` of the line. -/
structure token_chain (g : geography) (prog : position → List lock_op) (slot n : Nat)
    (tile : Nat → position) (pre post : Nat → List lock_op) : Prop where
  inj : ∀ j k, j < n → k < n → tile j = tile k → j = k
  prog_eq : ∀ k, k < n → prog (tile k)
    = pre k ++ token_phase ⟨tile k, slot⟩ (decide (k = 0)) (chain_succ slot n tile k) ++ post k
  pre_free : ∀ k, k < n → ∀ op ∈ pre k, ∀ j, j < n → op.lock ≠ ⟨tile j, slot⟩
  post_free : ∀ k, k < n → ∀ op ∈ post k, ∀ j, j < n → op.lock ≠ ⟨tile j, slot⟩
  others : ∀ q, g.in_grid q → (∀ k, k < n → q ≠ tile k) →
    ∀ op ∈ prog q, ∀ j, j < n → op.lock ≠ ⟨tile j, slot⟩

/-- The tile number `k` of a line has passed its token phase: it has performed
all its operations on its own lock and on the lock of its successor. -/
def chain_passed (prog : position → List lock_op) (slot n : Nat) (tile : Nat → position)
    (s : grid_state) (k : Nat) : Prop :=
  (1 ≤ k → 1 ≤ s.count prog ⟨tile k, slot⟩ (tile k)) ∧
  (k + 1 < n → 3 ≤ s.count prog ⟨tile (k + 1), slot⟩ (tile k))

/-- The tile number `j` of a line has performed an operation on one of the
locks of the line. -/
def chain_acted (prog : position → List lock_op) (slot n : Nat) (tile : Nat → position)
    (s : grid_state) (j : Nat) : Prop :=
  ∃ i, i < n ∧ 1 ≤ s.count prog ⟨tile i, slot⟩ (tile j)

/-- The tile number `k` of the row `y` in the order in which the token of
`horizontal_barrier` travels: from the west on odd rows (`y & 1`), from the
east on even rows. -/
def row_tile (g : geography) (y k : Nat) : position :=
  if y % 2 = 1 then ⟨k, y⟩ else ⟨g.x_size - 1 - k, y⟩

/-- The tile number `k` of the column `x` in the order in which the token of
`vertical_barrier` travels: from the south. -/
def column_tile (x k : Nat) : position := ⟨x, k⟩

/-- A schedule of the two tiles of a 2 by 1 grid through
`horizontal_barrier(14)`: both make the call, the eastern tile arms the lock of
the western tile, the western tile acquires it and acknowledges, the eastern
tile sees the acknowledgement, both reset their own lock. -/
def row_demo_schedule : List position :=
  [⟨1, 0⟩, ⟨0, 0⟩, ⟨1, 0⟩, ⟨1, 0⟩, ⟨0, 0⟩, ⟨0, 0⟩, ⟨1, 0⟩, ⟨0, 0⟩, ⟨1, 0⟩]

/-- The state of the 2 by 1 grid after `row_demo_schedule`. -/
def row_demo_state : grid_state :=
  (run_schedule (fun t => tile.horizontal_barrier ⟨2, 1⟩ t 14) grid_state.init
    row_demo_schedule).getD grid_state.init

/-- A schedule of three of the four tiles of a 2 by 2 grid through
`barrier(14, 14)`: the two tiles of the southern row pass their row, then the
tile at `(1, 0)` exchanges the token of its column with the tile at `(1, 1)`,
which takes it for the token of its row.  The tile at `(0, 1)` takes no
step. -/
def same_slot_schedule : List position :=
  [⟨1, 0⟩, ⟨0, 0⟩, ⟨1, 1⟩, ⟨1, 0⟩, ⟨1, 0⟩, ⟨0, 0⟩, ⟨0, 0⟩, ⟨1, 0⟩, ⟨0, 0⟩, ⟨1, 0⟩,
   ⟨1, 0⟩, ⟨1, 0⟩, ⟨1, 1⟩, ⟨1, 1⟩, ⟨1, 0⟩, ⟨1, 0⟩]

/-- The state of the 2 by 2 grid after `same_slot_schedule`. -/
def same_slot_state : grid_state :=
  (run_schedule (fun t => tile.barrier ⟨2, 2⟩ t 14 14) grid_state.init
    same_slot_schedule).getD grid_state.init

/-- A schedule of the two tiles of a 2 by 1 grid through `barrier(14, 15)`:
after the western tile has acknowledged on its lock 14, it also resets it
before the eastern tile acquires it for the second time. -/
def round_trip_schedule : List position :=
  [⟨1, 0⟩, ⟨0, 0⟩, ⟨1, 0⟩, ⟨1, 0⟩, ⟨0, 0⟩, ⟨0, 0⟩, ⟨0, 0⟩, ⟨0, 0⟩, ⟨1, 0⟩, ⟨1, 0⟩, ⟨1, 0⟩]

/-- The state of the 2 by 1 grid after `round_trip_schedule`, when every tile
calls `barrier(14, 15)` once. -/
def round_trip_state : grid_state :=
  (run_schedule (fun t => tile.barrier ⟨2, 1⟩ t 14 15) grid_state.init
    round_trip_schedule).getD grid_state.init

/-- The lock operations of a tile that calls `barrier(14, 15)` twice in a
row. -/
def barrier_twice (g : geography) (t : position) : List lock_op :=
  tile.barrier g t 14 15 ++ tile.barrier g t 14 15

/-- The state of the 2 by 1 grid after `round_trip_schedule`, when every tile
calls `barrier(14, 15)` twice in a row. -/
def second_call_state : grid_state :=
  (run_schedule (barrier_twice ⟨2, 1⟩) grid_state.init round_trip_schedule).getD
    grid_state.init

/-- A schedule of the two western tiles of the northern row of an 8 by 2 grid
through `horizontal_barrier(14)`: the first arms the lock of the second, which
acquires it. -/
def row8_schedule : List position :=
  [⟨0, 1⟩, ⟨0, 1⟩, ⟨0, 1⟩, ⟨1, 1⟩, ⟨1, 1⟩]

/-- The state of the 8 by 2 grid after `row8_schedule`. -/
def row8_state : grid_state :=
  (run_schedule (fun t => tile.horizontal_barrier ⟨8, 2⟩ t 14) grid_state.init
    row8_schedule).getD grid_state.init

/-- The call that performs `ops` waits for a token on the lock `own`: it
acquires it with value "armed", as a tile does that is not the first of its
line ("wait for the neighbour to be ready"). -/
def waits_for_token (own : lock_id) (ops : List lock_op) : Bool :=
  decide (lock_op.acquire_with_value own true ∈ ops)

/-- The tiles that the call that performs `ops` unleashes: the owners of the
locks it releases with value "armed". -/
def unleashed (ops : List lock_op) : List position :=
  ops.filterMap (fun op => match op with
    | .release_with_value l true => some l.owner
    | _ => none)

/-! ## The ports of a connection (`connection.hpp`, lines 55 to 124) -/

/-- A C++ type as far as a port is concerned: the name under which
`boost::typeindex::type_id<T>().pretty_name()` reports it. -/
structure cpp_type where
  pretty_name : String
deriving DecidableEq, Repr

/-- What the `std::any` of a connection holds: the communication medium given
to the constructor of `connection`, a `cl::sycl::static_pipe<T, capacity>` or a
value of some other type. -/
inductive std_any where
  | static_pipe (T : cpp_type) (capacity : Nat)
  | other (type : cpp_type)
deriving DecidableEq, Repr

/-- The template parameter `access::mode` of `get_access`. -/
inductive access_mode where
  | read
  | write
deriving DecidableEq, Repr

/-- The template parameter `access::target` of `in` and `out`, by the value of
its enumerator (`access.hpp` is not among the sources): it tells whether the
accessor is blocking and is handed on to `get_access` as it is. -/
structure access_target where
  value : Nat
deriving DecidableEq, Repr

/-- The accessor `get_access<mode, Target>()` returns on a `static_pipe` of
elements of type `T`. -/
structure pipe_accessor where
  T : cpp_type
  mode : access_mode
  target : access_target
deriving DecidableEq, Repr

/-- How a call on a port ends when it does not return an accessor. -/
inductive port_failure where
  /-- A `cl::sycl::runtime_error` was thrown, with its message. -/
  | runtime_error (what : String)
  /-- The null `std::shared_ptr` `p` was dereferenced (`*p`): the behaviour is
  undefined. -/
  | null_dereference
deriving DecidableEq, Repr

/-- The class `connection::base` (lines 56 to 80): the member `p`, a
`std::shared_ptr<std::any>`; `none` is the null pointer that `base() = default`
leaves. -/
structure connection.base where
  p : Option std_any
deriving DecidableEq, Repr

/-- The member `base::pipe_of<T>()` (lines 69 to 78):
`std::any_cast<cl::sycl::static_pipe<T, 4>>(*p)`, a `std::bad_any_cast` being
turned into a `runtime_error`. -/
def connection.base.pipe_of (self : connection.base) (T : cpp_type) : Except port_failure std_any :=
  match self.p with
  | none => .error .null_dereference
  | some a =>
      if a = .static_pipe T 4 then .ok a
      else .error (.runtime_error ("The current connection is not of type " ++ T.pretty_name))

/-- The member `input::in<InputT, Target>()` (lines 95 to 101).  Its first
statement, `if (!p) cl::sycl::runtime_error { "This input is not connected" };`,
builds an exception object and drops it: there is no `throw`, so nothing is
raised and the function goes on to `pipe_of<InputT>()`. -/
def connection.input.in_ (self : connection.base) (InputT : cpp_type)
    (Target : access_target) : Except port_failure pipe_accessor :=
  let _dropped : Option port_failure :=
    if self.p.isNone then some (.runtime_error "This input is not connected") else none
  match self.pipe_of InputT with
  | .error e => .error e
  | .ok _ => .ok ⟨InputT, .read, Target⟩

/-- The member `output::out<OutputT, Target>()` (lines 117 to 123). -/
def connection.output.out (self : connection.base) (OutputT : cpp_type)
    (Target : access_target) : Except port_failure pipe_accessor :=
  if self.p.isNone then .error (.runtime_error "This output is not connected")
  else
    match self.pipe_of OutputT with
    | .error e => .error e
    | .ok _ => .ok ⟨OutputT, .write, Target⟩

/-! ## Properties of the dispatch loop -/

theorem Var.index_eq_zero_iff (v : Var) : v.index = 0 ↔ v = .done_rpc := by
  cases v <;> simp [Var.index]

/-- The handler of log requests prints one string and returns 0, or refuses the
size and does nothing. -/
theorem send_log_cases (w : device_world) (x y : Nat) (d : send_log_data) :
    (d.size ≤ w.string_capacity ∧ send_log_rpc.act_on_data w x y d
      = ([.cout ((List.range d.size).map (fun i => w.dev_mem x y (d.data + i)))], .ok 0)) ∨
    (w.string_capacity < d.size ∧
      send_log_rpc.act_on_data w x y d = ([], .error .length_error)) := by
  unfold send_log_rpc.act_on_data
  by_cases h : d.size ≤ w.string_capacity
  · exact Or.inl ⟨h, by rw [if_pos h]⟩
  · exact Or.inr ⟨by omega, by rw [if_neg h]⟩

theorem visit_handler_calls (w : device_world) (x y : Nat) (v : Var) (h3 : v.index < 3) :
    handler_calls (host_side.visit w x y v).1 = 1 := by
  cases v with
  | garbage k => simp [Var.index] at h3
  | send_log_rpc d =>
      rcases send_log_cases w x y d with ⟨_, h⟩ | ⟨_, h⟩ <;>
        simp [host_side.visit, handler_calls, h]
  | _ => simp [host_side.visit, handler_calls, done_rpc.act_on_data]

theorem visit_arrivals_seen (w : device_world) (x y : Nat) (v : Var) :
    arrivals_seen (host_side.visit w x y v).1 = 0 := by
  cases v with
  | send_log_rpc d =>
      rcases send_log_cases w x y d with ⟨_, h⟩ | ⟨_, h⟩ <;>
        simp [host_side.visit, arrivals_seen, h]
  | _ => simp [host_side.visit, arrivals_seen, done_rpc.act_on_data]

theorem visit_done_reads (w : device_world) (x y : Nat) (v : Var) :
    done_reads (host_side.visit w x y v).1 = 0 := by
  cases v with
  | send_log_rpc d =>
      rcases send_log_cases w x y d with ⟨_, h⟩ | ⟨_, h⟩ <;>
        simp [host_side.visit, done_reads, h]
  | _ => simp [host_side.visit, done_reads, done_rpc.act_on_data]

theorem visit_no_read (w : device_world) (x y : Nat) (data : Var) (x1 y1 : Nat) (d1 : Var) :
    event.memcpy_d2h x1 y1 d1 ∉ (host_side.visit w x y data).1 := by
  cases data with
  | send_log_rpc d =>
      rcases send_log_cases w x y d with ⟨_, h⟩ | ⟨_, h⟩ <;> simp [host_side.visit, h]
  | _ => simp [host_side.visit, done_rpc.act_on_data]

/-- One execution of the loop body, whether it completes or throws, appends
`body_events` to the trace and adds `body_done` to the counter. -/
theorem wait_all_body_spec (w : device_world) (pass x y : Nat) (st st1 : wait_state)
    (h : host_side.wait_all_body w pass x y st = .ok st1 ∨
        ∃ e, host_side.wait_all_body w pass x y st = .error (e, st1)) :
    st1 = ⟨st.done_counter + body_done w pass x y, st.trace ++ body_events w pass x y⟩ := by
  unfold host_side.wait_all_body at h
  unfold body_done body_events follow_events
  cases ha : w.arrivals pass x y with
  | none =>
      simp [ha] at h
      subst h
      simp
  | some data =>
      simp only [ha] at h
      by_cases h0 : data.index = 0
      · have hd := (Var.index_eq_zero_iff data).1 h0
        simp [h0] at h
        subst h
        simp [hd, Var.index]
      · have hd : data ≠ .done_rpc := fun hd => h0 ((Var.index_eq_zero_iff data).2 hd)
        simp only [h0, if_false] at h
        rcases hvis : host_side.visit w x y data with ⟨evs, r⟩
        rw [hvis] at h
        cases r with
        | ok ret =>
            simp at h
            subst h
            simp [hd, h0, hvis]
        | error e =>
            simp at h
            obtain ⟨_, rfl⟩ := h
            simp [hd, h0, hvis]

theorem wait_all_scan_invariant (w : device_world) (P : wait_state → Prop)
    (hstep : ∀ pass x y st, P st →
      P ⟨st.done_counter + body_done w pass x y, st.trace ++ body_events w pass x y⟩)
    (pass : Nat) : ∀ (L : List (Nat × Nat)) (st st1 : wait_state), P st →
      (host_side.wait_all_scan w pass L st = .ok st1 ∨
        ∃ e, host_side.wait_all_scan w pass L st = .error (e, st1)) → P st1 := by
  intro L
  induction L with
  | nil =>
      intro st st1 hP h
      simp [host_side.wait_all_scan] at h
      subst h
      exact hP
  | cons t rest ih =>
      intro st st1 hP h
      obtain ⟨x, y⟩ := t
      unfold host_side.wait_all_scan at h
      cases hb : host_side.wait_all_body w pass x y st with
      | ok st2 =>
          rw [hb] at h
          have h2 := wait_all_body_spec w pass x y st st2 (Or.inl hb)
          exact ih st2 st1 (h2 ▸ hstep pass x y st hP) h
      | error e =>
          obtain ⟨e1, st2⟩ := e
          rw [hb] at h
          simp at h
          obtain ⟨_, h, rfl⟩ := h
          have h2 := wait_all_body_spec w pass x y st st1 (Or.inr ⟨e1, hb⟩)
          exact h2 ▸ hstep pass x y st hP

theorem wait_all_loop_invariant (self : host_side) (w : device_world) (P : wait_state → Prop)
    (hstep : ∀ pass x y st, P st →
      P ⟨st.done_counter + body_done w pass x y, st.trace ++ body_events w pass x y⟩) :
    ∀ (fuel pass : Nat) (st : wait_state), P st →
      P (host_side.wait_all_loop self w fuel pass st).state := by
  intro fuel
  induction fuel with
  | zero =>
      intro pass st hP
      simpa [host_side.wait_all_loop, outcome.state] using hP
  | succ fuel ih =>
      intro pass st hP
      unfold host_side.wait_all_loop
      cases hs : host_side.wait_all_scan w pass self.scan_order st with
      | error e =>
          obtain ⟨e1, st2⟩ := e
          simp only [outcome.state]
          exact wait_all_scan_invariant w P hstep pass _ st st2 hP (Or.inr ⟨e1, hs⟩)
      | ok st2 =>
          have h2 := wait_all_scan_invariant w P hstep pass _ st st2 hP (Or.inl hs)
          simp only
          split
          · exact ih (pass + 1) st2 h2
          · simpa [outcome.state] using h2

theorem body_events_tally (w : device_world) (pass x y : Nat)
    (hvalid : ∀ data, w.arrivals pass x y = some data → data.index < 3) :
    handler_calls (body_events w pass x y) + body_done w pass x y
      = arrivals_seen (body_events w pass x y) := by
  unfold body_events body_done follow_events
  cases ha : w.arrivals pass x y with
  | none => simp [handler_calls, arrivals_seen]
  | some data =>
      have h3 := hvalid data ha
      have hv := visit_handler_calls w x y data h3
      have hs := visit_arrivals_seen w x y data
      by_cases h0 : data.index = 0
      · have hd := (Var.index_eq_zero_iff data).1 h0
        simp [hd, Var.index, handler_calls, arrivals_seen]
      · have hd : data ≠ .done_rpc := fun hd => h0 ((Var.index_eq_zero_iff data).2 hd)
        simp only [handler_calls, arrivals_seen] at hv hs
        cases hr : (host_side.visit w x y data).2 <;>
          simp [hd, h0, hr, handler_calls, arrivals_seen, List.countP_append,
            List.countP_cons, hv, hs]

theorem scan_order_length (self : host_side) :
    self.scan_order.length = self.x_size * self.y_size := by
  unfold host_side.scan_order
  generalize self.x_size = X
  induction X with
  | zero => simp
  | succ n ih =>
      rw [List.range_succ, List.flatMap_append, List.length_append, ih]
      simp [Nat.succ_mul]

theorem mem_scan_order (self : host_side) (t : Nat × Nat) :
    t ∈ self.scan_order ↔ t.1 < self.x_size ∧ t.2 < self.y_size := by
  obtain ⟨x, y⟩ := t
  simp [host_side.scan_order, List.mem_flatMap]

theorem wait_all_body_ok (w : device_world) (pass x y : Nat) (st : wait_state)
    (hok : ∀ data, w.arrivals pass x y = some data → data.index ≠ 0 →
      ∃ r, (host_side.visit w x y data).2 = .ok r) :
    ∃ st1, host_side.wait_all_body w pass x y st = .ok st1 := by
  unfold host_side.wait_all_body
  cases ha : w.arrivals pass x y with
  | none => simp
  | some data =>
      by_cases h0 : data.index = 0
      · simp [h0]
      · obtain ⟨r, hr⟩ := hok data ha h0
        rcases hvis : host_side.visit w x y data with ⟨evs, r1⟩
        rw [hvis] at hr
        simp only at hr
        subst hr
        simp [h0, hvis]

theorem wait_all_scan_ok (w : device_world) (pass : Nat)
    (hok : ∀ x y data, w.arrivals pass x y = some data → data.index ≠ 0 →
      ∃ r, (host_side.visit w x y data).2 = .ok r) :
    ∀ (L : List (Nat × Nat)) (st : wait_state), ∃ st1,
      host_side.wait_all_scan w pass L st = .ok st1 ∧
      st1.done_counter = st.done_counter + L.countP (done_now w pass) := by
  intro L
  induction L with
  | nil => intro st; exact ⟨st, by simp [host_side.wait_all_scan]⟩
  | cons t rest ih =>
      intro st
      obtain ⟨x, y⟩ := t
      obtain ⟨st2, h2⟩ := wait_all_body_ok w pass x y st (hok x y)
      have hspec := wait_all_body_spec w pass x y st st2 (Or.inl h2)
      obtain ⟨st1, h1, hc⟩ := ih st2
      refine ⟨st1, ?_, ?_⟩
      · simp [host_side.wait_all_scan, h2, h1]
      · rw [hc, hspec]
        simp only [body_done, done_now, List.countP_cons]
        by_cases hd : w.arrivals pass x y = some .done_rpc
        · simp [hd]; omega
        · simp [hd]

theorem wait_all_scan_counter (w : device_world) (pass : Nat) :
    ∀ (L : List (Nat × Nat)) (st st1 : wait_state),
      host_side.wait_all_scan w pass L st = .ok st1 →
      st1.done_counter = st.done_counter + L.countP (done_now w pass) := by
  intro L
  induction L with
  | nil =>
      intro st st1 h
      simp only [host_side.wait_all_scan, Except.ok.injEq] at h
      subst h
      simp
  | cons t rest ih =>
      intro st st1 h
      obtain ⟨x, y⟩ := t
      unfold host_side.wait_all_scan at h
      cases hb : host_side.wait_all_body w pass x y st with
      | error e => rw [hb] at h; cases h
      | ok st2 =>
          rw [hb] at h
          have hspec := wait_all_body_spec w pass x y st st2 (Or.inl hb)
          rw [ih st2 st1 h, hspec]
          simp only [body_done, done_now, List.countP_cons]
          by_cases hd : w.arrivals pass x y = some .done_rpc
          · simp [hd]; omega
          · simp [hd]

/-- When `wait_all` returns, whatever the requests were, its counter is the
number of done signals found in the passes it made, and that number had not
reached `x_size * y_size` before the last of them. -/
theorem wait_all_loop_returned (self : host_side) (w : device_world) :
    ∀ (fuel pass : Nat) (st st1 : wait_state), st.done_counter = self.dones_before w pass →
      host_side.wait_all_loop self w fuel pass st = .returned st1 →
      ∃ m, pass ≤ m ∧ m < pass + fuel ∧ st1.done_counter = self.dones_before w (m + 1) ∧
        self.x_size * self.y_size ≤ self.dones_before w (m + 1) := by
  intro fuel
  induction fuel with
  | zero => intro pass st st1 _ h; simp [host_side.wait_all_loop] at h
  | succ fuel ih =>
      intro pass st st1 hst h
      unfold host_side.wait_all_loop at h
      cases hs : host_side.wait_all_scan w pass self.scan_order st with
      | error e =>
          obtain ⟨e1, st2⟩ := e
          rw [hs] at h
          cases h
      | ok st2 =>
          rw [hs] at h
          simp only at h
          have hc2 : st2.done_counter = self.dones_before w (pass + 1) := by
            rw [wait_all_scan_counter w pass _ st st2 hs, hst]
            rfl
          split at h
          · obtain ⟨m, hm1, hm2, hm3, hm4⟩ := ih (pass + 1) st2 st1 hc2 h
            exact ⟨m, by omega, by omega, hm3, hm4⟩
          · injection h with h
            subst h
            exact ⟨pass, le_refl _, by omega, hc2, by omega⟩

theorem wait_all_loop_char (self : host_side) (w : device_world)
    (hok : ∀ pass x y data, w.arrivals pass x y = some data → data.index ≠ 0 →
      ∃ r, (host_side.visit w x y data).2 = .ok r) :
    ∀ (fuel pass : Nat) (st : wait_state), st.done_counter = self.dones_before w pass →
      (∃ st1, host_side.wait_all_loop self w fuel pass st = .returned st1 ∧
        ∃ m, pass ≤ m ∧ m < pass + fuel ∧ st1.done_counter = self.dones_before w (m + 1) ∧
          self.x_size * self.y_size ≤ self.dones_before w (m + 1) ∧
          ∀ k, pass < k → k ≤ m → self.dones_before w k < self.x_size * self.y_size) ∨
      (∃ st1, host_side.wait_all_loop self w fuel pass st = .still_waiting st1 ∧
        st1.done_counter = self.dones_before w (pass + fuel) ∧
        ∀ k, pass < k → k ≤ pass + fuel →
          self.dones_before w k < self.x_size * self.y_size) := by
  intro fuel
  induction fuel with
  | zero =>
      intro pass st hst
      right
      refine ⟨st, by simp [host_side.wait_all_loop], by simpa using hst, ?_⟩
      intro k h1 h2
      omega
  | succ fuel ih =>
      intro pass st hst
      obtain ⟨st2, hs, hc⟩ := wait_all_scan_ok w pass (hok pass) self.scan_order st
      have hc2 : st2.done_counter = self.dones_before w (pass + 1) := by
        rw [hc, hst]; rfl
      unfold host_side.wait_all_loop
      rw [hs]
      simp only
      by_cases hlt : st2.done_counter < self.x_size * self.y_size
      · rw [if_pos hlt]
        rcases ih (pass + 1) st2 hc2 with ⟨st1, h1, m, hm1, hm2, hm3, hm4, hm5⟩ | ⟨st1, h1, h2, h3⟩
        · left
          refine ⟨st1, h1, m, by omega, by omega, hm3, hm4, ?_⟩
          intro k hk1 hk2
          by_cases hk : k = pass + 1
          · subst hk; rw [← hc2]; exact hlt
          · exact hm5 k (by omega) hk2
        · right
          refine ⟨st1, h1, by rw [h2]; congr 1; omega, ?_⟩
          intro k hk1 hk2
          by_cases hk : k = pass + 1
          · subst hk; rw [← hc2]; exact hlt
          · exact h3 k (by omega) (by omega)
      · rw [if_neg hlt]
        left
        refine ⟨st2, rfl, pass, le_refl _, by omega, hc2, by rw [← hc2]; omega, ?_⟩
        intro k h1 h2
        omega

theorem countP_add_of_disjoint {α : Type} (p q : α → Bool) (L : List α)
    (h : ∀ t ∈ L, ¬ (p t = true ∧ q t = true)) :
    L.countP p + L.countP q = L.countP (fun t => p t || q t) := by
  induction L with
  | nil => simp
  | cons a rest ih =>
      have ih2 := ih (fun t ht => h t (List.mem_cons_of_mem a ht))
      have ha := h a (List.mem_cons_self a rest)
      simp only [List.countP_cons]
      cases hp : p a <;> cases hq : q a <;> simp_all <;> omega

theorem done_before_succ (w : device_world) (n : Nat) (t : Nat × Nat) :
    done_before w (n + 1) t = (done_before w n t || done_now w n t) := by
  simp [done_before, List.range_succ, List.any_append]

theorem done_before_iff (w : device_world) (n : Nat) (t : Nat × Nat) :
    done_before w n t = true ↔ ∃ pass, pass < n ∧ w.arrivals pass t.1 t.2 = some .done_rpc := by
  simp [done_before, done_now, List.any_eq_true]

theorem dones_before_eq (self : host_side) (w : device_world)
    (honce : ∀ x y p1 p2, w.arrivals p1 x y = some .done_rpc →
      w.arrivals p2 x y = some .done_rpc → p1 = p2) :
    ∀ n, self.dones_before w n = self.scan_order.countP (done_before w n) := by
  intro n
  induction n with
  | zero =>
      have hfun : done_before w 0 = fun _ => false := by
        funext t; simp [done_before]
      rw [host_side.dones_before, hfun]
      simp
  | succ n ih =>
      have hfun : done_before w (n + 1) = fun t => (done_before w n t || done_now w n t) := by
        funext t; exact done_before_succ w n t
      rw [host_side.dones_before, ih, hfun]
      apply countP_add_of_disjoint
      intro t _ hboth
      obtain ⟨h1, h2⟩ := hboth
      obtain ⟨pass, hp, ha⟩ := (done_before_iff w n t).1 h1
      have h3 : w.arrivals n t.1 t.2 = some .done_rpc := by simpa [done_now] using h2
      have := honce t.1 t.2 pass n ha h3
      omega

theorem dones_before_full_iff (self : host_side) (w : device_world)
    (honce : ∀ x y p1 p2, w.arrivals p1 x y = some .done_rpc →
      w.arrivals p2 x y = some .done_rpc → p1 = p2) (n : Nat) :
    self.dones_before w n ≤ self.x_size * self.y_size ∧
    (self.x_size * self.y_size ≤ self.dones_before w n ↔ self.all_done_by w n) := by
  rw [dones_before_eq self w honce n, ← scan_order_length self]
  refine ⟨List.countP_le_length _, ?_⟩
  constructor
  · intro hle
    have heq : self.scan_order.countP (done_before w n) = self.scan_order.length :=
      le_antisymm (List.countP_le_length _) hle
    rw [List.countP_eq_length] at heq
    intro x y hx hy
    have := heq (x, y) ((mem_scan_order self (x, y)).2 ⟨hx, hy⟩)
    exact (done_before_iff w n (x, y)).1 this
  · intro hall
    apply le_of_eq
    symm
    rw [List.countP_eq_length]
    intro t ht
    obtain ⟨hx, hy⟩ := (mem_scan_order self t).1 ht
    exact (done_before_iff w n t).2 (hall t.1 t.2 hx hy)

theorem follow_events_no_read (w : device_world) (x y : Nat) (data : Var) (x1 y1 : Nat)
    (d1 : Var) : event.memcpy_d2h x1 y1 d1 ∉ follow_events w x y data := by
  unfold follow_events
  have hvis := visit_no_read w x y data x1 y1 d1
  split
  · simp
  · split <;> simp [hvis]

theorem well_followed_append_body (w : device_world) (pass x y : Nat) (t : List event)
    (ht : well_followed w t) : well_followed w (t ++ body_events w pass x y) := by
  intro pre x1 y1 d1 post hsplit
  rcases List.append_eq_append_iff.1 hsplit with ⟨a, hpre, hB⟩ | ⟨c, ht1, hc⟩
  · -- the read is one of the events just appended
    unfold body_events at hB
    cases ha : w.arrivals pass x y with
    | none =>
        rw [ha] at hB
        simp only at hB
        cases a with
        | nil => simp at hB
        | cons e a1 =>
            simp only [List.cons_append, List.cons.injEq] at hB
            have := hB.2
            simp at this
    | some data =>
        rw [ha] at hB
        simp only at hB
        cases a with
        | nil => simp at hB
        | cons e a1 =>
            cases a1 with
            | nil =>
                simp only [List.cons_append, List.nil_append, List.cons.injEq] at hB
                obtain ⟨he, hm, hp⟩ := hB
                injection hm with hx hy hd
                subst hx hy hd he hp
                exact ⟨⟨t, by simpa using hpre⟩, [], by simp⟩
            | cons e2 a2 =>
                simp only [List.cons_append, List.cons.injEq] at hB
                obtain ⟨_, _, hF⟩ := hB
                exfalso
                apply follow_events_no_read w x y data x1 y1 d1
                rw [hF]
                simp
  · -- the read was already in the trace
    cases c with
    | nil =>
        simp only [List.nil_append] at hc
        unfold body_events at hc
        cases ha : w.arrivals pass x y <;> rw [ha] at hc <;> simp at hc
    | cons e c1 =>
        simp only [List.cons_append, List.cons.injEq] at hc
        obtain ⟨he, hp⟩ := hc
        subst he
        obtain ⟨hpre1, post1, hpost1⟩ := ht pre x1 y1 d1 c1 ht1
        refine ⟨hpre1, post1 ++ body_events w pass x y, ?_⟩
        rw [hp, hpost1, List.append_assoc]

theorem wait_all_well_followed (self : host_side) (w : device_world) (fuel : Nat) :
    well_followed w (self.wait_all w fuel).state.trace := by
  refine wait_all_loop_invariant self w (fun st => well_followed w st.trace) ?_ fuel 0 ⟨0, []⟩ ?_
  · intro pass x y st hP
    exact well_followed_append_body w pass x y st.trace hP
  · intro pre x y data post h
    simp at h

theorem wait_all_loop_returned_ge (self : host_side) (w : device_world) :
    ∀ (fuel pass : Nat) (st st1 : wait_state),
      host_side.wait_all_loop self w fuel pass st = .returned st1 →
      self.x_size * self.y_size ≤ st1.done_counter := by
  intro fuel
  induction fuel with
  | zero => intro pass st st1 h; simp [host_side.wait_all_loop] at h
  | succ fuel ih =>
      intro pass st st1 h
      unfold host_side.wait_all_loop at h
      cases hs : host_side.wait_all_scan w pass self.scan_order st with
      | error e =>
          obtain ⟨e1, st2⟩ := e
          rw [hs] at h
          simp at h
      | ok st2 =>
          rw [hs] at h
          simp only at h
          split at h
          · exact ih (pass + 1) st2 st1 h
          · injection h with h
            subst h
            omega

theorem link_inv_init (w : device_world) (x y : Nat) (program : List Var) (r0 : Nat) :
    link_inv w x y (link_state.init program r0) :=
  ⟨[], List.Forall₂.nil, Or.inl ⟨rfl, rfl, rfl, rfl, rfl⟩⟩

theorem link_inv_device (w : device_world) (x y : Nat) (s s1 : link_state)
    (hinv : link_inv w x y s) (hstep : device_side.perform_step s = some s1) : link_inv w x y s1 := by
  obtain ⟨past, hF, hcfg⟩ := hinv
  unfold device_side.perform_step at hstep
  rcases hcfg with ⟨hd, hh, hb, hi, hs⟩ | ⟨hi, ⟨hs, hc⟩ | ⟨hs, hc⟩⟩
  · -- the tile calls `perform`
    rw [hd] at hstep
    cases hp : s.program with
    | nil => simp [hp] at hstep
    | cons d rest =>
        simp only [hp, Option.some.injEq] at hstep
        subst hstep
        exact ⟨past, hF, Or.inr ⟨by simp [hi], Or.inl ⟨hs, Or.inl ⟨rfl, hh, hb⟩⟩⟩⟩
  · rcases hc with ⟨hd, hh, hb⟩ | ⟨hd, hh, hb⟩ | ⟨hin, hh⟩
    · rw [hd] at hstep
      simp only [Option.some.injEq] at hstep
      subst hstep
      exact ⟨past, hF, Or.inr ⟨hi, Or.inl ⟨hs, Or.inr (Or.inl ⟨rfl, hh, rfl⟩)⟩⟩⟩
    · rw [hd] at hstep
      simp [hb] at hstep
    · rcases hin with ⟨hd, hb⟩ | ⟨hd, hb⟩ | ⟨hd, hb⟩
      · rw [hd] at hstep
        simp only [hb, Bool.false_eq_true, if_false, Option.some.injEq] at hstep
        subst hstep
        exact ⟨past, hF, Or.inr ⟨hi, Or.inl ⟨hs, Or.inr (Or.inr
          ⟨Or.inr (Or.inl ⟨rfl, hb⟩), hh⟩)⟩⟩⟩
      · rw [hd] at hstep
        simp only [Option.some.injEq] at hstep
        subst hstep
        exact ⟨past, hF, Or.inr ⟨hi, Or.inl ⟨hs, Or.inr (Or.inr
          ⟨Or.inr (Or.inr ⟨rfl, rfl⟩), hh⟩)⟩⟩⟩
      · rw [hd] at hstep
        simp [hb] at hstep
  · rcases hc with ⟨hin, ret, hh, h0, hv⟩ | ⟨hin, hh, hr⟩ | ⟨hd, hb, hh, hr⟩ | ⟨hin, e, hh⟩
    · rcases hin with ⟨hd, hb⟩ | ⟨hd, hb⟩ | ⟨hd, hb⟩
      · rw [hd] at hstep
        simp only [hb, Bool.false_eq_true, if_false, Option.some.injEq] at hstep
        subst hstep
        exact ⟨past, hF, Or.inr ⟨hi, Or.inr ⟨hs, Or.inl
          ⟨Or.inr (Or.inl ⟨rfl, hb⟩), ret, hh, h0, hv⟩⟩⟩⟩
      · rw [hd] at hstep
        simp only [Option.some.injEq] at hstep
        subst hstep
        exact ⟨past, hF, Or.inr ⟨hi, Or.inr ⟨hs, Or.inl
          ⟨Or.inr (Or.inr ⟨rfl, rfl⟩), ret, hh, h0, hv⟩⟩⟩⟩
      · rw [hd] at hstep
        simp [hb] at hstep
    · rcases hin with ⟨hd, hb⟩ | ⟨hd, hb⟩ | ⟨hd, hb⟩
      · rw [hd] at hstep
        simp only [hb, Bool.false_eq_true, if_false, Option.some.injEq] at hstep
        subst hstep
        exact ⟨past, hF, Or.inr ⟨hi, Or.inr ⟨hs, Or.inr (Or.inl
          ⟨Or.inr (Or.inl ⟨rfl, hb⟩), hh, hr⟩)⟩⟩⟩
      · rw [hd] at hstep
        simp only [Option.some.injEq] at hstep
        subst hstep
        exact ⟨past, hF, Or.inr ⟨hi, Or.inr ⟨hs, Or.inr (Or.inl
          ⟨Or.inr (Or.inr ⟨rfl, rfl⟩), hh, hr⟩)⟩⟩⟩
      · rw [hd] at hstep
        simp [hb] at hstep
    · rcases hd with hd | hd
      · rw [hd] at hstep
        simp only [hb, Bool.false_eq_true, if_false, Option.some.injEq] at hstep
        subst hstep
        exact ⟨past, hF, Or.inr ⟨hi, Or.inr ⟨hs, Or.inr (Or.inr (Or.inl
          ⟨Or.inr rfl, hb, hh, hr⟩))⟩⟩⟩
      · -- the tile returns from `perform`
        rw [hd] at hstep
        simp only [Option.some.injEq] at hstep
        subst hstep
        refine ⟨past ++ [s.data], ?_, Or.inl ⟨rfl, hh, hb, hi, hs⟩⟩
        exact List.rel_append hF (List.Forall₂.cons hr List.Forall₂.nil)
    · rcases hin with ⟨hd, hb⟩ | ⟨hd, hb⟩ | ⟨hd, hb⟩
      · rw [hd] at hstep
        simp only [hb, Bool.false_eq_true, if_false, Option.some.injEq] at hstep
        subst hstep
        exact ⟨past, hF, Or.inr ⟨hi, Or.inr ⟨hs, Or.inr (Or.inr (Or.inr
          ⟨Or.inr (Or.inl ⟨rfl, hb⟩), e, hh⟩))⟩⟩⟩
      · rw [hd] at hstep
        simp only [Option.some.injEq] at hstep
        subst hstep
        exact ⟨past, hF, Or.inr ⟨hi, Or.inr ⟨hs, Or.inr (Or.inr (Or.inr
          ⟨Or.inr (Or.inr ⟨rfl, rfl⟩), e, hh⟩))⟩⟩⟩
      · rw [hd] at hstep
        simp [hb] at hstep

theorem link_inv_host (w : device_world) (x y : Nat) (s s1 : link_state)
    (hinv : link_inv w x y s) (hstep : host_side.wait_all_step w x y s = some s1) : link_inv w x y s1 := by
  obtain ⟨past, hF, hcfg⟩ := hinv
  unfold host_side.wait_all_step at hstep
  rcases hcfg with ⟨hd, hh, hb, hi, hs⟩ | ⟨hi, ⟨hs, hc⟩ | ⟨hs, hc⟩⟩
  · rw [hh] at hstep
    simp only [hb, Bool.false_eq_true, if_false, Option.some.injEq] at hstep
    subst hstep
    exact ⟨past, hF, Or.inl ⟨hd, hh, hb, hi, hs⟩⟩
  · rcases hc with ⟨hd, hh, hb⟩ | ⟨hd, hh, hb⟩ | ⟨hin, hh | hh⟩
    · rw [hh] at hstep
      simp only [hb, Bool.false_eq_true, if_false, Option.some.injEq] at hstep
      subst hstep
      exact ⟨past, hF, Or.inr ⟨hi, Or.inl ⟨hs, Or.inl ⟨hd, hh, hb⟩⟩⟩⟩
    · -- the poll finds the arrival
      rw [hh] at hstep
      simp only [hb, if_true, Option.some.injEq] at hstep
      subst hstep
      exact ⟨past, hF, Or.inr ⟨hi, Or.inl ⟨hs, Or.inr (Or.inr
        ⟨Or.inl ⟨hd, rfl⟩, Or.inl rfl⟩)⟩⟩⟩
    · rw [hh] at hstep
      simp only [Option.some.injEq] at hstep
      subst hstep
      exact ⟨past, hF, Or.inr ⟨hi, Or.inl ⟨hs, Or.inr (Or.inr ⟨hin, Or.inr rfl⟩)⟩⟩⟩
    · -- the host dispatches the payload
      rw [hh] at hstep
      simp only at hstep
      by_cases h0 : s.data.index = 0
      · simp only [h0, if_true, Option.some.injEq] at hstep
        subst hstep
        refine ⟨past, hF, Or.inr ⟨hi, Or.inr ⟨by simp [hs], Or.inr (Or.inl
          ⟨hin, rfl, fun hne => absurd h0 hne⟩)⟩⟩⟩
      · simp only [h0, if_false] at hstep
        cases hv : (host_side.visit w x y s.data).2 with
        | ok ret =>
            simp only [hv, Option.some.injEq] at hstep
            subst hstep
            exact ⟨past, hF, Or.inr ⟨hi, Or.inr ⟨by simp [hs], Or.inl
              ⟨hin, ret, rfl, h0, hv⟩⟩⟩⟩
        | error e =>
            simp only [hv, Option.some.injEq] at hstep
            subst hstep
            exact ⟨past, hF, Or.inr ⟨hi, Or.inr ⟨by simp [hs], Or.inr (Or.inr (Or.inr
              ⟨hin, e, rfl⟩))⟩⟩⟩
  · rcases hc with ⟨hin, ret, hh, h0, hv⟩ | ⟨hin, hh, hr⟩ | ⟨hd, hb, hh, hr⟩ | ⟨hin, e, hh⟩
    · -- the host writes the response
      rw [hh] at hstep
      simp only [Option.some.injEq] at hstep
      subst hstep
      exact ⟨past, hF, Or.inr ⟨hi, Or.inr ⟨hs, Or.inr (Or.inl ⟨hin, rfl, fun _ => hv⟩)⟩⟩⟩
    · -- the host meets the tile at its second `barrier.wait()`
      rw [hh] at hstep
      rcases hin with ⟨hd, hb⟩ | ⟨hd, hb⟩ | ⟨hd, hb⟩
      · simp [hb] at hstep
      · simp [hb] at hstep
      · simp only [hb, if_true, Option.some.injEq] at hstep
        subst hstep
        exact ⟨past, hF, Or.inr ⟨hi, Or.inr ⟨hs, Or.inr (Or.inr (Or.inl
          ⟨Or.inl hd, rfl, rfl, hr⟩))⟩⟩⟩
    · rw [hh] at hstep
      simp only [hb, Bool.false_eq_true, if_false, Option.some.injEq] at hstep
      subst hstep
      exact ⟨past, hF, Or.inr ⟨hi, Or.inr ⟨hs, Or.inr (Or.inr (Or.inl ⟨hd, hb, hh, hr⟩))⟩⟩⟩
    · rw [hh] at hstep
      simp at hstep

theorem link_reachable_inv (w : device_world) (x y : Nat) (program : List Var) (r0 : Nat)
    (s : link_state) (h : link_reachable w x y program r0 s) : link_inv w x y s := by
  induction h with
  | init => exact link_inv_init w x y program r0
  | device _ hstep ih => exact link_inv_device w x y _ _ ih hstep
  | host _ hstep ih => exact link_inv_host w x y _ _ ih hstep

theorem all_done_by_mono (self : host_side) (w : device_world) (m n : Nat) (hmn : m ≤ n)
    (h : self.all_done_by w m) : self.all_done_by w n := by
  intro x y hx hy
  obtain ⟨pass, hp, ha⟩ := h x y hx hy
  exact ⟨pass, by omega, ha⟩

theorem link_demo_reachable (w : device_world) (x y : Nat) :
    link_reachable w x y [.send_log_rpc ⟨0, 2⟩, .done_rpc] 7 link_demo :=
  @link_reachable.host w x y _ 7
    ⟨[.done_rpc], .notified, .send_log_rpc ⟨0, 2⟩, 7, ⟨true⟩, .poll, 0,
      [.send_log_rpc ⟨0, 2⟩], [], []⟩ link_demo
    (@link_reachable.device w x y _ 7
      ⟨[.done_rpc], .notify, .send_log_rpc ⟨0, 2⟩, 7, ⟨false⟩, .poll, 0,
        [.send_log_rpc ⟨0, 2⟩], [], []⟩ _
      (@link_reachable.device w x y _ 7 _ _ .init rfl) rfl) rfl

theorem link_inv_answers (w : device_world) (x y : Nat) (s : link_state)
    (hinv : link_inv w x y s) :
    List.Forall₂ (answers_request w x y) (s.issued.take s.answers.length) s.answers := by
  obtain ⟨past, hF, hcfg⟩ := hinv
  have hlen := hF.length_eq
  rcases hcfg with ⟨_, _, _, hi, _⟩ | ⟨hi, _⟩
  · rw [hi, ← hlen]
    simpa using hF
  · rw [hi, ← hlen]
    simpa using hF

theorem perform_step_issues (s s1 : link_state) (h : device_side.perform_step s = some s1)
    (hne : s1.issued ≠ s.issued) : s.dpc = .idle := by
  unfold device_side.perform_step at h
  cases hd : s.dpc with
  | idle => rfl
  | notify =>
      rw [hd] at h
      simp only [Option.some.injEq] at h
      subst h
      exact absurd rfl hne
  | notified =>
      rw [hd] at h
      simp only at h
      split at h
      · cases h
      · simp only [Option.some.injEq] at h
        subst h
        exact absurd rfl hne
  | await =>
      rw [hd] at h
      simp only [Option.some.injEq] at h
      subst h
      exact absurd rfl hne
  | awaiting =>
      rw [hd] at h
      simp only at h
      split at h
      · cases h
      · simp only [Option.some.injEq] at h
        subst h
        exact absurd rfl hne
  | resume =>
      rw [hd] at h
      simp only [Option.some.injEq] at h
      subst h
      exact absurd rfl hne

theorem wait_all_body_fatal (w : device_world) (pass x y : Nat) (st st1 : wait_state)
    (e : fatal) (h : host_side.wait_all_body w pass x y st = .error (e, st1)) :
    ∃ data, w.arrivals pass x y = some data ∧ data.index ≠ 0 ∧
      (host_side.visit w x y data).2 = .error e ∧
      st1.trace = st.trace ++ [.try_arrive x y true, .memcpy_d2h x y data]
        ++ (host_side.visit w x y data).1 := by
  unfold host_side.wait_all_body at h
  cases ha : w.arrivals pass x y with
  | none => simp [ha] at h
  | some data =>
      simp only [ha] at h
      by_cases h0 : data.index = 0
      · simp [h0] at h
      · simp only [h0, if_false] at h
        rcases hvis : host_side.visit w x y data with ⟨evs, r⟩
        rw [hvis] at h
        cases r with
        | ok ret => simp at h
        | error e1 =>
            simp at h
            obtain ⟨he, hst⟩ := h
            subst he hst
            exact ⟨data, rfl, h0, by rw [hvis], by rw [hvis]; simp⟩

theorem wait_all_body_answered (w : device_world) (pass x y : Nat) (st st1 : wait_state)
    (h : host_side.wait_all_body w pass x y st = .ok st1)
    (hst : reads_answered w st.trace) : reads_answered w st1.trace := by
  unfold host_side.wait_all_body at h
  cases ha : w.arrivals pass x y with
  | none =>
      simp [ha] at h
      subst h
      intro x1 y1 d1 hmem
      simp at hmem
      exact hst x1 y1 d1 hmem
  | some data =>
      simp only [ha] at h
      by_cases h0 : data.index = 0
      · simp [h0] at h
        subst h
        intro x1 y1 d1 hmem
        simp at hmem
        rcases hmem with hmem | ⟨rfl, rfl, rfl⟩
        · exact hst x1 y1 d1 hmem
        · exact Or.inl h0
      · simp only [h0, if_false] at h
        rcases hvis : host_side.visit w x y data with ⟨evs, r⟩
        rw [hvis] at h
        cases r with
        | error e1 => simp at h
        | ok ret =>
            simp at h
            subst h
            intro x1 y1 d1 hmem
            have hno := visit_no_read w x y data x1 y1 d1
            rw [hvis] at hno
            simp at hmem
            rcases hmem with hmem | ⟨rfl, rfl, rfl⟩ | hmem
            · exact hst x1 y1 d1 hmem
            · exact Or.inr ⟨ret, by rw [hvis]⟩
            · exact absurd hmem hno

theorem wait_all_scan_fatal (w : device_world) (pass : Nat) :
    ∀ (L : List (Nat × Nat)) (st : wait_state), reads_answered w st.trace →
      (∀ st1, host_side.wait_all_scan w pass L st = .ok st1 → reads_answered w st1.trace) ∧
      (∀ e st1, host_side.wait_all_scan w pass L st = .error (e, st1) →
        ends_at_fatal w e st1.trace) := by
  intro L
  induction L with
  | nil =>
      intro st hst
      refine ⟨?_, ?_⟩
      · intro st1 h
        simp [host_side.wait_all_scan] at h
        subst h
        exact hst
      · intro e st1 h
        simp [host_side.wait_all_scan] at h
  | cons t rest ih =>
      intro st hst
      obtain ⟨x, y⟩ := t
      unfold host_side.wait_all_scan
      cases hb : host_side.wait_all_body w pass x y st with
      | ok st2 =>
          exact ih st2 (wait_all_body_answered w pass x y st st2 hb hst)
      | error e =>
          obtain ⟨e1, st2⟩ := e
          refine ⟨fun st1 h => by simp at h, ?_⟩
          intro e st1 h
          simp at h
          obtain ⟨rfl, rfl⟩ := h
          obtain ⟨data, _, h0, hv, ht⟩ := wait_all_body_fatal w pass x y st st2 e1 hb
          exact ⟨st.trace, x, y, data, hst, h0, hv, ht⟩

theorem wait_all_loop_fatal (self : host_side) (w : device_world) :
    ∀ (fuel pass : Nat) (st : wait_state), reads_answered w st.trace →
      (∀ e st1, host_side.wait_all_loop self w fuel pass st = .aborted e st1 →
        ends_at_fatal w e st1.trace) ∧
      ((∀ e st1, host_side.wait_all_loop self w fuel pass st ≠ .aborted e st1) →
        reads_answered w (host_side.wait_all_loop self w fuel pass st).state.trace) := by
  intro fuel
  induction fuel with
  | zero =>
      intro pass st hst
      simp [host_side.wait_all_loop, outcome.state, hst]
  | succ fuel ih =>
      intro pass st hst
      unfold host_side.wait_all_loop
      obtain ⟨hok, herr⟩ := wait_all_scan_fatal w pass self.scan_order st hst
      cases hs : host_side.wait_all_scan w pass self.scan_order st with
      | error e =>
          obtain ⟨e1, st2⟩ := e
          simp only
          refine ⟨?_, ?_⟩
          · intro e st1 h
            injection h with he hst1
            subst he hst1
            exact herr e1 st2 hs
          · intro h
            exact absurd rfl (h e1 st2)
      | ok st2 =>
          simp only
          split
          · exact ih (pass + 1) st2 (hok st2 hs)
          · refine ⟨fun e st1 h => by simp at h, fun _ => ?_⟩
            simpa [outcome.state] using hok st2 hs

/-- In a trace that ends where an exception left `wait_all`, a payload whose
handling failed is the last one read, and nothing follows it but what `visit`
did before it failed. -/
theorem ends_at_fatal_split (w : device_world) (e : fatal) (t : List event)
    (h : ends_at_fatal w e t) (pre : List event) (x y : Nat) (data : Var) (post : List event)
    (hsplit : t = pre ++ .memcpy_d2h x y data :: post) (h0 : data.index ≠ 0)
    (e1 : fatal) (hv : (host_side.visit w x y data).2 = .error e1) :
    e1 = e ∧ post = (host_side.visit w x y data).1 := by
  obtain ⟨t0, x0, y0, d0, hans, _, hv0, ht⟩ := h
  rw [ht] at hsplit
  have hbad : event.memcpy_d2h x y data ∉ t0 := by
    intro hmem
    rcases hans x y data hmem with hz | ⟨r, hr⟩
    · exact h0 hz
    · rw [hv] at hr
      cases hr
  have hsplit2 : (t0 ++ [.try_arrive x0 y0 true]) ++
      (.memcpy_d2h x0 y0 d0 :: (host_side.visit w x0 y0 d0).1)
      = pre ++ .memcpy_d2h x y data :: post := by
    rw [← hsplit]
    simp
  rcases List.append_eq_append_iff.1 hsplit2 with ⟨a, hpre, hB⟩ | ⟨c, ht1, hc⟩
  · cases a with
    | nil =>
        simp only [List.nil_append, List.cons.injEq] at hB
        obtain ⟨hm, hp⟩ := hB
        injection hm with hx hy hd
        subst hx hy hd
        rw [hv0] at hv
        injection hv with hv
        exact ⟨hv.symm, hp.symm⟩
    | cons a0 a1 =>
        simp only [List.cons_append, List.cons.injEq] at hB
        exfalso
        apply visit_no_read w x0 y0 d0 x y data
        rw [hB.2]
        simp
  · cases c with
    | nil =>
        simp only [List.nil_append, List.cons.injEq] at hc
        obtain ⟨hm, hp⟩ := hc
        injection hm with hx hy hd
        subst hx hy hd
        rw [hv0] at hv
        injection hv with hv
        exact ⟨hv.symm, hp⟩
    | cons c0 c1 =>
        simp only [List.cons_append, List.cons.injEq] at hc
        obtain ⟨hc0, _⟩ := hc
        subst hc0
        exfalso
        have hmem : event.memcpy_d2h x y data ∈ t0 ++ [.try_arrive x0 y0 true] := by
          rw [ht1]
          simp
        simp at hmem
        exact hbad hmem

theorem wait_all_fatal_read (self : host_side) (w : device_world) (fuel : Nat)
    (pre : List event) (x y : Nat) (data : Var) (post : List event)
    (hsplit : (self.wait_all w fuel).state.trace = pre ++ .memcpy_d2h x y data :: post)
    (h0 : data.index ≠ 0) (e : fatal) (hv : (host_side.visit w x y data).2 = .error e) :
    post = (host_side.visit w x y data).1 ∧
    self.wait_all w fuel = .aborted e (self.wait_all w fuel).state := by
  have hinit : reads_answered w (⟨0, []⟩ : wait_state).trace := by
    intro x1 y1 d1 hmem
    simp at hmem
  obtain ⟨hab, hnot⟩ := wait_all_loop_fatal self w fuel 0 ⟨0, []⟩ hinit
  cases ho : self.wait_all w fuel with
  | aborted e1 st1 =>
      have hend := hab e1 st1 ho
      rw [ho] at hsplit
      simp only [outcome.state] at hsplit ⊢
      obtain ⟨he, hp⟩ := ends_at_fatal_split w e1 st1.trace hend pre x y data post hsplit h0 e hv
      subst he
      exact ⟨hp, rfl⟩
  | returned st1 =>
      exfalso
      have hans := hnot (by
        intro e1 st2 h
        rw [host_side.wait_all] at ho
        rw [ho] at h
        cases h)
      rw [← host_side.wait_all, hsplit] at hans
      rcases hans x y data (by simp) with hz | ⟨r, hr⟩
      · exact h0 hz
      · rw [hv] at hr
        cases hr
  | still_waiting st1 =>
      exfalso
      have hans := hnot (by
        intro e1 st2 h
        rw [host_side.wait_all] at ho
        rw [ho] at h
        cases h)
      rw [← host_side.wait_all, hsplit] at hans
      rcases hans x y data (by simp) with hz | ⟨r, hr⟩
      · exact h0 hz
      · rw [hv] at hr
        cases hr

theorem wait_all_scan_trace (w : device_world) (pass : Nat) :
    ∀ (L : List (Nat × Nat)) (st st1 : wait_state),
      host_side.wait_all_scan w pass L st = .ok st1 →
      st1.trace = st.trace ++ L.flatMap (fun t => body_events w pass t.1 t.2) := by
  intro L
  induction L with
  | nil =>
      intro st st1 h
      simp only [host_side.wait_all_scan, Except.ok.injEq] at h
      subst h
      simp
  | cons t rest ih =>
      intro st st1 h
      obtain ⟨x, y⟩ := t
      unfold host_side.wait_all_scan at h
      cases hb : host_side.wait_all_body w pass x y st with
      | error e => rw [hb] at h; cases h
      | ok st2 =>
          rw [hb] at h
          have hspec := wait_all_body_spec w pass x y st st2 (Or.inl hb)
          rw [ih st2 st1 h, hspec]
          simp

/-- When `wait_all` returns, it does so at the end of a scan pass, and what it
has done is what the passes made do one after the other. -/
theorem wait_all_loop_returned_trace (self : host_side) (w : device_world) :
    ∀ (fuel pass : Nat) (st st1 : wait_state), st.done_counter = self.dones_before w pass →
      st.trace = self.trace_before w pass →
      host_side.wait_all_loop self w fuel pass st = .returned st1 →
      ∃ m, pass ≤ m ∧ m < pass + fuel ∧ st1.done_counter = self.dones_before w (m + 1) ∧
        self.x_size * self.y_size ≤ self.dones_before w (m + 1) ∧
        st1.trace = self.trace_before w (m + 1) := by
  intro fuel
  induction fuel with
  | zero => intro pass st st1 _ _ h; simp [host_side.wait_all_loop] at h
  | succ fuel ih =>
      intro pass st st1 hst htr h
      unfold host_side.wait_all_loop at h
      cases hs : host_side.wait_all_scan w pass self.scan_order st with
      | error e =>
          obtain ⟨e1, st2⟩ := e
          rw [hs] at h
          cases h
      | ok st2 =>
          rw [hs] at h
          simp only at h
          have hc2 : st2.done_counter = self.dones_before w (pass + 1) := by
            rw [wait_all_scan_counter w pass _ st st2 hs, hst]
            rfl
          have ht2 : st2.trace = self.trace_before w (pass + 1) := by
            rw [wait_all_scan_trace w pass _ st st2 hs, htr]
            rfl
          split at h
          · obtain ⟨m, hm1, hm2, hm3, hm4, hm5⟩ := ih (pass + 1) st2 st1 hc2 ht2 h
            exact ⟨m, by omega, by omega, hm3, hm4, hm5⟩
          · injection h with h
            subst h
            exact ⟨pass, le_refl _, by omega, hc2, by omega, ht2⟩

theorem wait_all_body_on_grid (self : host_side) (w : device_world) (pass x y : Nat)
    (st : wait_state) (hx : x < self.x_size) (hy : y < self.y_size) :
    host_side.wait_all_body (w.on_grid self) pass x y st
      = host_side.wait_all_body w pass x y st := by
  have hv : ∀ data, host_side.visit (w.on_grid self) x y data = host_side.visit w x y data := by
    intro data
    cases data <;> rfl
  unfold host_side.wait_all_body
  simp only [device_world.on_grid, hx, hy, and_self, if_true]
  cases w.arrivals pass x y with
  | none => rfl
  | some data =>
      simp only
      have hv2 := hv data
      simp only [device_world.on_grid] at hv2
      rw [hv2]

theorem wait_all_scan_on_grid (self : host_side) (w : device_world) (pass : Nat) :
    ∀ (L : List (Nat × Nat)) (st : wait_state), (∀ t ∈ L, t ∈ self.scan_order) →
      host_side.wait_all_scan (w.on_grid self) pass L st
        = host_side.wait_all_scan w pass L st := by
  intro L
  induction L with
  | nil => intro st _; rfl
  | cons t rest ih =>
      intro st hL
      obtain ⟨x, y⟩ := t
      obtain ⟨hx, hy⟩ := (mem_scan_order self (x, y)).1 (hL (x, y) (List.mem_cons_self _ _))
      unfold host_side.wait_all_scan
      rw [wait_all_body_on_grid self w pass x y st hx hy]
      cases host_side.wait_all_body w pass x y st with
      | error e => rfl
      | ok st2 => exact ih st2 (fun t ht => hL t (List.mem_cons_of_mem _ ht))

/-- What `wait_all` does depends only on what arrives from the tiles of its
grid. -/
theorem wait_all_loop_on_grid (self : host_side) (w : device_world) :
    ∀ (fuel pass : Nat) (st : wait_state),
      host_side.wait_all_loop self (w.on_grid self) fuel pass st
        = host_side.wait_all_loop self w fuel pass st := by
  intro fuel
  induction fuel with
  | zero => intro pass st; rfl
  | succ fuel ih =>
      intro pass st
      unfold host_side.wait_all_loop
      rw [wait_all_scan_on_grid self w pass self.scan_order st (fun t ht => ht)]
      cases host_side.wait_all_scan w pass self.scan_order st with
      | error e => rfl
      | ok st2 =>
          simp only
          split
          · exact ih (pass + 1) st2
          · rfl

theorem logged_body_events (w : device_world) (pass x y : Nat) :
    logged (body_events w pass x y) = if log_now w pass (x, y) then [(x, y)] else [] := by
  unfold body_events follow_events log_now
  cases ha : w.arrivals pass x y with
  | none => simp [logged]
  | some data =>
      cases data with
      | done_rpc => simp [logged, Var.index]
      | garbage k =>
          cases hr : w.visit_undefined x y k <;>
            simp [logged, Var.index, host_side.visit, hr]
      | send_log_rpc d =>
          rcases send_log_cases w x y d with ⟨_, h⟩ | ⟨_, h⟩ <;>
            simp [logged, Var.index, host_side.visit, h]
      | image_update_rpc d =>
          cases hr : w.image_update.act_on_data x y ⟨x, y⟩ d <;>
            simp [logged, Var.index, host_side.visit, hr]

theorem logged_trace_before_succ (self : host_side) (w : device_world) (n : Nat) :
    logged (self.trace_before w (n + 1))
      = logged (self.trace_before w n) ++ self.scan_order.filter (log_now w n) := by
  have hflat : ∀ L : List (Nat × Nat),
      logged (L.flatMap (fun t => body_events w n t.1 t.2)) = L.filter (log_now w n) := by
    intro L
    induction L with
    | nil => rfl
    | cons t rest ih =>
        obtain ⟨x, y⟩ := t
        have hb := logged_body_events w n x y
        simp only [logged, List.flatMap_cons, List.filterMap_append] at hb ih ⊢
        rw [hb, ih, List.filter_cons]
        split <;> simp
  simp only [host_side.trace_before]
  rw [← hflat]
  simp [logged]

theorem filter_append_perm_of_disjoint {α : Type} (a b : α → Bool) (L : List α)
    (h : ∀ t ∈ L, ¬ (a t = true ∧ b t = true)) :
    (L.filter a ++ L.filter b).Perm (L.filter (fun t => a t || b t)) := by
  induction L with
  | nil => simp
  | cons x rest ih =>
      have ih2 := ih (fun t ht => h t (List.mem_cons_of_mem x ht))
      have hx := h x (List.mem_cons_self x rest)
      simp only [List.filter_cons]
      cases ha : a x <;> cases hb : b x
      · simpa using ih2
      · simp only [Bool.false_or, if_true, Bool.false_eq_true, if_false]
        exact List.perm_middle.trans (List.Perm.cons x ih2)
      · simp only [Bool.true_or, if_true, Bool.false_eq_true, if_false, List.cons_append]
        exact List.Perm.cons x ih2
      · exact absurd ⟨ha, hb⟩ hx

/-- When each tile of the grid is found with a log request in one scan pass
only, the pass `p`, the tiles for which the log handler has been called in the
first `n` passes are those with `p < n`, each once. -/
theorem logged_trace_before_perm (self : host_side) (w : device_world) (p : Nat × Nat → Nat)
    (hp : ∀ pass, ∀ t ∈ self.scan_order, log_now w pass t = decide (pass = p t)) (n : Nat) :
    (logged (self.trace_before w n)).Perm (self.scan_order.filter (fun t => decide (p t < n))) := by
  induction n with
  | zero => simp [host_side.trace_before, logged]
  | succ n ih =>
      rw [logged_trace_before_succ]
      have h1 : self.scan_order.filter (log_now w n)
          = self.scan_order.filter (fun t => decide (p t = n)) := by
        apply List.filter_congr
        intro t ht
        rw [hp n t ht]
        simp [eq_comm]
      have h2 : self.scan_order.filter (fun t => decide (p t < n + 1))
          = self.scan_order.filter (fun t => decide (p t < n) || decide (p t = n)) := by
        apply List.filter_congr
        intro t _
        by_cases h : p t < n
        · simp [h]; omega
        · by_cases h3 : p t = n
          · simp [h3]
          · simp [h, h3]; omega
      rw [h1, h2]
      refine (List.Perm.append_right _ ih).trans ?_
      apply filter_append_perm_of_disjoint
      intro t _ hboth
      simp only [decide_eq_true_eq] at hboth
      omega

theorem says_hi_body_events (w : device_world) (hw : says_hi w) (pass x y : Nat) :
    printed (body_events w pass x y)
      = (logged (body_events w pass x y)).map (fun _ => ['h', 'i']) ∧
    responses (body_events w pass x y)
      = (logged (body_events w pass x y)).map (fun t => (t.1, t.2, 0)) := by
  unfold body_events follow_events
  cases ha : w.arrivals pass x y with
  | none => simp [printed, responses, logged]
  | some data =>
      rcases hw pass x y data ha with rfl | ⟨d, rfl, hsize, hcap, h0, h1⟩
      · simp [printed, responses, logged, Var.index]
      · have hcap2 : 2 ≤ w.string_capacity := by omega
        simp [printed, responses, logged, Var.index, host_side.visit,
          send_log_rpc.act_on_data, hcap2, hsize, List.range_succ, h0, h1]

theorem says_hi_trace (self : host_side) (w : device_world) (hw : says_hi w) (fuel : Nat) :
    printed (self.wait_all w fuel).state.trace
      = (logged (self.wait_all w fuel).state.trace).map (fun _ => ['h', 'i']) ∧
    responses (self.wait_all w fuel).state.trace
      = (logged (self.wait_all w fuel).state.trace).map (fun t => (t.1, t.2, 0)) := by
  refine wait_all_loop_invariant self w
    (fun st => printed st.trace = (logged st.trace).map (fun _ => ['h', 'i']) ∧
      responses st.trace = (logged st.trace).map (fun t => (t.1, t.2, 0)))
    ?_ fuel 0 ⟨0, []⟩ (by simp [printed, responses, logged])
  intro pass x y st hP
  obtain ⟨hb1, hb2⟩ := says_hi_body_events w hw pass x y
  obtain ⟨hP1, hP2⟩ := hP
  simp only [printed, responses, logged, List.filterMap_append, List.map_append]
    at hb1 hb2 hP1 hP2 ⊢
  rw [hP1, hP2, hb1, hb2]
  exact ⟨rfl, rfl⟩

theorem polled_visit (w : device_world) (x y : Nat) (v : Var) :
    polled (host_side.visit w x y v).1 = [] := by
  cases v with
  | send_log_rpc d =>
      rcases send_log_cases w x y d with ⟨_, h⟩ | ⟨_, h⟩ <;> simp [host_side.visit, polled, h]
  | _ => simp [host_side.visit, polled, done_rpc.act_on_data]

theorem handled_visit (w : device_world) (x y : Nat) (v : Var) :
    (handled (host_side.visit w x y v).1).Sublist [(x, y)] := by
  cases v with
  | send_log_rpc d =>
      rcases send_log_cases w x y d with ⟨_, h⟩ | ⟨_, h⟩ <;> simp [host_side.visit, handled, h]
  | _ => simp [host_side.visit, handled, done_rpc.act_on_data]

theorem polled_body_events (w : device_world) (pass x y : Nat) :
    polled (body_events w pass x y) = [(x, y)] := by
  unfold body_events follow_events
  cases ha : w.arrivals pass x y with
  | none => simp [polled]
  | some data =>
      have hv := polled_visit w x y data
      simp only [polled] at hv
      by_cases h0 : data.index = 0
      · simp [polled, h0]
      · cases hr : (host_side.visit w x y data).2 <;> simp [polled, h0, hr, hv]

theorem handled_body_events (w : device_world) (pass x y : Nat) :
    (handled (body_events w pass x y)).Sublist (polled (body_events w pass x y)) := by
  rw [polled_body_events]
  unfold body_events follow_events
  cases ha : w.arrivals pass x y with
  | none => simp [handled]
  | some data =>
      have hv := handled_visit w x y data
      simp only [handled] at hv
      by_cases h0 : data.index = 0
      · simp [handled, h0]
      · cases hr : (host_side.visit w x y data).2 <;> simpa [handled, h0, hr] using hv

theorem wait_all_scan_polled (w : device_world) (pass : Nat) :
    ∀ (L : List (Nat × Nat)) (st st1 : wait_state),
      (host_side.wait_all_scan w pass L st = .ok st1 →
        polled st1.trace = polled st.trace ++ L) ∧
      (∀ e, host_side.wait_all_scan w pass L st = .error (e, st1) →
        ∃ j, polled st1.trace = polled st.trace ++ L.take j) := by
  intro L
  induction L with
  | nil =>
      intro st st1
      refine ⟨?_, ?_⟩
      · intro h
        simp [host_side.wait_all_scan] at h
        subst h
        simp
      · intro e h
        simp [host_side.wait_all_scan] at h
  | cons t rest ih =>
      intro st st1
      obtain ⟨x, y⟩ := t
      unfold host_side.wait_all_scan
      cases hb : host_side.wait_all_body w pass x y st with
      | ok st2 =>
          have h2 := wait_all_body_spec w pass x y st st2 (Or.inl hb)
          have hp : polled st2.trace = polled st.trace ++ [(x, y)] := by
            rw [h2]
            simp only [polled, List.filterMap_append]
            congr 1
            exact polled_body_events w pass x y
          obtain ⟨hok, herr⟩ := ih st2 st1
          refine ⟨?_, ?_⟩
          · intro h
            rw [hok h, hp]
            simp
          · intro e h
            obtain ⟨j, hj⟩ := herr e h
            refine ⟨j + 1, ?_⟩
            rw [hj, hp]
            simp
      | error e =>
          obtain ⟨e1, st2⟩ := e
          refine ⟨fun h => by simp at h, ?_⟩
          intro e h
          simp at h
          obtain ⟨_, rfl⟩ := h
          have h2 := wait_all_body_spec w pass x y st st2 (Or.inr ⟨e1, hb⟩)
          refine ⟨1, ?_⟩
          rw [h2]
          simp only [polled, List.filterMap_append]
          congr 1
          exact polled_body_events w pass x y

theorem wait_all_loop_polled (self : host_side) (w : device_world) :
    ∀ (fuel pass : Nat) (st : wait_state), ∃ m j, m ≤ fuel ∧
      polled (host_side.wait_all_loop self w fuel pass st).state.trace
        = polled st.trace ++ (List.replicate m self.scan_order).flatten
          ++ self.scan_order.take j ∧
      ((∀ e st1, host_side.wait_all_loop self w fuel pass st ≠ .aborted e st1) → j = 0) := by
  intro fuel
  induction fuel with
  | zero =>
      intro pass st
      exact ⟨0, 0, le_refl _, by simp [host_side.wait_all_loop, outcome.state], fun _ => rfl⟩
  | succ fuel ih =>
      intro pass st
      unfold host_side.wait_all_loop
      cases hs : host_side.wait_all_scan w pass self.scan_order st with
      | error e =>
          obtain ⟨e1, st2⟩ := e
          obtain ⟨j, hj⟩ := (wait_all_scan_polled w pass self.scan_order st st2).2 e1 hs
          refine ⟨0, j, Nat.zero_le _, by simpa [outcome.state] using hj, ?_⟩
          intro h
          exact absurd rfl (h e1 st2)
      | ok st2 =>
          have hp := (wait_all_scan_polled w pass self.scan_order st st2).1 hs
          simp only
          split
          · obtain ⟨m, j, hm, hpoll, hj⟩ := ih (pass + 1) st2
            refine ⟨m + 1, j, by omega, ?_, hj⟩
            rw [hpoll, hp, List.replicate_succ, List.flatten_cons]
            simp
          · exact ⟨1, 0, by omega, by simp [outcome.state, hp], fun _ => rfl⟩

theorem scan_order_pairwise (self : host_side) :
    self.scan_order.Pairwise (fun a b => a.1 < b.1 ∨ (a.1 = b.1 ∧ a.2 < b.2)) := by
  unfold host_side.scan_order
  rw [List.pairwise_flatMap]
  refine ⟨?_, ?_⟩
  · intro x _
    rw [List.pairwise_map]
    exact (List.pairwise_lt_range self.y_size).imp (fun h => Or.inr ⟨rfl, h⟩)
  · refine (List.pairwise_lt_range self.x_size).imp ?_
    intro x1 x2 hlt a ha b hb
    simp only [List.mem_map] at ha hb
    obtain ⟨_, _, rfl⟩ := ha
    obtain ⟨_, _, rfl⟩ := hb
    exact Or.inl hlt

theorem scan_order_nodup (self : host_side) : self.scan_order.Nodup := by
  refine (scan_order_pairwise self).imp ?_
  intro a b h hab
  subst hab
  omega

theorem visit_kind_ne_zero (w : device_world) (x y : Nat) (data : Var) (h0 : data.index ≠ 0)
    (x1 y1 : Nat) (v : Var) : event.act_on_data 0 x1 y1 v ∉ (host_side.visit w x y data).1 := by
  cases data with
  | done_rpc => simp [Var.index] at h0
  | send_log_rpc d =>
      rcases send_log_cases w x y d with ⟨_, h⟩ | ⟨_, h⟩ <;> simp [host_side.visit, h]
  | _ => simp [host_side.visit]

theorem visit_no_assertion (w : device_world) (x y : Nat) (data : Var) (h0 : data.index ≠ 0)
    (h3 : data.index < 3) : (host_side.visit w x y data).2 ≠ .error .assertion_failed := by
  cases data with
  | done_rpc => simp [Var.index] at h0
  | image_update_rpc d =>
      simp only [host_side.visit, functor_rpc.act_on_data]
      cases w.image_update.impl <;> simp
  | send_log_rpc d =>
      rcases send_log_cases w x y d with ⟨_, h⟩ | ⟨_, h⟩ <;> simp [host_side.visit, h]
  | garbage k => simp [Var.index] at h3

theorem body_events_kind_ne_zero (w : device_world) (pass x y : Nat) (x1 y1 : Nat) (v : Var) :
    event.act_on_data 0 x1 y1 v ∉ body_events w pass x y := by
  unfold body_events follow_events
  cases ha : w.arrivals pass x y with
  | none => simp
  | some data =>
      by_cases h0 : data.index = 0
      · simp [h0]
      · have hv := visit_kind_ne_zero w x y data h0 x1 y1 v
        cases hr : (host_side.visit w x y data).2 <;> simp [h0, hr, hv]

theorem link_run_add (w : device_world) (x y : Nat) (a b : Nat) (s : link_state) :
    link_run w x y (a + b) s = link_run w x y b (link_run w x y a s) := by
  induction a generalizing s with
  | zero => simp [link_run]
  | succ a ih =>
      rw [Nat.succ_add]
      simp only [link_run]
      exact ih _

theorem link_step_reachable (w : device_world) (x y : Nat) (program : List Var) (r0 : Nat)
    (s : link_state) (h : link_reachable w x y program r0 s) :
    link_reachable w x y program r0 (link_step w x y s) := by
  unfold link_step
  cases hd : device_side.perform_step s with
  | some s1 => exact .device h hd
  | none =>
      cases hh : host_side.wait_all_step w x y s with
      | some s1 => exact .host h hh
      | none => exact h

theorem link_run_reachable (w : device_world) (x y : Nat) (program : List Var) (r0 : Nat) :
    ∀ (n : Nat) (s : link_state), link_reachable w x y program r0 s →
      link_reachable w x y program r0 (link_run w x y n s) := by
  intro n
  induction n with
  | zero => intro s h; exact h
  | succ n ih => intro s h; exact ih _ (link_step_reachable w x y program r0 s h)

/-- From a state in which the tile is about to call `perform` with a done
signal, ten steps end the call: the host has counted it and left the response
slot alone, and `perform` has returned what the slot held. -/
theorem link_run_done (w : device_world) (x y : Nat) (s : link_state) (d : Var)
    (rest : List Var) (hs : link_ready s) (hp : s.program = d :: rest) (h0 : d.index = 0) :
    link_run w x y 10 s =
      { s with program := rest, data := d, done_counter := s.done_counter + 1,
               issued := s.issued ++ [d], served := s.served ++ [d],
               answers := s.answers ++ [s.ret_val] } := by
  obtain ⟨program, dpc, data, ret_val, barrier, hpc, dc, issued, answers, served⟩ := s
  obtain ⟨h1, h2, h3⟩ := hs
  simp only at h1 h2 h3 hp
  subst h1 h2 h3 hp
  simp [link_run, link_step, device_side.perform_step, host_side.wait_all_step, h0]

/-- From a state in which the tile is about to call `perform` with a request
whose handler returns `ret`, eleven steps end the call: the host has written
`ret` to the response slot and `perform` has returned it. -/
theorem link_run_request (w : device_world) (x y : Nat) (s : link_state) (d : Var)
    (rest : List Var) (hs : link_ready s) (hp : s.program = d :: rest) (h0 : d.index ≠ 0)
    (ret : Nat) (hv : (host_side.visit w x y d).2 = .ok ret) :
    link_run w x y 11 s =
      { s with program := rest, data := d, ret_val := ret, issued := s.issued ++ [d],
               served := s.served ++ [d], answers := s.answers ++ [ret] } := by
  obtain ⟨program, dpc, data, ret_val, barrier, hpc, dc, issued, answers, served⟩ := s
  obtain ⟨h1, h2, h3⟩ := hs
  simp only at h1 h2 h3 hp
  subst h1 h2 h3 hp
  simp [link_run, link_step, device_side.perform_step, host_side.wait_all_step, h0, hv]

/-- Under the schedule of `link_step`, every call of `perform` of a program
whose requests the host can answer returns, and returns the value of the
handler. -/
theorem link_run_program (w : device_world) (x y : Nat) :
    ∀ (program : List Var) (s : link_state), link_ready s → s.program = program →
      (∀ d ∈ program, d.index ≠ 0 → ∃ r, (host_side.visit w x y d).2 = .ok r) →
      ∃ rs, List.Forall₂ (answers_request w x y) program rs ∧
        link_ready (link_run w x y (link_fuel program) s) ∧
        (link_run w x y (link_fuel program) s).program = [] ∧
        (link_run w x y (link_fuel program) s).issued = s.issued ++ program ∧
        (link_run w x y (link_fuel program) s).answers = s.answers ++ rs := by
  intro program
  induction program with
  | nil =>
      intro s hs hp _
      exact ⟨[], .nil, by simpa [link_fuel, link_run] using hs,
        by simpa [link_fuel, link_run] using hp, by simp [link_fuel, link_run],
        by simp [link_fuel, link_run]⟩
  | cons d rest ih =>
      intro s hs hp hok
      obtain ⟨h1, h2, h3⟩ := hs
      by_cases h0 : d.index = 0
      · have hrun := link_run_done w x y s d rest ⟨h1, h2, h3⟩ hp h0
        obtain ⟨rs, hF, hr, hpr, hi, ha⟩ := ih (link_run w x y 10 s)
          (by rw [hrun]; exact ⟨h1, h2, h3⟩) (by rw [hrun])
          (fun d1 hd1 => hok d1 (List.mem_cons_of_mem _ hd1))
        simp only [link_fuel, h0, if_true, link_run_add]
        refine ⟨s.ret_val :: rs, .cons (fun hne => absurd h0 hne) hF, hr, hpr, ?_, ?_⟩
        · rw [hi, hrun]; simp
        · rw [ha, hrun]; simp
      · obtain ⟨ret, hv⟩ := hok d (List.mem_cons_self _ _) h0
        have hrun := link_run_request w x y s d rest ⟨h1, h2, h3⟩ hp h0 ret hv
        obtain ⟨rs, hF, hr, hpr, hi, ha⟩ := ih (link_run w x y 11 s)
          (by rw [hrun]; exact ⟨h1, h2, h3⟩) (by rw [hrun])
          (fun d1 hd1 => hok d1 (List.mem_cons_of_mem _ hd1))
        simp only [link_fuel, h0, if_false, link_run_add]
        refine ⟨ret :: rs, .cons (fun _ => hv) hF, hr, hpr, ?_, ?_⟩
        · rw [hi, hrun]; simp
        · rw [ha, hrun]; simp

/-- No interleaving gets stuck: in a state that a tile and the host can reach
and in which no exception has left `wait_all`, either the tile has finished its
program, or the tile can take its next step, or the host can take a step that
moves it on. -/
theorem link_progress (w : device_world) (x y : Nat) (s : link_state)
    (hinv : link_inv w x y s) (hlive : ∀ e, s.hpc ≠ .dead e) :
    (s.dpc = .idle ∧ s.program = []) ∨
    (device_side.perform_step s).isSome = true ∨
    (∃ s1, host_side.wait_all_step w x y s = some s1 ∧ s1.hpc ≠ s.hpc) := by
  obtain ⟨past, _, hcfg⟩ := hinv
  rcases hcfg with ⟨hd, _, _, _, _⟩ | ⟨_, ⟨_, hc⟩ | ⟨_, hc⟩⟩
  · by_cases hp : s.program = []
    · exact Or.inl ⟨hd, hp⟩
    · right; left
      obtain ⟨d, rest, hp1⟩ := List.exists_cons_of_ne_nil hp
      simp [device_side.perform_step, hd, hp1]
  · rcases hc with ⟨hd, _, _⟩ | ⟨_, hh, hb⟩ | ⟨_, hh | hh⟩
    · right; left
      simp [device_side.perform_step, hd]
    · right; right
      exact ⟨{ s with barrier := ⟨false⟩, hpc := .read },
        by simp [host_side.wait_all_step, hh, hb], by simp [hh]⟩
    · right; right
      exact ⟨{ s with hpc := .dispatch s.data },
        by simp [host_side.wait_all_step, hh], by simp [hh]⟩
    · right; right
      by_cases h0 : s.data.index = 0
      · exact ⟨{ s with done_counter := s.done_counter + 1, served := s.served ++ [s.data],
                        hpc := .release },
          by simp [host_side.wait_all_step, hh, h0], by simp [hh]⟩
      · cases hv : (host_side.visit w x y s.data).2 with
        | ok ret =>
            exact ⟨{ s with served := s.served ++ [s.data], hpc := .write ret },
              by simp [host_side.wait_all_step, hh, h0, hv], by simp [hh]⟩
        | error e =>
            exact ⟨{ s with served := s.served ++ [s.data], hpc := .dead e },
              by simp [host_side.wait_all_step, hh, h0, hv], by simp [hh]⟩
  · rcases hc with ⟨_, ret, hh, _⟩ | ⟨hin, hh, _⟩ | ⟨hd, hb, _, _⟩ | ⟨_, e, hh⟩
    · right; right
      exact ⟨{ s with ret_val := ret, hpc := .release },
        by simp [host_side.wait_all_step, hh], by simp [hh]⟩
    · rcases hin with ⟨hd, hb⟩ | ⟨hd, _⟩ | ⟨_, hb⟩
      · right; left
        simp [device_side.perform_step, hd, hb]
      · right; left
        simp [device_side.perform_step, hd]
      · right; right
        exact ⟨{ s with barrier := ⟨false⟩, hpc := .poll },
          by simp [host_side.wait_all_step, hh, hb], by simp [hh]⟩
    · right; left
      rcases hd with hd | hd
      · simp [device_side.perform_step, hd, hb]
      · simp [device_side.perform_step, hd]
    · exact absurd hh (hlive e)

/-- Every step of the tile brings the end nearer by one. -/
theorem link_rank_device (w : device_world) (x y : Nat) (s s1 : link_state)
    (hinv : link_inv w x y s) (hstep : device_side.perform_step s = some s1) :
    link_rank s1 + 1 = link_rank s := by
  obtain ⟨past, _, hcfg⟩ := hinv
  unfold device_side.perform_step at hstep
  cases hd : s.dpc with
  | idle =>
      rw [hd] at hstep
      simp only at hstep
      rcases hcfg with ⟨_, hh, _, hi, hs⟩ | ⟨_, ⟨_, hc⟩ | ⟨_, hc⟩⟩
      · cases hp : s.program with
        | nil => rw [hp] at hstep; cases hstep
        | cons d rest =>
            rw [hp] at hstep
            injection hstep with hstep
            subst hstep
            by_cases h0 : d.index = 0 <;>
              simp [link_rank, link_fuel, hd, hh, hp, hi, hs, h0] <;> omega
      · rcases hc with ⟨hd1, _⟩ | ⟨hd1, _⟩ | ⟨⟨hd1, _⟩ | ⟨hd1, _⟩ | ⟨hd1, _⟩, _⟩ <;>
          rw [hd1] at hd <;> cases hd
      · rcases hc with ⟨⟨hd1, _⟩ | ⟨hd1, _⟩ | ⟨hd1, _⟩, _⟩ | ⟨⟨hd1, _⟩ | ⟨hd1, _⟩ | ⟨hd1, _⟩, _⟩ |
            ⟨hd1 | hd1, _⟩ | ⟨⟨hd1, _⟩ | ⟨hd1, _⟩ | ⟨hd1, _⟩, _⟩ <;>
          rw [hd1] at hd <;> cases hd
  | notify =>
      rw [hd] at hstep
      injection hstep with hstep
      subst hstep
      simp [link_rank, hd]
      omega
  | notified =>
      rw [hd] at hstep
      simp only at hstep
      split at hstep
      · cases hstep
      · injection hstep with hstep
        subst hstep
        simp [link_rank, hd]
        omega
  | await =>
      rw [hd] at hstep
      injection hstep with hstep
      subst hstep
      simp [link_rank, hd]
      omega
  | awaiting =>
      rw [hd] at hstep
      simp only at hstep
      split at hstep
      · cases hstep
      · injection hstep with hstep
        subst hstep
        simp [link_rank, hd]
        omega
  | resume =>
      rw [hd] at hstep
      injection hstep with hstep
      subst hstep
      simp [link_rank, hd]
      omega

/-- Every step of the host that changes the state brings the end nearer. -/
theorem link_rank_host (w : device_world) (x y : Nat) (s s1 : link_state)
    (hinv : link_inv w x y s) (hstep : host_side.wait_all_step w x y s = some s1)
    (hne : s1 ≠ s) : link_rank s1 < link_rank s := by
  obtain ⟨past, _, hcfg⟩ := hinv
  unfold host_side.wait_all_step at hstep
  cases hh : s.hpc with
  | poll =>
      rw [hh] at hstep
      simp only at hstep
      split at hstep
      next hb =>
        injection hstep with hstep
        subst hstep
        have hlen : s.served.length < s.issued.length := by
          rcases hcfg with ⟨_, _, hb1, _⟩ | ⟨hi, ⟨hs, hc⟩ | ⟨_, hc⟩⟩
          · rw [hb1] at hb; cases hb
          · rw [hi, hs]; simp
          · rcases hc with ⟨_, _, hh1, _⟩ | ⟨_, hh1, _⟩ | ⟨_, hb1, _⟩ | ⟨_, _, hh1⟩
            · rw [hh1] at hh; cases hh
            · rw [hh1] at hh; cases hh
            · rw [hb1] at hb; cases hb
            · rw [hh1] at hh; cases hh
        by_cases h0 : s.data.index = 0 <;> simp [link_rank, hh, hlen, h0]
      next =>
        injection hstep with hstep
        exact absurd hstep.symm hne
  | read =>
      rw [hh] at hstep
      injection hstep with hstep
      subst hstep
      by_cases h0 : s.data.index = 0 <;> simp [link_rank, hh, h0]
  | dispatch d =>
      rw [hh] at hstep
      simp only at hstep
      split at hstep
      next h0 =>
        injection hstep with hstep
        subst hstep
        simp [link_rank, hh, h0]
      next h0 =>
        split at hstep <;> injection hstep with hstep <;> subst hstep <;>
          simp [link_rank, hh, h0]
  | write ret =>
      rw [hh] at hstep
      injection hstep with hstep
      subst hstep
      simp [link_rank, hh]
  | release =>
      rw [hh] at hstep
      simp only at hstep
      split at hstep
      · injection hstep with hstep
        subst hstep
        have hlen : ¬ s.served.length < s.issued.length := by
          rcases hcfg with ⟨_, hh1, _⟩ | ⟨hi, ⟨_, hc⟩ | ⟨hs, _⟩⟩
          · rw [hh1] at hh; cases hh
          · rcases hc with ⟨_, hh1, _⟩ | ⟨_, hh1, _⟩ | ⟨_, hh1 | hh1⟩ <;>
              rw [hh1] at hh <;> cases hh
          · rw [hi, hs]; simp
        simp [link_rank, hh, hlen]
      · cases hstep
  | dead e =>
      rw [hh] at hstep
      cases hstep

theorem wait_all_reads_valid (self : host_side) (w : device_world)
    (hvalid : ∀ pass x y data, w.arrivals pass x y = some data → data.index < 3)
    (fuel : Nat) : ∀ x y data,
      event.memcpy_d2h x y data ∈ (self.wait_all w fuel).state.trace → data.index < 3 := by
  refine wait_all_loop_invariant self w
    (fun st => ∀ x y data, event.memcpy_d2h x y data ∈ st.trace → data.index < 3)
    ?_ fuel 0 ⟨0, []⟩ (by simp)
  intro pass x y st hP x1 y1 d1 hmem
  simp only [List.mem_append] at hmem
  rcases hmem with hmem | hmem
  · exact hP x1 y1 d1 hmem
  · unfold body_events at hmem
    cases ha : w.arrivals pass x y with
    | none =>
        rw [ha] at hmem
        simp at hmem
    | some data =>
        rw [ha] at hmem
        simp only [List.mem_cons] at hmem
        rcases hmem with hmem | hmem | hmem
        · cases hmem
        · injection hmem with _ _ hd
          rw [hd]
          exact hvalid pass x y data ha
        · exact absurd hmem (follow_events_no_read w x y data x1 y1 d1)

/-! ## Properties of the grid barriers -/

theorem tile_step_cases (prog : position → List lock_op) (s s1 : grid_state) (p : position)
    (h : tile_step prog s p = some s1) :
    (s.pc p = 0 ∧ s1 = ⟨Function.update s.pc p 1, s.locks⟩) ∨
    (∃ k op locks, s.pc p = k + 1 ∧ (prog p)[k]? = some op ∧ op.apply s.locks = some locks ∧
      s1 = ⟨Function.update s.pc p (k + 2), locks⟩) := by
  unfold tile_step at h
  cases hpc : s.pc p with
  | zero =>
      rw [hpc] at h
      simp only [Option.some.injEq] at h
      exact Or.inl ⟨rfl, h.symm⟩
  | succ k =>
      rw [hpc] at h
      simp only at h
      cases hop : (prog p)[k]? with
      | none => rw [hop] at h; simp at h
      | some op =>
          rw [hop] at h
          simp only at h
          cases hap : op.apply s.locks with
          | none => rw [hap] at h; simp at h
          | some locks =>
              rw [hap] at h
              simp only [Option.map_some', Option.some.injEq] at h
              exact Or.inr ⟨k, op, locks, rfl, hop, hap, h.symm⟩

theorem apply_acquire (l : lock_id) (v : Bool) (locks locks1 : lock_id → lock_unit)
    (h : (lock_op.acquire_with_value l v).apply locks = some locks1) :
    (locks l).consumed = false ∧ (locks l).value = v ∧
      locks1 = Function.update locks l ⟨v, true⟩ := by
  unfold lock_op.apply lock_unit.acquire_with_value at h
  by_cases hc : (locks l).consumed = false ∧ (locks l).value = v
  · simp only [hc, and_self, if_true, Option.map_some', Option.some.injEq] at h
    exact ⟨hc.1, hc.2, h.symm⟩
  · simp [hc] at h

theorem apply_release (l : lock_id) (v : Bool) (locks locks1 : lock_id → lock_unit)
    (h : (lock_op.release_with_value l v).apply locks = some locks1) :
    locks1 = Function.update locks l ⟨v, false⟩ := by
  unfold lock_op.apply lock_unit.release_with_value at h
  simp only [Option.some.injEq] at h
  exact h.symm

theorem apply_other (op : lock_op) (l : lock_id) (locks locks1 : lock_id → lock_unit)
    (h : op.apply locks = some locks1) (hl : op.lock ≠ l) : locks1 l = locks l := by
  cases op with
  | acquire_with_value l1 v =>
      obtain ⟨_, _, h1⟩ := apply_acquire l1 v locks locks1 h
      have hl1 : l ≠ l1 := fun e => hl (by simp [lock_op.lock, e])
      rw [h1, Function.update_noteq hl1]
  | release_with_value l1 v =>
      have h1 := apply_release l1 v locks locks1 h
      have hl1 : l ≠ l1 := fun e => hl (by simp [lock_op.lock, e])
      rw [h1, Function.update_noteq hl1]

theorem ops_on_take_succ (l : lock_id) (ops : List lock_op) (k : Nat) (op : lock_op)
    (h : ops[k]? = some op) :
    ops_on l (ops.take (k + 1)) = ops_on l (ops.take k) + (if op.lock = l then 1 else 0) := by
  rw [List.take_succ, h]
  simp only [ops_on, Option.toList, List.countP_append, List.countP_cons, List.countP_nil]
  by_cases hl : op.lock = l <;> simp [hl]

theorem filter_get_of_take {α : Type} (p : α → Bool) (L : List α) (k : Nat) (a : α)
    (h : L[k]? = some a) (hp : p a = true) :
    (L.filter p)[(L.take k).countP p]? = some a := by
  have hk : k < L.length := by
    by_contra hge
    rw [List.getElem?_eq_none (by omega)] at h
    cases h
  have hsplit : L = L.take k ++ a :: L.drop (k + 1) := by
    have hget : L[k] = a := by
      rw [List.getElem?_eq_getElem hk] at h
      exact Option.some.inj h
    rw [← hget, ← List.drop_eq_getElem_cons hk, List.take_append_drop]
  have hf : L.filter p = (L.take k).filter p ++ a :: (L.drop (k + 1)).filter p := by
    conv_lhs => rw [hsplit]
    rw [List.filter_append, List.filter_cons_of_pos hp]
  rw [hf, List.countP_eq_length_filter, List.getElem?_append_right (le_refl _)]
  simp

theorem count_init (prog : position → List lock_op) (l : lock_id) (p : position) :
    grid_state.init.count prog l p = 0 := by
  simp [grid_state.count, grid_state.init, ops_on]

/-- What a step of the tile at `p` does to the number of operations the tile
at `q` has performed on the lock `l`, and to that lock. -/
theorem step_effect (prog : position → List lock_op) (s s1 : grid_state) (p : position)
    (h : tile_step prog s p = some s1) (l : lock_id) :
    ((∀ q, s1.count prog l q = s.count prog l q) ∧ s1.locks l = s.locks l) ∨
    (∃ op, op.lock = l ∧ op ∈ prog p ∧ op.apply s.locks = some s1.locks ∧
      s.next_op prog p = some op ∧
      ((prog p).filter (fun o => decide (o.lock = l)))[s.count prog l p]? = some op ∧
      s1.count prog l p = s.count prog l p + 1 ∧
      ∀ q, q ≠ p → s1.count prog l q = s.count prog l q) := by
  rcases tile_step_cases prog s s1 p h with ⟨hpc, rfl⟩ | ⟨k, op, locks, hpc, hop, hap, rfl⟩
  · left
    refine ⟨?_, rfl⟩
    intro q
    simp only [grid_state.count]
    by_cases hq : q = p
    · subst hq
      simp [hpc]
    · rw [Function.update_noteq hq]
  · have hother : ∀ q, q ≠ p →
        grid_state.count prog ⟨Function.update s.pc p (k + 2), locks⟩ l q
          = s.count prog l q := by
      intro q hq
      simp only [grid_state.count]
      rw [Function.update_noteq hq]
    have hself : grid_state.count prog ⟨Function.update s.pc p (k + 2), locks⟩ l p
        = s.count prog l p + (if op.lock = l then 1 else 0) := by
      simp only [grid_state.count, Function.update_same, hpc]
      exact ops_on_take_succ l (prog p) k op hop
    by_cases hl : op.lock = l
    · right
      refine ⟨op, hl, List.getElem?_mem hop, hap, ?_, ?_, ?_, hother⟩
      · simp [grid_state.next_op, hpc, hop]
      · have := filter_get_of_take (fun o => decide (o.lock = l)) (prog p) k op hop (by simp [hl])
        simpa [grid_state.count, hpc, ops_on] using this
      · rw [hself, if_pos hl]
    · left
      refine ⟨?_, apply_other op l s.locks locks hap hl⟩
      intro q
      by_cases hq : q = p
      · subst hq
        rw [hself, if_neg hl, Nat.add_zero]
      · exact hother q hq

/-- The protocol on one lock: when only the tiles at `a` and `b` operate on the
lock `l`, the former with acquire "not armed", release "armed", acquire "not
armed" and the latter with acquire "armed", release "not armed", release "not
armed", then in every reachable state the lock and the progress of the two
tiles on it are related by `lock_protocol_ok`. -/
theorem two_party_inv (g : geography) (prog : position → List lock_op) (l : lock_id)
    (a b : position) (hab : a ≠ b)
    (Fa : (prog a).filter (fun o => decide (o.lock = l))
      = [.acquire_with_value l false, .release_with_value l true, .acquire_with_value l false])
    (Fb : (prog b).filter (fun o => decide (o.lock = l))
      = [.acquire_with_value l true, .release_with_value l false, .release_with_value l false])
    (Fo : ∀ q, g.in_grid q → q ≠ a → q ≠ b → ∀ op ∈ prog q, op.lock ≠ l)
    (s : grid_state) (hs : grid_reachable g prog s) :
    lock_protocol_ok (s.count prog l a) (s.count prog l b) (s.locks l) := by
  induction hs with
  | init =>
      rw [count_init, count_init]
      simp [grid_state.init, lock_protocol_ok]
  | @step s s1 p _ hin hstep ih =>
      rcases step_effect prog s s1 p hstep l with
        ⟨hc, hl⟩ | ⟨op, hl, hmem, hap, _, hidx, hself, hother⟩
      · rw [hc a, hc b, hl]
        exact ih
      · by_cases hpa : p = a
        · subst hpa
          rw [hself, hother b (Ne.symm hab)]
          rw [Fa] at hidx
          generalize s.count prog l p = na at hidx ih ⊢
          generalize s.count prog l b = nb at ih ⊢
          obtain ⟨i1, i2, i3, i4⟩ := ih
          rcases na with _ | _ | _ | na
          · simp only [List.getElem?_cons_zero, Option.some.injEq] at hidx
            subst hidx
            obtain ⟨hc, hv, hl1⟩ := apply_acquire l false s.locks s1.locks hap
            rw [hl1, Function.update_same]
            refine ⟨?_, ?_, ?_, ?_⟩ <;> first | (simp; omega) | simp
          · simp only [List.getElem?_cons_succ, List.getElem?_cons_zero,
              Option.some.injEq] at hidx
            subst hidx
            have hl1 := apply_release l true s.locks s1.locks hap
            rw [hl1, Function.update_same]
            refine ⟨?_, ?_, ?_, ?_⟩ <;> first | (simp; omega) | simp
          · simp only [List.getElem?_cons_succ, List.getElem?_cons_zero,
              Option.some.injEq] at hidx
            subst hidx
            obtain ⟨hc, hv, hl1⟩ := apply_acquire l false s.locks s1.locks hap
            rw [hl1, Function.update_same]
            have hnb : 2 ≤ nb := by
              by_contra hlt
              have := i1.2 ⟨by omega, by omega⟩
              rw [hv] at this
              cases this
            refine ⟨?_, ?_, ?_, ?_⟩ <;> first | (simp; omega) | simp
          · simp at hidx
        · by_cases hpb : p = b
          · subst hpb
            rw [hself, hother a hab]
            rw [Fb] at hidx
            generalize s.count prog l p = nb at hidx ih ⊢
            generalize s.count prog l a = na at ih ⊢
            obtain ⟨i1, i2, i3, i4⟩ := ih
            rcases nb with _ | _ | _ | nb
            · simp only [List.getElem?_cons_zero, Option.some.injEq] at hidx
              subst hidx
              obtain ⟨hc, hv, hl1⟩ := apply_acquire l true s.locks s1.locks hap
              rw [hl1, Function.update_same]
              have hna := i1.1 hv
              refine ⟨?_, ?_, ?_, ?_⟩ <;> first | (simp; omega) | simp
            · simp only [List.getElem?_cons_succ, List.getElem?_cons_zero,
                Option.some.injEq] at hidx
              subst hidx
              have hl1 := apply_release l false s.locks s1.locks hap
              rw [hl1, Function.update_same]
              refine ⟨?_, ?_, ?_, ?_⟩ <;> first | (simp; omega) | simp
            · simp only [List.getElem?_cons_succ, List.getElem?_cons_zero,
                Option.some.injEq] at hidx
              subst hidx
              have hl1 := apply_release l false s.locks s1.locks hap
              rw [hl1, Function.update_same]
              refine ⟨?_, ?_, ?_, ?_⟩ <;> first | (simp; omega) | simp
            · simp at hidx
          · exact absurd hl (Fo p hin hpa hpb op hmem)

theorem filter_eq_nil_of_free (l : lock_id) (ops : List lock_op)
    (h : ∀ op ∈ ops, op.lock ≠ l) : ops.filter (fun o => decide (o.lock = l)) = [] := by
  rw [List.filter_eq_nil_iff]
  intro op hop
  simpa using h op hop

theorem ops_on_eq_zero_of_free (l : lock_id) (ops : List lock_op)
    (h : ∀ op ∈ ops, op.lock ≠ l) : ops_on l ops = 0 := by
  rw [ops_on, List.countP_eq_length_filter, filter_eq_nil_of_free l ops h]
  rfl

theorem mem_token_phase (own : lock_id) (first : Bool) (succ : Option lock_id) (op : lock_op)
    (h : op ∈ token_phase own first succ) :
    (op = .acquire_with_value own true ∧ first = false) ∨
    (∃ l, succ = some l ∧ (op = .acquire_with_value l false ∨ op = .release_with_value l true)) ∨
    op = .release_with_value own false := by
  unfold token_phase at h
  cases first <;> cases succ <;> simp at h <;> aesop

theorem token_chain.tile_ne {g : geography} {prog : position → List lock_op} {slot n : Nat}
    {tile : Nat → position} {pre post : Nat → List lock_op}
    (hc : token_chain g prog slot n tile pre post) (j k : Nat) (hj : j < n) (hk : k < n)
    (hjk : j ≠ k) : (⟨tile j, slot⟩ : lock_id) ≠ ⟨tile k, slot⟩ := by
  intro h
  injection h with h1 _
  exact hjk (hc.inj j k hj hk h1)

/-- The operations of the tile number `k` on the lock of its successor. -/
theorem token_chain.arming_ops {g : geography} {prog : position → List lock_op} {slot n : Nat}
    {tile : Nat → position} {pre post : Nat → List lock_op}
    (hc : token_chain g prog slot n tile pre post) (k : Nat) (hk : k + 1 < n) :
    (prog (tile k)).filter (fun o => decide (o.lock = ⟨tile (k + 1), slot⟩))
      = [.acquire_with_value ⟨tile (k + 1), slot⟩ false,
         .release_with_value ⟨tile (k + 1), slot⟩ true,
         .acquire_with_value ⟨tile (k + 1), slot⟩ false] := by
  have hne : tile k ≠ tile (k + 1) := fun e => by
    have := hc.inj k (k + 1) (by omega) hk e
    omega
  rw [hc.prog_eq k (by omega), List.filter_append, List.filter_append,
    filter_eq_nil_of_free _ _ (fun op hop => hc.pre_free k (by omega) op hop (k + 1) hk),
    filter_eq_nil_of_free _ _ (fun op hop => hc.post_free k (by omega) op hop (k + 1) hk)]
  simp only [chain_succ, hk, if_true, token_phase]
  by_cases h0 : k = 0
  · subst h0
    simp [List.filter_cons, lock_op.lock, hne]
  · simp [h0, List.filter_cons, lock_op.lock, hne]

/-- The operations of the tile number `k + 1` on its own lock. -/
theorem token_chain.owning_ops {g : geography} {prog : position → List lock_op} {slot n : Nat}
    {tile : Nat → position} {pre post : Nat → List lock_op}
    (hc : token_chain g prog slot n tile pre post) (k : Nat) (hk : k + 1 < n) :
    (prog (tile (k + 1))).filter (fun o => decide (o.lock = ⟨tile (k + 1), slot⟩))
      = [.acquire_with_value ⟨tile (k + 1), slot⟩ true,
         .release_with_value ⟨tile (k + 1), slot⟩ false,
         .release_with_value ⟨tile (k + 1), slot⟩ false] := by
  rw [hc.prog_eq (k + 1) hk, List.filter_append, List.filter_append,
    filter_eq_nil_of_free _ _ (fun op hop => hc.pre_free (k + 1) hk op hop (k + 1) hk),
    filter_eq_nil_of_free _ _ (fun op hop => hc.post_free (k + 1) hk op hop (k + 1) hk)]
  simp only [chain_succ, token_phase]
  by_cases h2 : k + 1 + 1 < n
  · have hne : tile (k + 1 + 1) ≠ tile (k + 1) := fun e => by
      have := hc.inj (k + 1 + 1) (k + 1) h2 hk e
      omega
    simp [h2, List.filter_cons, lock_op.lock, hne]
  · simp [h2, List.filter_cons, lock_op.lock]

/-- No other tile of the grid operates on the lock of the tile number
`k + 1`. -/
theorem token_chain.no_other_ops {g : geography} {prog : position → List lock_op} {slot n : Nat}
    {tile : Nat → position} {pre post : Nat → List lock_op}
    (hc : token_chain g prog slot n tile pre post) (k : Nat) (hk : k + 1 < n)
    (q : position) (hq : g.in_grid q) (hqa : q ≠ tile k) (hqb : q ≠ tile (k + 1)) :
    ∀ op ∈ prog q, op.lock ≠ ⟨tile (k + 1), slot⟩ := by
  intro op hop
  by_cases hex : ∃ j, j < n ∧ q = tile j
  · obtain ⟨j, hj, rfl⟩ := hex
    have hjk : j ≠ k := fun e => hqa (by rw [e])
    have hjk1 : j ≠ k + 1 := fun e => hqb (by rw [e])
    rw [hc.prog_eq j hj, List.mem_append, List.mem_append] at hop
    rcases hop with (hop | hop) | hop
    · exact hc.pre_free j hj op hop (k + 1) hk
    · rcases mem_token_phase _ _ _ op hop with ⟨rfl, _⟩ | ⟨l, hl, hop1⟩ | rfl
      · exact hc.tile_ne j (k + 1) hj hk hjk1
      · unfold chain_succ at hl
        split at hl
        · injection hl with hl
          subst hl
          have := hc.tile_ne (j + 1) (k + 1) (by omega) hk (by omega)
          rcases hop1 with rfl | rfl <;> exact this
        · cases hl
      · exact hc.tile_ne j (k + 1) hj hk hjk1
    · exact hc.post_free j hj op hop (k + 1) hk
  · exact hc.others q hq (fun j hj e => hex ⟨j, hj, e⟩) op hop (k + 1) hk

/-- The protocol on the lock of the tile number `k + 1` of a line. -/
theorem token_chain.protocol {g : geography} {prog : position → List lock_op} {slot n : Nat}
    {tile : Nat → position} {pre post : Nat → List lock_op}
    (hc : token_chain g prog slot n tile pre post) (s : grid_state)
    (hs : grid_reachable g prog s) (k : Nat) (hk : k + 1 < n) :
    lock_protocol_ok (s.count prog ⟨tile (k + 1), slot⟩ (tile k))
      (s.count prog ⟨tile (k + 1), slot⟩ (tile (k + 1))) (s.locks ⟨tile (k + 1), slot⟩) :=
  two_party_inv g prog ⟨tile (k + 1), slot⟩ (tile k) (tile (k + 1))
    (fun e => by have := hc.inj k (k + 1) (by omega) hk e; omega)
    (hc.arming_ops k hk) (hc.owning_ops k hk)
    (fun q hq hqa hqb => hc.no_other_ops k hk q hq hqa hqb) s hs

/-- Program order: when the first `m` elements of `A ++ B` hold more elements
of one kind than `A` does, they hold all of `A`. -/
theorem countP_take_append_ge {α : Type} (p1 p2 : α → Bool) (A B : List α) (m : Nat)
    (h : A.countP p2 < ((A ++ B).take m).countP p2) :
    A.countP p1 ≤ ((A ++ B).take m).countP p1 := by
  by_cases hm : m ≤ A.length
  · rw [List.take_append_of_le_length hm] at h
    have := (List.take_sublist m A).countP_le p2
    omega
  · rw [List.take_append_eq_append_take, List.take_of_length_le (by omega), List.countP_append]
    omega

theorem ops_on_take_append_ge (l1 l2 : lock_id) (A B : List lock_op) (m : Nat)
    (h : ops_on l2 A < ops_on l2 ((A ++ B).take m)) :
    ops_on l1 A ≤ ops_on l1 ((A ++ B).take m) :=
  countP_take_append_ge _ _ A B m h

/-- A tile that has armed the lock of its successor has before that acquired
its own lock. -/
theorem token_chain.acquired_before_arming {g : geography} {prog : position → List lock_op}
    {slot n : Nat} {tile : Nat → position} {pre post : Nat → List lock_op}
    (hc : token_chain g prog slot n tile pre post) (s : grid_state) (k : Nat) (hk0 : 1 ≤ k)
    (hk : k + 1 < n) (h : 1 ≤ s.count prog ⟨tile (k + 1), slot⟩ (tile k)) :
    1 ≤ s.count prog ⟨tile k, slot⟩ (tile k) := by
  have hne : tile k ≠ tile (k + 1) := fun e => by
    have := hc.inj k (k + 1) (by omega) hk e
    omega
  have hprog : prog (tile k) = (pre k ++ [.acquire_with_value ⟨tile k, slot⟩ true]) ++
      ([.acquire_with_value ⟨tile (k + 1), slot⟩ false,
        .release_with_value ⟨tile (k + 1), slot⟩ true,
        .acquire_with_value ⟨tile (k + 1), slot⟩ false,
        .release_with_value ⟨tile k, slot⟩ false,
        .release_with_value ⟨tile k, slot⟩ false] ++ post k) := by
    rw [hc.prog_eq k (by omega)]
    have h0 : k ≠ 0 := by omega
    simp [token_phase, chain_succ, hk, h0]
  have hA2 : ops_on ⟨tile (k + 1), slot⟩ (pre k ++ [.acquire_with_value ⟨tile k, slot⟩ true])
      = 0 := by
    apply ops_on_eq_zero_of_free
    intro op hop
    rw [List.mem_append] at hop
    rcases hop with hop | hop
    · exact hc.pre_free k (by omega) op hop (k + 1) hk
    · simp only [List.mem_singleton] at hop
      subst hop
      simpa [lock_op.lock] using hne
  have hA1 : 1 ≤ ops_on ⟨tile k, slot⟩ (pre k ++ [.acquire_with_value ⟨tile k, slot⟩ true]) := by
    simp [ops_on, List.countP_append, lock_op.lock]
  unfold grid_state.count at h ⊢
  rw [hprog] at h ⊢
  refine le_trans hA1 (ops_on_take_append_ge ⟨tile k, slot⟩ ⟨tile (k + 1), slot⟩ _ _ _ ?_)
  omega

/-- A tile that has acknowledged on its own lock has before that performed all
its operations on the lock of its successor. -/
theorem token_chain.armed_before_ack {g : geography} {prog : position → List lock_op}
    {slot n : Nat} {tile : Nat → position} {pre post : Nat → List lock_op}
    (hc : token_chain g prog slot n tile pre post) (s : grid_state) (k : Nat) (hk0 : 1 ≤ k)
    (hk : k + 1 < n) (h : 2 ≤ s.count prog ⟨tile k, slot⟩ (tile k)) :
    3 ≤ s.count prog ⟨tile (k + 1), slot⟩ (tile k) := by
  have hne : tile k ≠ tile (k + 1) := fun e => by
    have := hc.inj k (k + 1) (by omega) hk e
    omega
  have hprog : prog (tile k) = (pre k ++ [.acquire_with_value ⟨tile k, slot⟩ true,
        .acquire_with_value ⟨tile (k + 1), slot⟩ false,
        .release_with_value ⟨tile (k + 1), slot⟩ true,
        .acquire_with_value ⟨tile (k + 1), slot⟩ false]) ++
      ([.release_with_value ⟨tile k, slot⟩ false,
        .release_with_value ⟨tile k, slot⟩ false] ++ post k) := by
    rw [hc.prog_eq k (by omega)]
    have h0 : k ≠ 0 := by omega
    simp [token_phase, chain_succ, hk, h0]
  have hpre1 : ops_on ⟨tile k, slot⟩ (pre k) = 0 :=
    ops_on_eq_zero_of_free _ _ (fun op hop => hc.pre_free k (by omega) op hop k (by omega))
  have hA2 : ops_on ⟨tile k, slot⟩ (pre k ++ [.acquire_with_value ⟨tile k, slot⟩ true,
        .acquire_with_value ⟨tile (k + 1), slot⟩ false,
        .release_with_value ⟨tile (k + 1), slot⟩ true,
        .acquire_with_value ⟨tile (k + 1), slot⟩ false]) = 1 := by
    unfold ops_on at hpre1 ⊢
    rw [List.countP_append, hpre1]
    simp [List.countP_cons, lock_op.lock, Ne.symm hne]
  have hA1 : 3 ≤ ops_on ⟨tile (k + 1), slot⟩ (pre k ++ [.acquire_with_value ⟨tile k, slot⟩ true,
        .acquire_with_value ⟨tile (k + 1), slot⟩ false,
        .release_with_value ⟨tile (k + 1), slot⟩ true,
        .acquire_with_value ⟨tile (k + 1), slot⟩ false]) := by
    unfold ops_on
    rw [List.countP_append]
    simp [List.countP_cons, lock_op.lock, hne]
  unfold grid_state.count at h ⊢
  rw [hprog] at h ⊢
  refine le_trans hA1 (ops_on_take_append_ge ⟨tile (k + 1), slot⟩ ⟨tile k, slot⟩ _ _ _ ?_)
  omega

/-- Towards the head of the line: a tile that has acquired its own lock "armed"
has all its predecessors behind their release "armed". -/
theorem token_chain.down {g : geography} {prog : position → List lock_op}
    {slot n : Nat} {tile : Nat → position} {pre post : Nat → List lock_op}
    (hc : token_chain g prog slot n tile pre post) (s : grid_state)
    (hs : grid_reachable g prog s) :
    ∀ k, k < n → 1 ≤ k → 1 ≤ s.count prog ⟨tile k, slot⟩ (tile k) →
      ∀ j, j < k → 2 ≤ s.count prog ⟨tile (j + 1), slot⟩ (tile j) := by
  intro k
  induction k with
  | zero => intro _ h1; omega
  | succ k ih =>
      intro hk _ hcnt j hj
      have harm : 2 ≤ s.count prog ⟨tile (k + 1), slot⟩ (tile k) :=
        (hc.protocol s hs k hk).2.1 hcnt
      by_cases hjk : j = k
      · subst hjk
        exact harm
      · have hown := hc.acquired_before_arming s k (by omega) hk (by omega)
        exact ih (by omega) (by omega) hown j (by omega)

/-- Towards the tail of the line: a tile that has acknowledged on its own lock
has all its successors behind their acknowledgement. -/
theorem token_chain.up {g : geography} {prog : position → List lock_op}
    {slot n : Nat} {tile : Nat → position} {pre post : Nat → List lock_op}
    (hc : token_chain g prog slot n tile pre post) (s : grid_state)
    (hs : grid_reachable g prog s) :
    ∀ d k, 1 ≤ k → k + d < n → 2 ≤ s.count prog ⟨tile k, slot⟩ (tile k) →
      2 ≤ s.count prog ⟨tile (k + d), slot⟩ (tile (k + d)) := by
  intro d
  induction d with
  | zero => intro k _ _ h; exact h
  | succ d ih =>
      intro k hk1 hkd hcnt
      have h1 := ih k hk1 (by omega) hcnt
      have h2 := hc.armed_before_ack s (k + d) (by omega) (by omega) h1
      exact (hc.protocol s hs (k + d) (by omega)).2.2.1 h2

/-- A line of tiles is a barrier: once one tile has passed its token phase,
every other tile of the line has performed an operation on a lock of the
line. -/
theorem token_chain.safety {g : geography} {prog : position → List lock_op}
    {slot n : Nat} {tile : Nat → position} {pre post : Nat → List lock_op}
    (hc : token_chain g prog slot n tile pre post) (s : grid_state)
    (hs : grid_reachable g prog s) (k : Nat) (hk : k < n)
    (hpassed : chain_passed prog slot n tile s k) :
    ∀ j, j < n → j ≠ k → chain_acted prog slot n tile s j := by
  intro j hj hjk
  rcases Nat.lt_or_gt_of_ne hjk with hlt | hgt
  · have := hc.down s hs k hk (by omega) (hpassed.1 (by omega)) j hlt
    exact ⟨j + 1, by omega, by omega⟩
  · have h3 := hpassed.2 (by omega)
    have h2 := (hc.protocol s hs k (by omega)).2.2.1 h3
    have := hc.up s hs (j - (k + 1)) (k + 1) (by omega) (by omega) h2
    have hidx : k + 1 + (j - (k + 1)) = j := by omega
    rw [hidx] at this
    exact ⟨j, hj, by omega⟩

theorem get_self_lock_eq (p : position) (i : Nat) : tile.get_self_lock p i = ⟨p, i⟩ := by
  unfold tile.get_self_lock tile.get_lock position.moved
  by_cases hp : p.get_parity = .west
  · simp [hp]
  · have he : p.get_parity = .east := by
      cases h : p.get_parity
      · exact absurd h hp
      · rfl
    simp [he]

/-- On the tile number `k` of a row, `horizontal_barrier` is the token phase
of that tile in the line formed by the row. -/
theorem horizontal_barrier_eq_phase (g : geography) (y k lock : Nat) (hk : k < g.x_size) :
    tile.horizontal_barrier g (row_tile g y k) lock
      = token_phase ⟨row_tile g y k, lock⟩ (decide (k = 0))
          (chain_succ lock g.x_size (row_tile g y) k) := by
  by_cases hy : y % 2 = 1
  · by_cases h0 : k = 0
    · subst h0
      by_cases h1 : 1 < g.x_size
      · have e1 : ¬ 1 = g.x_size := by omega
        simp [tile.horizontal_barrier, get_self_lock_eq, row_tile, hy, token_phase, chain_succ,
        tile.get_lock, position.moved, position.get_parity, geography.is_west_column,
        geography.is_memory_module, geography.is_east_column, tile.is_west_column,
        tile.is_east_column, tile.is_memory_module_east, tile.is_memory_module_west,
        tile.is_memory_module, h1, e1]
      · have e1 : g.x_size = 1 := by omega
        simp [tile.horizontal_barrier, get_self_lock_eq, row_tile, hy, token_phase, chain_succ,
        tile.get_lock, position.moved, position.get_parity, geography.is_west_column,
        geography.is_memory_module, geography.is_east_column, tile.is_west_column,
        tile.is_east_column, tile.is_memory_module_east, tile.is_memory_module_west,
        tile.is_memory_module, e1]
    · by_cases h1 : k + 1 < g.x_size
      · have e1 : ¬ k + 1 = g.x_size := by omega
        simp [tile.horizontal_barrier, get_self_lock_eq, row_tile, hy, token_phase, chain_succ,
        tile.get_lock, position.moved, position.get_parity, geography.is_west_column,
        geography.is_memory_module, geography.is_east_column, tile.is_west_column,
        tile.is_east_column, tile.is_memory_module_east, tile.is_memory_module_west,
        tile.is_memory_module, h0, h1, e1]
      · have e1 : g.x_size = k + 1 := by omega
        simp [tile.horizontal_barrier, get_self_lock_eq, row_tile, hy, token_phase, chain_succ,
        tile.get_lock, position.moved, position.get_parity, geography.is_west_column,
        geography.is_memory_module, geography.is_east_column, tile.is_west_column,
        tile.is_east_column, tile.is_memory_module_east, tile.is_memory_module_west,
        tile.is_memory_module, h0, e1]
  · have hy0 : y % 2 = 0 := by omega
    by_cases h0 : k = 0
    · subst h0
      by_cases h1 : 1 < g.x_size
      · have e1 : g.x_size - 1 + 1 = g.x_size := by omega
        have e2 : ¬ g.x_size - 1 = 0 := by omega
        simp [tile.horizontal_barrier, get_self_lock_eq, row_tile, hy, token_phase, chain_succ,
        tile.get_lock, position.moved, position.get_parity, geography.is_west_column,
        geography.is_memory_module, geography.is_east_column, tile.is_west_column,
        tile.is_east_column, tile.is_memory_module_east, tile.is_memory_module_west,
        tile.is_memory_module, hy0, h1, e1, e2]
      · have e1 : g.x_size = 1 := by omega
        simp [tile.horizontal_barrier, get_self_lock_eq, row_tile, hy, token_phase, chain_succ,
        tile.get_lock, position.moved, position.get_parity, geography.is_west_column,
        geography.is_memory_module, geography.is_east_column, tile.is_west_column,
        tile.is_east_column, tile.is_memory_module_east, tile.is_memory_module_west,
        tile.is_memory_module, hy0, e1]
    · by_cases h1 : k + 1 < g.x_size
      · have e1 : ¬ g.x_size - 1 - k + 1 = g.x_size := by omega
        have e2 : ¬ g.x_size - 1 - k = 0 := by omega
        have e3 : g.x_size - 1 - k - 1 = g.x_size - 1 - (k + 1) := by omega
        simp [tile.horizontal_barrier, get_self_lock_eq, row_tile, hy, token_phase, chain_succ,
        tile.get_lock, position.moved, position.get_parity, geography.is_west_column,
        geography.is_memory_module, geography.is_east_column, tile.is_west_column,
        tile.is_east_column, tile.is_memory_module_east, tile.is_memory_module_west,
        tile.is_memory_module, hy0, h0, h1, e1, e2, e3]
      · have e1 : g.x_size = k + 1 := by omega
        simp [tile.horizontal_barrier, get_self_lock_eq, row_tile, hy, token_phase, chain_succ,
        tile.get_lock, position.moved, position.get_parity, geography.is_west_column,
        geography.is_memory_module, geography.is_east_column, tile.is_west_column,
        tile.is_east_column, tile.is_memory_module_east, tile.is_memory_module_west,
        tile.is_memory_module, hy0, h0, e1]

/-- On the tile number `k` of a column, `vertical_barrier` is the token phase
of that tile in the line formed by the column. -/
theorem vertical_barrier_eq_phase (g : geography) (x k lock : Nat) (hk : k < g.y_size) :
    tile.vertical_barrier g (column_tile x k) lock
      = token_phase ⟨column_tile x k, lock⟩ (decide (k = 0))
          (chain_succ lock g.y_size (column_tile x) k) := by
  by_cases h0 : k = 0
  · subst h0
    by_cases h1 : 1 < g.y_size
    · have e1 : ¬ 1 = g.y_size := by omega
      simp [tile.vertical_barrier, get_self_lock_eq, column_tile, token_phase, chain_succ,
      tile.get_lock, position.moved, geography.is_south_row, geography.is_memory_module,
      geography.is_north_row, tile.is_south_row, tile.is_memory_module_north,
      tile.is_memory_module, h1, e1]
    · have e1 : g.y_size = 1 := by omega
      simp [tile.vertical_barrier, get_self_lock_eq, column_tile, token_phase, chain_succ,
      tile.get_lock, position.moved, geography.is_south_row, geography.is_memory_module,
      geography.is_north_row, tile.is_south_row, tile.is_memory_module_north,
      tile.is_memory_module, e1]
  · by_cases h1 : k + 1 < g.y_size
    · have e1 : ¬ k + 1 = g.y_size := by omega
      simp [tile.vertical_barrier, get_self_lock_eq, column_tile, token_phase, chain_succ,
      tile.get_lock, position.moved, geography.is_south_row, geography.is_memory_module,
      geography.is_north_row, tile.is_south_row, tile.is_memory_module_north,
      tile.is_memory_module, h0, h1, e1]
    · have e1 : g.y_size = k + 1 := by omega
      simp [tile.vertical_barrier, get_self_lock_eq, column_tile, token_phase, chain_succ,
      tile.get_lock, position.moved, geography.is_south_row, geography.is_memory_module,
      geography.is_north_row, tile.is_south_row, tile.is_memory_module_north,
      tile.is_memory_module, h0, e1]

theorem row_tile_y (g : geography) (y k : Nat) : (row_tile g y k).y = y := by
  unfold row_tile
  split <;> rfl

theorem row_tile_inj (g : geography) (y j k : Nat) (hj : j < g.x_size) (hk : k < g.x_size)
    (h : row_tile g y j = row_tile g y k) : j = k := by
  unfold row_tile at h
  split at h
  · injection h
  · injection h with h1 _
    omega

theorem in_grid_row (g : geography) (q : position) (hq : g.in_grid q) :
    ∃ k, k < g.x_size ∧ q = row_tile g q.y k := by
  obtain ⟨hx, _⟩ := hq
  by_cases hy : q.y % 2 = 1
  · exact ⟨q.x, hx, by simp [row_tile, hy]⟩
  · refine ⟨g.x_size - 1 - q.x, by omega, ?_⟩
    have e : g.x_size - 1 - (g.x_size - 1 - q.x) = q.x := by omega
    simp [row_tile, hy, e]

theorem mem_chain_phase (slot n : Nat) (tile : Nat → position) (k : Nat) (op : lock_op)
    (h : op ∈ token_phase ⟨tile k, slot⟩ (decide (k = 0)) (chain_succ slot n tile k)) :
    op.lock = ⟨tile k, slot⟩ ∨ (k + 1 < n ∧ op.lock = ⟨tile (k + 1), slot⟩) := by
  rcases mem_token_phase _ _ _ op h with ⟨rfl, _⟩ | ⟨l, hl, hop1⟩ | rfl
  · exact Or.inl rfl
  · unfold chain_succ at hl
    split at hl
    · injection hl with hl
      subst hl
      rcases hop1 with rfl | rfl <;> exact Or.inr ⟨by assumption, rfl⟩
    · cases hl
  · exact Or.inl rfl

theorem horizontal_barrier_locks (g : geography) (q : position) (hq : g.in_grid q) (h : Nat)
    (op : lock_op) (hop : op ∈ tile.horizontal_barrier g q h) :
    op.lock.slot = h ∧ op.lock.owner.y = q.y := by
  obtain ⟨k, hk, hqk⟩ := in_grid_row g q hq
  rw [hqk, horizontal_barrier_eq_phase g q.y k h hk] at hop
  rcases mem_chain_phase h g.x_size (row_tile g q.y) k op hop with hl | ⟨_, hl⟩ <;>
    rw [hl] <;> exact ⟨rfl, row_tile_y g q.y _⟩

theorem vertical_barrier_locks (g : geography) (q : position) (hq : g.in_grid q) (v : Nat)
    (op : lock_op) (hop : op ∈ tile.vertical_barrier g q v) :
    op.lock.slot = v ∧ op.lock.owner.x = q.x := by
  have hqk : q = column_tile q.x q.y := rfl
  rw [hqk, vertical_barrier_eq_phase g q.x q.y v hq.2] at hop
  rcases mem_chain_phase v g.y_size (column_tile q.x) q.y op hop with hl | ⟨_, hl⟩ <;>
    rw [hl] <;> exact ⟨rfl, rfl⟩

/-- The tiles of a row, each performing `horizontal_barrier` between operations
on locks of other slots, form a line of the row. -/
theorem row_chain (g : geography) (h y : Nat) (A B : position → List lock_op)
    (hA : ∀ p op, op ∈ A p → op.lock.slot ≠ h) (hB : ∀ p op, op ∈ B p → op.lock.slot ≠ h) :
    token_chain g (fun p => A p ++ tile.horizontal_barrier g p h ++ B p) h g.x_size
      (row_tile g y) (fun k => A (row_tile g y k)) (fun k => B (row_tile g y k)) where
  inj := row_tile_inj g y
  prog_eq := by
    intro k hk
    show _ ++ tile.horizontal_barrier g (row_tile g y k) h ++ _ = _
    rw [horizontal_barrier_eq_phase g y k h hk]
  pre_free := by
    intro k _ op hop j _ e
    exact hA _ op hop (by rw [e])
  post_free := by
    intro k _ op hop j _ e
    exact hB _ op hop (by rw [e])
  others := by
    intro q hq hne op hop j _ e
    have hy : q.y ≠ y := by
      intro hy
      obtain ⟨k, hk, hqk⟩ := in_grid_row g q hq
      rw [hy] at hqk
      exact hne k hk hqk
    simp only [List.mem_append] at hop
    rcases hop with (hop | hop) | hop
    · exact hA _ op hop (by rw [e])
    · have := (horizontal_barrier_locks g q hq h op hop).2
      rw [e] at this
      simp only [row_tile_y] at this
      exact hy this.symm
    · exact hB _ op hop (by rw [e])

/-- The tiles of a column, each performing `vertical_barrier` between
operations on locks of other slots, form a line of the column. -/
theorem column_chain (g : geography) (v x : Nat) (A B : position → List lock_op)
    (hA : ∀ p op, op ∈ A p → op.lock.slot ≠ v) (hB : ∀ p op, op ∈ B p → op.lock.slot ≠ v) :
    token_chain g (fun p => A p ++ tile.vertical_barrier g p v ++ B p) v g.y_size
      (column_tile x) (fun k => A (column_tile x k)) (fun k => B (column_tile x k)) where
  inj := by
    intro j k _ _ e
    unfold column_tile at e
    injection e
  prog_eq := by
    intro k hk
    show _ ++ tile.vertical_barrier g (column_tile x k) v ++ _ = _
    rw [vertical_barrier_eq_phase g x k v hk]
  pre_free := by
    intro k _ op hop j _ e
    exact hA _ op hop (by rw [e])
  post_free := by
    intro k _ op hop j _ e
    exact hB _ op hop (by rw [e])
  others := by
    intro q hq hne op hop j _ e
    have hx : q.x ≠ x := by
      intro hx
      apply hne q.y hq.2
      rw [← hx]
      rfl
    simp only [List.mem_append] at hop
    rcases hop with (hop | hop) | hop
    · exact hA _ op hop (by rw [e])
    · have := (vertical_barrier_locks g q hq v op hop).2
      rw [e] at this
      exact hx this.symm
    · exact hB _ op hop (by rw [e])

theorem count_of_returned (prog : position → List lock_op) (s : grid_state) (l : lock_id)
    (p : position) (h : s.returned prog p) : s.count prog l p = ops_on l (prog p) := by
  unfold grid_state.returned at h
  unfold grid_state.count
  rw [h, Nat.add_sub_cancel, List.take_length]

theorem entered_of_count (prog : position → List lock_op) (s : grid_state) (l : lock_id)
    (p : position) (h : 1 ≤ s.count prog l p) : s.entered p := by
  unfold grid_state.count at h
  unfold grid_state.entered
  by_contra hpc
  have h0 : s.pc p = 0 := by omega
  rw [h0] at h
  simp [ops_on] at h

/-- A tile of a line that has performed all the operations of its program on
the locks of the line has passed its token phase. -/
theorem token_chain.passed_of_full {g : geography} {prog : position → List lock_op}
    {slot n : Nat} {tile : Nat → position} {pre post : Nat → List lock_op}
    (hc : token_chain g prog slot n tile pre post) (s : grid_state) (k : Nat) (hk : k < n)
    (hfull : ∀ i, i < n → ops_on ⟨tile i, slot⟩ (prog (tile k))
      ≤ s.count prog ⟨tile i, slot⟩ (tile k)) :
    chain_passed prog slot n tile s k := by
  refine ⟨?_, ?_⟩
  · intro hk1
    obtain ⟨k1, rfl⟩ : ∃ k1, k = k1 + 1 := ⟨k - 1, by omega⟩
    have h3 : ops_on ⟨tile (k1 + 1), slot⟩ (prog (tile (k1 + 1))) = 3 := by
      rw [ops_on, List.countP_eq_length_filter, hc.owning_ops k1 hk]
      rfl
    have := hfull (k1 + 1) hk
    omega
  · intro hk1
    have h3 : ops_on ⟨tile (k + 1), slot⟩ (prog (tile k)) = 3 := by
      rw [ops_on, List.countP_eq_length_filter, hc.arming_ops k hk1]
      rfl
    have := hfull (k + 1) hk1
    omega

theorem token_chain.passed_of_returned {g : geography} {prog : position → List lock_op}
    {slot n : Nat} {tile : Nat → position} {pre post : Nat → List lock_op}
    (hc : token_chain g prog slot n tile pre post) (s : grid_state) (k : Nat) (hk : k < n)
    (hret : s.returned prog (tile k)) : chain_passed prog slot n tile s k :=
  hc.passed_of_full s k hk (fun _ _ => le_of_eq (count_of_returned prog s _ _ hret).symm)

/-- In a line of tiles, once one tile has returned every tile has made its
call. -/
theorem token_chain.entered_of_returned {g : geography} {prog : position → List lock_op}
    {slot n : Nat} {tile : Nat → position} {pre post : Nat → List lock_op}
    (hc : token_chain g prog slot n tile pre post) (s : grid_state)
    (hs : grid_reachable g prog s) (k : Nat) (hk : k < n) (hret : s.returned prog (tile k))
    (j : Nat) (hj : j < n) : s.entered (tile j) := by
  by_cases hjk : j = k
  · subst hjk
    unfold grid_state.returned at hret
    unfold grid_state.entered
    omega
  · obtain ⟨i, _, hi⟩ := hc.safety s hs k hk (hc.passed_of_returned s k hk hret) j hj hjk
    exact entered_of_count prog s _ _ hi

theorem horizontal_only_chain (g : geography) (lock y : Nat) :
    token_chain g (fun p => tile.horizontal_barrier g p lock) lock g.x_size (row_tile g y)
      (fun _ => []) (fun _ => []) := by
  have h := row_chain g lock y (fun _ => []) (fun _ => []) (by simp) (by simp)
  simpa using h

theorem vertical_only_chain (g : geography) (lock x : Nat) :
    token_chain g (fun p => tile.vertical_barrier g p lock) lock g.y_size (column_tile x)
      (fun _ => []) (fun _ => []) := by
  have h := column_chain g lock x (fun _ => []) (fun _ => []) (by simp) (by simp)
  simpa using h

theorem reachable_of_run (g : geography) (prog : position → List lock_op) :
    ∀ (schedule : List position) (s s1 : grid_state), grid_reachable g prog s →
      (∀ p ∈ schedule, g.in_grid p) → run_schedule prog s schedule = some s1 →
      grid_reachable g prog s1 := by
  intro schedule
  induction schedule with
  | nil =>
      intro s s1 hs _ h
      simp only [run_schedule, Option.some.injEq] at h
      exact h ▸ hs
  | cons p rest ih =>
      intro s s1 hs hin h
      unfold run_schedule at h
      cases hstep : tile_step prog s p with
      | none => rw [hstep] at h; cases h
      | some s2 =>
          rw [hstep] at h
          exact ih s2 s1 (.step p hs (hin p (List.mem_cons_self p rest)) hstep)
            (fun q hq => hin q (List.mem_cons_of_mem p hq)) h

theorem some_getD_of_isSome {α : Type} (o : Option α) (d : α) (h : o.isSome = true) :
    o = some (o.getD d) := by
  cases o with
  | none => cases h
  | some a => rfl

theorem row_demo_reachable :
    grid_reachable ⟨2, 1⟩ (fun t => tile.horizontal_barrier ⟨2, 1⟩ t 14) row_demo_state :=
  reachable_of_run ⟨2, 1⟩ _ row_demo_schedule grid_state.init row_demo_state .init
    (by decide) (some_getD_of_isSome _ _ (by decide))

theorem horizontal_barrier_slot (g : geography) (q : position) (h : Nat) (op : lock_op)
    (hop : op ∈ tile.horizontal_barrier g q h) : op.lock.slot = h := by
  unfold tile.horizontal_barrier at hop
  simp only [get_self_lock_eq, tile.get_lock, List.mem_append] at hop
  split_ifs at hop <;> simp at hop <;> aesop

theorem vertical_barrier_slot (g : geography) (q : position) (v : Nat) (op : lock_op)
    (hop : op ∈ tile.vertical_barrier g q v) : op.lock.slot = v := by
  unfold tile.vertical_barrier at hop
  simp only [get_self_lock_eq, tile.get_lock, List.mem_append] at hop
  split_ifs at hop <;> simp at hop <;> aesop

theorem barrier_row_chain (g : geography) (h_id v_id y : Nat) (hne : h_id ≠ v_id) :
    token_chain g (fun t => tile.barrier g t h_id v_id) h_id g.x_size (row_tile g y)
      (fun _ => []) (fun k => tile.vertical_barrier g (row_tile g y k) v_id) := by
  have h := row_chain g h_id y (fun _ => []) (fun t => tile.vertical_barrier g t v_id)
    (by simp) (fun t op hop => by rw [vertical_barrier_slot g t v_id op hop]; exact Ne.symm hne)
  simpa [tile.barrier] using h

theorem barrier_column_chain (g : geography) (h_id v_id x : Nat) (hne : h_id ≠ v_id) :
    token_chain g (fun t => tile.barrier g t h_id v_id) v_id g.y_size (column_tile x)
      (fun k => tile.horizontal_barrier g (column_tile x k) h_id) (fun _ => []) := by
  have h := column_chain g v_id x (fun t => tile.horizontal_barrier g t h_id) (fun _ => [])
    (fun t op hop => by rw [horizontal_barrier_slot g t h_id op hop]; exact hne) (by simp)
  simpa [tile.barrier] using h

/-- In `barrier`, a tile that has performed an operation of its
`vertical_barrier` has performed all the operations of its
`horizontal_barrier`. -/
theorem barrier_row_before_column (g : geography) (h_id v_id : Nat) (hne : h_id ≠ v_id)
    (s : grid_state) (t : position) (lv lh : lock_id) (hv : lv.slot = v_id)
    (hh : lh.slot = h_id)
    (hact : 1 ≤ s.count (fun t => tile.barrier g t h_id v_id) lv t) :
    ops_on lh (tile.barrier g t h_id v_id)
      ≤ s.count (fun t => tile.barrier g t h_id v_id) lh t := by
  have hH : ops_on lv (tile.horizontal_barrier g t h_id) = 0 := by
    apply ops_on_eq_zero_of_free
    intro op hop e
    have := horizontal_barrier_slot g t h_id op hop
    rw [e, hv] at this
    exact hne this.symm
  have hV : ops_on lh (tile.vertical_barrier g t v_id) = 0 := by
    apply ops_on_eq_zero_of_free
    intro op hop e
    have := vertical_barrier_slot g t v_id op hop
    rw [e, hh] at this
    exact hne this
  have htot : ops_on lh (tile.barrier g t h_id v_id)
      = ops_on lh (tile.horizontal_barrier g t h_id) := by
    unfold tile.barrier
    unfold ops_on at hV ⊢
    rw [List.countP_append, hV, Nat.add_zero]
  rw [htot]
  unfold grid_state.count at hact ⊢
  simp only [tile.barrier] at hact ⊢
  exact ops_on_take_append_ge lh lv _ _ _ (by omega)

theorem enabled_release (s : grid_state) (l : lock_id) (v : Bool) :
    (lock_op.release_with_value l v).enabled s = true := by
  simp [lock_op.enabled, lock_op.apply]

theorem enabled_acquire (s : grid_state) (l : lock_id) (v : Bool)
    (hc : (s.locks l).consumed = false) (hv : (s.locks l).value = v) :
    (lock_op.acquire_with_value l v).enabled s = true := by
  simp [lock_op.enabled, lock_op.apply, lock_unit.acquire_with_value, hc, hv]

theorem next_op_mem (prog : position → List lock_op) (s : grid_state) (p : position)
    (op : lock_op) (h : s.next_op prog p = some op) : op ∈ prog p :=
  List.getElem?_mem h

theorem next_op_filter (prog : position → List lock_op) (s : grid_state) (p : position)
    (op : lock_op) (h : s.next_op prog p = some op) :
    ((prog p).filter (fun o => decide (o.lock = op.lock)))[s.count prog op.lock p]?
      = some op :=
  filter_get_of_take (fun o => decide (o.lock = op.lock)) (prog p) (s.pc p - 1) op h
    (by simp)

theorem pc_le_of_reachable (g : geography) (prog : position → List lock_op) (s : grid_state)
    (hs : grid_reachable g prog s) (p : position) : s.pc p ≤ (prog p).length + 1 := by
  induction hs with
  | init => simp [grid_state.init]
  | @step s s1 q _ _ hstep ih =>
      rcases tile_step_cases prog s s1 q hstep with ⟨hpc, rfl⟩ | ⟨k, op, locks, hpc, hop, _, rfl⟩
      · by_cases hq : p = q
        · subst hq
          simp
        · simpa [Function.update_noteq hq] using ih
      · by_cases hq : p = q
        · subst hq
          have hk : k < (prog p).length := by
            by_contra hge
            rw [List.getElem?_eq_none (by omega)] at hop
            cases hop
          simp only [Function.update_same]
          omega
        · simpa [Function.update_noteq hq] using ih

theorem returned_of_next_none (g : geography) (prog : position → List lock_op)
    (s : grid_state) (hs : grid_reachable g prog s) (p : position)
    (hlen : 0 < (prog p).length) (h : s.next_op prog p = none) : s.returned prog p := by
  have hle := pc_le_of_reachable g prog s hs p
  unfold grid_state.next_op at h
  rw [List.getElem?_eq_none_iff] at h
  unfold grid_state.returned
  omega

/-- A tile about to acquire the lock of its successor is not blocked, unless it
has armed that lock and the successor has not yet acknowledged. -/
theorem token_chain.arming_enabled {g : geography} {prog : position → List lock_op}
    {slot n : Nat} {tile : Nat → position} {pre post : Nat → List lock_op}
    (hc : token_chain g prog slot n tile pre post) (s : grid_state)
    (hs : grid_reachable g prog s) (k : Nat) (hk : k + 1 < n)
    (hnext : s.next_op prog (tile k) = some (.acquire_with_value ⟨tile (k + 1), slot⟩ false)) :
    (lock_op.acquire_with_value ⟨tile (k + 1), slot⟩ false).enabled s = true ∨
    (2 ≤ s.count prog ⟨tile (k + 1), slot⟩ (tile k) ∧
      s.count prog ⟨tile (k + 1), slot⟩ (tile (k + 1)) < 2) := by
  have hidx : ((prog (tile k)).filter (fun o => decide (o.lock = ⟨tile (k + 1), slot⟩)))[
      s.count prog ⟨tile (k + 1), slot⟩ (tile k)]?
        = some (.acquire_with_value ⟨tile (k + 1), slot⟩ false) :=
    next_op_filter prog s (tile k) _ hnext
  rw [hc.arming_ops k hk] at hidx
  obtain ⟨i1, i2, i3, i4⟩ := hc.protocol s hs k hk
  generalize s.count prog ⟨tile (k + 1), slot⟩ (tile k) = na at hidx i1 i2 i3 i4 ⊢
  generalize s.count prog ⟨tile (k + 1), slot⟩ (tile (k + 1)) = nb at i1 i2 i3 i4 ⊢
  have hna : na = 0 ∨ na = 2 := by
    rcases na with _ | _ | _ | na
    · exact Or.inl rfl
    · simp at hidx
    · exact Or.inr rfl
    · simp at hidx
  by_cases hblocked : 2 ≤ na ∧ nb < 2
  · exact Or.inr hblocked
  · left
    apply enabled_acquire
    · by_contra hcons
      have hcons1 : (s.locks ⟨tile (k + 1), slot⟩).consumed = true := by simpa using hcons
      have := i4 hcons1
      omega
    · by_contra hval
      have hval1 : (s.locks ⟨tile (k + 1), slot⟩).value = true := by simpa using hval
      exact hblocked (i1.1 hval1)

/-- A tile about to acquire its own lock is not blocked, unless its predecessor
has not yet armed the lock. -/
theorem token_chain.owning_enabled {g : geography} {prog : position → List lock_op}
    {slot n : Nat} {tile : Nat → position} {pre post : Nat → List lock_op}
    (hc : token_chain g prog slot n tile pre post) (s : grid_state)
    (hs : grid_reachable g prog s) (k : Nat) (hk : k + 1 < n)
    (hnext : s.next_op prog (tile (k + 1))
      = some (.acquire_with_value ⟨tile (k + 1), slot⟩ true)) :
    (lock_op.acquire_with_value ⟨tile (k + 1), slot⟩ true).enabled s = true ∨
    s.count prog ⟨tile (k + 1), slot⟩ (tile k) < 2 := by
  have hidx : ((prog (tile (k + 1))).filter
      (fun o => decide (o.lock = ⟨tile (k + 1), slot⟩)))[
      s.count prog ⟨tile (k + 1), slot⟩ (tile (k + 1))]?
        = some (.acquire_with_value ⟨tile (k + 1), slot⟩ true) :=
    next_op_filter prog s (tile (k + 1)) _ hnext
  rw [hc.owning_ops k hk] at hidx
  obtain ⟨i1, i2, i3, i4⟩ := hc.protocol s hs k hk
  generalize s.count prog ⟨tile (k + 1), slot⟩ (tile k) = na at i1 i2 i3 i4 ⊢
  generalize s.count prog ⟨tile (k + 1), slot⟩ (tile (k + 1)) = nb at hidx i1 i2 i3 i4
  by_cases hna : na < 2
  · exact Or.inr hna
  · left
    have hnb : nb = 0 := by
      rcases nb with _ | _ | _ | nb
      · rfl
      · simp at hidx
      · simp at hidx
      · simp at hidx
    apply enabled_acquire
    · by_contra hcons
      have hcons1 : (s.locks ⟨tile (k + 1), slot⟩).consumed = true := by simpa using hcons
      have := i4 hcons1
      omega
    · exact i1.2 ⟨by omega, by omega⟩

/-- A line of tiles that perform nothing but their token phase cannot get
stuck: in every reachable state either every tile has returned or the next
lock operation of some tile does not block. -/
theorem token_chain.deadlock_free {g : geography} {prog : position → List lock_op}
    {slot n : Nat} {tile : Nat → position}
    (hc : token_chain g prog slot n tile (fun _ => []) (fun _ => [])) (s : grid_state)
    (hs : grid_reachable g prog s) :
    (∀ k, k < n → s.returned prog (tile k)) ∨
    ∃ k op, k < n ∧ s.next_op prog (tile k) = some op ∧ op.enabled s = true := by
  by_contra hcon
  rw [not_or] at hcon
  obtain ⟨hnotall, hnone⟩ := hcon
  have hblocked : ∀ k op, k < n → s.next_op prog (tile k) = some op → op.enabled s ≠ true :=
    fun k op hk hn he => hnone ⟨k, op, hk, hn, he⟩
  have hprog : ∀ k, k < n → prog (tile k)
      = token_phase ⟨tile k, slot⟩ (decide (k = 0)) (chain_succ slot n tile k) := by
    intro k hk
    have := hc.prog_eq k hk
    simpa using this
  have hlen : ∀ k, k < n → 0 < (prog (tile k)).length := by
    intro k hk
    rw [hprog k hk]
    simp [token_phase]
  -- a tile that has not returned is about to acquire its own lock or the
  -- lock of its successor
  have hcase : ∀ k, k < n → ∀ op, s.next_op prog (tile k) = some op →
      (op = .acquire_with_value ⟨tile k, slot⟩ true ∧ k ≠ 0) ∨
      (k + 1 < n ∧ op = .acquire_with_value ⟨tile (k + 1), slot⟩ false) := by
    intro k hk op hn
    have hmem := next_op_mem prog s (tile k) op hn
    rw [hprog k hk] at hmem
    rcases mem_token_phase _ _ _ op hmem with ⟨rfl, hf⟩ | ⟨l, hl, hop1⟩ | rfl
    · exact Or.inl ⟨rfl, by simpa using hf⟩
    · unfold chain_succ at hl
      split at hl
      · injection hl with hl
        subst hl
        rcases hop1 with rfl | rfl
        · exact Or.inr ⟨by assumption, rfl⟩
        · exact absurd (enabled_release s _ _) (hblocked k _ hk hn)
      · cases hl
    · exact absurd (enabled_release s _ _) (hblocked k _ hk hn)
  have hfull_arm : ∀ k, k + 1 < n → s.returned prog (tile k) →
      s.count prog ⟨tile (k + 1), slot⟩ (tile k) = 3 := by
    intro k hk hret
    rw [count_of_returned prog s _ _ hret, ops_on, List.countP_eq_length_filter,
      hc.arming_ops k hk]
    rfl
  have hfull_own : ∀ k, k + 1 < n → s.returned prog (tile (k + 1)) →
      s.count prog ⟨tile (k + 1), slot⟩ (tile (k + 1)) = 3 := by
    intro k hk hret
    rw [count_of_returned prog s _ _ hret, ops_on, List.countP_eq_length_filter,
      hc.owning_ops k hk]
    rfl
  -- no tile waits for its predecessor
  have stepA : ∀ k, k < n →
      s.next_op prog (tile k) ≠ some (.acquire_with_value ⟨tile k, slot⟩ true) := by
    intro k
    induction k with
    | zero =>
        intro hk hn
        rcases hcase 0 hk _ hn with ⟨_, h0⟩ | ⟨_, h1⟩
        · exact h0 rfl
        · injection h1 with _ hb
          cases hb
    | succ k ih =>
        intro hk hn
        rcases hc.owning_enabled s hs k hk hn with he | hna
        · exact hblocked (k + 1) _ hk hn he
        · cases hnk : s.next_op prog (tile k) with
          | none =>
              have hret := returned_of_next_none g prog s hs (tile k) (hlen k (by omega)) hnk
              have := hfull_arm k hk hret
              omega
          | some op1 =>
              rcases hcase k (by omega) op1 hnk with ⟨rfl, _⟩ | ⟨_, rfl⟩
              · exact ih (by omega) hnk
              · rcases hc.arming_enabled s hs k hk hnk with he | ⟨h2, _⟩
                · exact hblocked k _ (by omega) hnk he
                · omega
  -- no tile waits for its successor
  have stepB : ∀ d k, k + d + 1 = n →
      s.next_op prog (tile k) ≠ some (.acquire_with_value ⟨tile (k + 1), slot⟩ false) := by
    intro d
    induction d with
    | zero =>
        intro k hk hn
        rcases hcase k (by omega) _ hn with ⟨h1, _⟩ | ⟨h1, _⟩
        · injection h1 with _ hb
          cases hb
        · omega
    | succ d ih =>
        intro k hk hn
        have hk1 : k + 1 < n := by omega
        rcases hc.arming_enabled s hs k hk1 hn with he | ⟨_, hnb⟩
        · exact hblocked k _ (by omega) hn he
        · cases hnk : s.next_op prog (tile (k + 1)) with
          | none =>
              have hret := returned_of_next_none g prog s hs (tile (k + 1)) (hlen (k + 1) hk1) hnk
              have := hfull_own k hk1 hret
              omega
          | some op1 =>
              rcases hcase (k + 1) hk1 op1 hnk with ⟨rfl, _⟩ | ⟨_, rfl⟩
              · exact stepA (k + 1) hk1 hnk
              · exact ih (k + 1) (by omega) hnk
  apply hnotall
  intro k hk
  cases hnk : s.next_op prog (tile k) with
  | none => exact returned_of_next_none g prog s hs (tile k) (hlen k hk) hnk
  | some op =>
      exfalso
      rcases hcase k hk op hnk with ⟨rfl, _⟩ | ⟨_, rfl⟩
      · exact stepA k hk hnk
      · exact stepB (n - 1 - k) k (by omega) hnk

theorem round_trip_reachable :
    grid_reachable ⟨2, 1⟩ (fun t => tile.barrier ⟨2, 1⟩ t 14 15) round_trip_state :=
  reachable_of_run ⟨2, 1⟩ _ round_trip_schedule grid_state.init round_trip_state .init
    (by decide) (some_getD_of_isSome _ _ (by decide))

theorem in_grid_two_by_one (t : position) (h : (⟨2, 1⟩ : geography).in_grid t) :
    t = ⟨0, 0⟩ ∨ t = ⟨1, 0⟩ := by
  obtain ⟨x, y⟩ := t
  obtain ⟨hx, hy⟩ := h
  simp only at hx hy
  have hy0 : y = 0 := by omega
  subst hy0
  rcases Nat.lt_or_ge x 1 with h1 | h1
  · left
    have : x = 0 := by omega
    subst this
    rfl
  · right
    have : x = 1 := by omega
    subst this
    rfl

theorem waits_for_token_phase (own : lock_id) (first : Bool) (succ : Option lock_id) :
    waits_for_token own (token_phase own first succ) = !first := by
  cases first <;> cases succ <;> simp [waits_for_token, token_phase]

theorem unleashed_phase (own : lock_id) (first : Bool) (succ : Option lock_id) :
    unleashed (token_phase own first succ) = (succ.map (fun l => l.owner)).toList := by
  cases first <;> cases succ <;> simp [unleashed, token_phase]

theorem token_phase_chain (slot n : Nat) (tile : Nat → position) (k : Nat) :
    token_phase ⟨tile k, slot⟩ (decide (k = 0)) (chain_succ slot n tile k)
      = (if k = 0 then [] else [.acquire_with_value ⟨tile k, slot⟩ true]) ++
        (if k + 1 < n then
          [.acquire_with_value ⟨tile (k + 1), slot⟩ false,
           .release_with_value ⟨tile (k + 1), slot⟩ true,
           .acquire_with_value ⟨tile (k + 1), slot⟩ false] else []) ++
        (if k = 0 then [] else [.release_with_value ⟨tile k, slot⟩ false]) ++
        [.release_with_value ⟨tile k, slot⟩ false] := by
  unfold token_phase chain_succ
  by_cases h1 : k + 1 < n
  · rw [if_pos h1, if_pos h1]
    by_cases h0 : k = 0 <;> simp [h0]
  · rw [if_neg h1, if_neg h1]
    by_cases h0 : k = 0 <;> simp [h0]

/-! ## The claims -/

/-- C1. In `wait_all`, a poll that finds no arrival calls no handler and leaves
the completion counter alone, an arrival with the done tag adds one to the
counter and calls no handler, any other arrival calls one handler and leaves
the counter alone; so at any time the number of handler calls plus the counter
is the number of arrivals the host has observed. -/
theorem wait_all_each_arrival_counted_once (self : host_side) (w : device_world)
    (hvalid : ∀ pass x y data, w.arrivals pass x y = some data → data.index < 3) :
    (∀ pass x y st st1, host_side.wait_all_body w pass x y st = .ok st1 →
        (w.arrivals pass x y = none →
          handler_calls st1.trace = handler_calls st.trace ∧
          st1.done_counter = st.done_counter) ∧
        (∀ data, w.arrivals pass x y = some data → data.index = 0 →
          handler_calls st1.trace = handler_calls st.trace ∧
          st1.done_counter = st.done_counter + 1) ∧
        (∀ data, w.arrivals pass x y = some data → data.index ≠ 0 →
          handler_calls st1.trace = handler_calls st.trace + 1 ∧
          st1.done_counter = st.done_counter)) ∧
    (∀ fuel, handler_calls (self.wait_all w fuel).state.trace
        + (self.wait_all w fuel).state.done_counter
        = arrivals_seen (self.wait_all w fuel).state.trace) := by
  refine ⟨?_, ?_⟩
  · intro pass x y st st1 hb
    have hspec := wait_all_body_spec w pass x y st st1 (Or.inl hb)
    subst hspec
    refine ⟨?_, ?_, ?_⟩
    · intro ha
      simp [body_events, body_done, ha, handler_calls]
    · intro data ha h0
      have hd := (Var.index_eq_zero_iff data).1 h0
      subst hd
      simp [body_events, body_done, follow_events, ha, handler_calls, Var.index]
    · intro data ha h0
      have hd : data ≠ .done_rpc := fun hd => h0 ((Var.index_eq_zero_iff data).2 hd)
      have hv := visit_handler_calls w x y data (hvalid pass x y data ha)
      simp only [handler_calls] at hv
      cases hr : (host_side.visit w x y data).2 <;>
        simp [body_events, body_done, follow_events, ha, hd, h0, hr, handler_calls,
          List.countP_append, List.countP_cons, hv]
  · intro fuel
    refine wait_all_loop_invariant self w
      (fun st => handler_calls st.trace + st.done_counter = arrivals_seen st.trace)
      ?_ fuel 0 ⟨0, []⟩ (by simp [handler_calls, arrivals_seen])
    intro pass x y st hP
    have ht := body_events_tally w pass x y (hvalid pass x y)
    simp only [handler_calls, arrivals_seen, List.countP_append] at hP ht ⊢
    omega

/-- C1, witness: a 2 by 2 grid whose tiles each log once and then signal
done. -/
theorem wait_all_each_arrival_counted_once_witness :
    (∀ pass x y data, log_then_done.arrivals pass x y = some data → data.index < 3) ∧
    handler_calls ((⟨2, 2⟩ : host_side).wait_all log_then_done 2).state.trace
        + ((⟨2, 2⟩ : host_side).wait_all log_then_done 2).state.done_counter
        = arrivals_seen ((⟨2, 2⟩ : host_side).wait_all log_then_done 2).state.trace :=
  have hv : ∀ pass x y data, log_then_done.arrivals pass x y = some data → data.index < 3 := by
    intro pass x y data h
    simp only [log_then_done] at h
    split_ifs at h <;> simp at h <;> subst h <;> simp [Var.index]
  ⟨hv, (wait_all_each_arrival_counted_once ⟨2, 2⟩ log_then_done hv).2 2⟩

/-- C2. When no tile signals done twice, `wait_all` returns exactly when every
tile of the grid has signalled done: it has not returned while some tile has
not, and its counter is `x_size * y_size` when it returns; and, no request
being fatal, it returns at the end of the scan pass in which the last done
signal is found, being still in its loop, with a smaller counter, after the
pass before. -/
theorem wait_all_returns_iff_all_done (self : host_side) (w : device_world)
    (honce : ∀ x y p1 p2, w.arrivals p1 x y = some .done_rpc →
      w.arrivals p2 x y = some .done_rpc → p1 = p2) :
    (∀ fuel st, self.wait_all w fuel = .returned st →
      st.done_counter = self.x_size * self.y_size ∧ self.all_done_by w fuel) ∧
    ((∀ pass x y data, w.arrivals pass x y = some data → data.index ≠ 0 →
        ∃ r, (host_side.visit w x y data).2 = .ok r) →
      (∀ fuel, 0 < fuel → self.all_done_by w fuel →
        ∃ st, self.wait_all w fuel = .returned st ∧
          st.done_counter = self.x_size * self.y_size) ∧
      (∀ n, self.all_done_by w (n + 1) → ¬ self.all_done_by w n →
        (∃ st, self.wait_all w n = .still_waiting st ∧
          st.done_counter < self.x_size * self.y_size) ∧
        (∃ st, self.wait_all w (n + 1) = .returned st ∧
          st.done_counter = self.x_size * self.y_size))) := by
  have hfull := dones_before_full_iff self w honce
  have h1 : ∀ fuel st, self.wait_all w fuel = .returned st →
      st.done_counter = self.x_size * self.y_size ∧ self.all_done_by w fuel := by
    intro fuel st hret
    obtain ⟨m, _, hm2, hm3, hm4⟩ := wait_all_loop_returned self w fuel 0 ⟨0, []⟩ st rfl hret
    refine ⟨le_antisymm (hm3 ▸ (hfull (m + 1)).1) (hm3 ▸ hm4), ?_⟩
    exact all_done_by_mono self w (m + 1) fuel (by omega) (((hfull (m + 1)).2).1 hm4)
  refine ⟨h1, ?_⟩
  intro hok
  have hchar := fun fuel => wait_all_loop_char self w hok fuel 0 ⟨0, []⟩ rfl
  have h2 : ∀ fuel, 0 < fuel → self.all_done_by w fuel →
      ∃ st, self.wait_all w fuel = .returned st ∧
        st.done_counter = self.x_size * self.y_size := by
    intro fuel hpos hall
    rcases hchar fuel with ⟨st1, hr, _⟩ | ⟨st1, _, _, h3⟩
    · exact ⟨st1, hr, (h1 fuel st1 hr).1⟩
    · have hlt := h3 fuel hpos (by omega)
      have hge := ((hfull fuel).2).2 hall
      omega
  refine ⟨h2, ?_⟩
  intro n hall hnot
  refine ⟨?_, h2 (n + 1) (by omega) hall⟩
  rcases hchar n with ⟨st1, hr, _⟩ | ⟨st1, hr, hc, _⟩
  · exact absurd (h1 n st1 hr).2 hnot
  · refine ⟨st1, hr, ?_⟩
    have hlt : ¬ self.x_size * self.y_size ≤ self.dones_before w n :=
      fun hge => hnot (((hfull n).2).1 hge)
    simp only [Nat.zero_add] at hc
    omega

/-- C2, witness: on a 2 by 2 grid whose tiles each log once and signal done in
the second scan pass, `wait_all` returns after two passes with counter 4. -/
theorem wait_all_returns_iff_all_done_witness :
    ∃ st, (⟨2, 2⟩ : host_side).wait_all log_then_done 2 = .returned st ∧
      st.done_counter = 2 * 2 :=
  ((wait_all_returns_iff_all_done ⟨2, 2⟩ log_then_done
    (by
      intro x y p1 p2 h1 h2
      simp only [log_then_done] at h1 h2
      split_ifs at h1 h2 <;> simp_all)).2
    (by
      intro pass x y data h h0
      simp only [log_then_done] at h
      split_ifs at h <;> simp at h <;> subst h
      · exact ⟨0, rfl⟩
      · exact absurd rfl h0)).1 2 (by decide)
    (by
      intro x y _ _
      exact ⟨1, by decide, by simp [log_then_done]⟩)

/-- C3. When `wait_all` has read from the tile at `(x, y)` a payload of one of
the request kinds other than done, the handler of that kind is called next,
once, with `(x, y)` and that payload; when the handler returns, its value is
written to the response slot of the tile and only then `get_barrier(x, y).wait()`
releases the tile; and in every state a tile and the host can reach, the values
the calls of `perform` have returned are what the handlers return for the
requests performed.  The calls of `perform` do return: when the host can answer
the requests of the program of a tile, the schedule that lets the tile run
whenever it is not blocked, and the host otherwise, ends after
`link_fuel program` steps with every call returned and every value the value of
the handler; under any interleaving, as long as no exception has left
`wait_all`, the tile or the host can go on until the tile has finished; and
every step that changes the state brings that end nearer. -/
theorem wait_all_answers_each_request (self : host_side) (w : device_world) (fuel : Nat)
    (pre : List event) (x y : Nat) (data : Var) (post : List event)
    (hsplit : (self.wait_all w fuel).state.trace = pre ++ .memcpy_d2h x y data :: post)
    (hkind : data.index = 1 ∨ data.index = 2) :
    (∃ evs post0, (host_side.visit w x y data).1 = .act_on_data data.index x y data :: evs ∧
      handler_calls evs = 0 ∧ post = (host_side.visit w x y data).1 ++ post0) ∧
    (∀ ret, (host_side.visit w x y data).2 = .ok ret →
      ∃ post1, post = (host_side.visit w x y data).1
        ++ .mem_write x y ret :: .wait x y :: post1) ∧
    (∀ program r0 s, link_reachable w x y program r0 s →
      List.Forall₂ (answers_request w x y) (s.issued.take s.answers.length) s.answers) ∧
    (∀ program r0,
      (∀ d ∈ program, d.index ≠ 0 → ∃ r, (host_side.visit w x y d).2 = .ok r) →
      link_reachable w x y program r0
        (link_run w x y (link_fuel program) (link_state.init program r0)) ∧
      (link_run w x y (link_fuel program) (link_state.init program r0)).dpc = .idle ∧
      (link_run w x y (link_fuel program) (link_state.init program r0)).program = [] ∧
      (link_run w x y (link_fuel program) (link_state.init program r0)).issued = program ∧
      List.Forall₂ (answers_request w x y) program
        (link_run w x y (link_fuel program) (link_state.init program r0)).answers) ∧
    (∀ program r0 s, link_reachable w x y program r0 s → (∀ e, s.hpc ≠ .dead e) →
      (s.dpc = .idle ∧ s.program = []) ∨
      (device_side.perform_step s).isSome = true ∨
      (∃ s1, host_side.wait_all_step w x y s = some s1 ∧ s1.hpc ≠ s.hpc)) ∧
    (∀ program r0 s s1, link_reachable w x y program r0 s →
      (device_side.perform_step s = some s1 → link_rank s1 + 1 = link_rank s) ∧
      (host_side.wait_all_step w x y s = some s1 → s1 ≠ s → link_rank s1 < link_rank s)) := by
  obtain ⟨_, post1, hpost⟩ := wait_all_well_followed self w fuel pre x y data post hsplit
  have h0 : data.index ≠ 0 := by omega
  refine ⟨?_, ?_, ?_, ?_, ?_, ?_⟩
  · have hshape : ∃ evs, (host_side.visit w x y data).1 = .act_on_data data.index x y data :: evs ∧
        handler_calls evs = 0 := by
      cases data with
      | done_rpc => simp [Var.index] at h0
      | garbage k => simp only [Var.index] at hkind; omega
      | image_update_rpc d =>
          exact ⟨[], by simp [host_side.visit, Var.index], by simp [handler_calls]⟩
      | send_log_rpc d =>
          exact ⟨(send_log_rpc.act_on_data w x y d).1, by simp [host_side.visit, Var.index],
            by rcases send_log_cases w x y d with ⟨_, h⟩ | ⟨_, h⟩ <;> simp [h, handler_calls]⟩
    obtain ⟨evs, hevs, hcalls⟩ := hshape
    cases hr : (host_side.visit w x y data).2 with
    | ok ret =>
        exact ⟨evs, _, hevs, hcalls, by rw [hpost]; simp [follow_events, h0, hr]; rfl⟩
    | error e =>
        exact ⟨evs, post1, hevs, hcalls, by rw [hpost]; simp [follow_events, h0, hr]⟩
  · intro ret hret
    refine ⟨post1, ?_⟩
    rw [hpost]
    simp [follow_events, h0, hret]
  · intro program r0 s hreach
    exact link_inv_answers w x y s (link_reachable_inv w x y program r0 s hreach)
  · intro program r0 hok
    obtain ⟨rs, hF, hr, hp, hi, ha⟩ := link_run_program w x y program
      (link_state.init program r0) ⟨rfl, rfl, rfl⟩ rfl hok
    refine ⟨link_run_reachable w x y program r0 _ _ .init, hr.1, hp, ?_, ?_⟩
    · simpa [link_state.init] using hi
    · rw [ha]
      simpa [link_state.init] using hF
  · intro program r0 s hreach hlive
    exact link_progress w x y s (link_reachable_inv w x y program r0 s hreach) hlive
  · intro program r0 s s1 hreach
    have hinv := link_reachable_inv w x y program r0 s hreach
    exact ⟨link_rank_device w x y s s1 hinv, link_rank_host w x y s s1 hinv⟩

/-- C3, witness: the log request of the tile of a 1 by 1 grid; the response 0
is written and then the tile is released; and the tile whose program is that
log request and then a done signal has both calls of `perform` returned after
21 steps, the first with the 0 of the log handler. -/
theorem wait_all_answers_each_request_witness :
    (∃ post1, [event.act_on_data 2 0 0 (.send_log_rpc ⟨0, 2⟩), event.cout ['h', 'h'],
        event.mem_write 0 0 0, event.wait 0 0]
      = (host_side.visit log_then_done 0 0 (.send_log_rpc ⟨0, 2⟩)).1
        ++ event.mem_write 0 0 0 :: event.wait 0 0 :: post1) ∧
    List.Forall₂ (answers_request log_then_done 0 0) [.send_log_rpc ⟨0, 2⟩, .done_rpc]
      (link_run log_then_done 0 0 21
        (link_state.init [.send_log_rpc ⟨0, 2⟩, .done_rpc] 7)).answers ∧
    (link_run log_then_done 0 0 21
        (link_state.init [.send_log_rpc ⟨0, 2⟩, .done_rpc] 7)).answers = [0, 0] :=
  have T := wait_all_answers_each_request ⟨1, 1⟩ log_then_done 1 [.try_arrive 0 0 true] 0 0
    (.send_log_rpc ⟨0, 2⟩)
    [.act_on_data 2 0 0 (.send_log_rpc ⟨0, 2⟩), .cout ['h', 'h'], .mem_write 0 0 0, .wait 0 0]
    (by decide) (Or.inr rfl)
  ⟨T.2.1 0 rfl,
    (T.2.2.2.1 [.send_log_rpc ⟨0, 2⟩, .done_rpc] 7 (by
      intro d hd h0
      simp only [List.mem_cons, List.mem_singleton, List.not_mem_nil, or_false] at hd
      rcases hd with rfl | rfl
      · exact ⟨0, rfl⟩
      · exact absurd rfl h0)).2.2.2.2,
    by decide⟩

/-- C4, as stated, fails: on a 1 by 1 grid whose tile signals done, `wait_all`
calls `get_barrier(0, 0).wait()` right after it has read the done payload. -/
theorem wait_all_waits_on_done_tile :
    (⟨1, 1⟩ : host_side).wait_all done_at_once 1
      = .returned ⟨1, [.try_arrive 0 0 true, .memcpy_d2h 0 0 .done_rpc, .wait 0 0]⟩ := by
  decide

/-- C4, amended. Whatever payload `wait_all` reads from a tile, the loop body
ends with `get_barrier(x, y).wait()` on that tile: for a payload with the done
tag the wait comes right after the read, with no handler call and no response
written in between, and for any other payload whose handler returns, it comes
right after the handler's events and the write of the response. -/
theorem wait_all_waits_after_every_read (self : host_side) (w : device_world) (fuel : Nat)
    (pre : List event) (x y : Nat) (data : Var) (post : List event)
    (hsplit : (self.wait_all w fuel).state.trace = pre ++ .memcpy_d2h x y data :: post) :
    (data.index = 0 → ∃ post1, post = .wait x y :: post1) ∧
    (data.index ≠ 0 → ∀ ret, (host_side.visit w x y data).2 = .ok ret →
      ∃ post1, post = (host_side.visit w x y data).1
        ++ .mem_write x y ret :: .wait x y :: post1) := by
  obtain ⟨_, post1, hpost⟩ := wait_all_well_followed self w fuel pre x y data post hsplit
  refine ⟨?_, ?_⟩
  · intro h0
    refine ⟨post1, ?_⟩
    rw [hpost]
    simp [follow_events, h0]
  · intro h0 ret hret
    refine ⟨post1, ?_⟩
    rw [hpost]
    simp [follow_events, h0, hret]

/-- C4, witness: the read of the done payload on the 1 by 1 grid. -/
theorem wait_all_waits_after_every_read_witness :
    ∃ post1, [event.wait 0 0] = event.wait 0 0 :: post1 :=
  (wait_all_waits_after_every_read ⟨1, 1⟩ done_at_once 1 [.try_arrive 0 0 true] 0 0
    .done_rpc [.wait 0 0] (by decide)).1 (by decide)

/-- C5, as stated, fails: on a 2 by 1 grid where the tile at `(0, 0)` signals
done twice and the tile at `(1, 0)` never does, `wait_all` returns after two
scan passes with counter 2; and where the tile at `(0, 0)` signals done twice
and the tile at `(1, 0)` once, it returns with counter 3, more than the two
tiles of the grid. -/
theorem wait_all_counts_repeated_done :
    ((∃ st, (⟨2, 1⟩ : host_side).wait_all done_twice 2 = .returned st ∧ st.done_counter = 2) ∧
      (∀ pass, done_twice.arrivals pass 1 0 = none)) ∧
    (∃ st, (⟨2, 1⟩ : host_side).wait_all done_thrice 2 = .returned st ∧
      st.done_counter = 3) := by
  refine ⟨⟨⟨((⟨2, 1⟩ : host_side).wait_all done_twice 2).state, by decide, by decide⟩, ?_⟩,
    ⟨((⟨2, 1⟩ : host_side).wait_all done_thrice 2).state, by decide, by decide⟩⟩
  intro pass
  simp [done_twice]

/-- C5, amended. The completion counter of `wait_all` is the number of payloads
with the done tag that it has read, a repeated done of one tile being counted
again; `wait_all` does not return before this number has reached
`x_size * y_size`. -/
theorem wait_all_counter_counts_done_reads (self : host_side) (w : device_world) (fuel : Nat) :
    (self.wait_all w fuel).state.done_counter = done_reads (self.wait_all w fuel).state.trace ∧
    (∀ st, self.wait_all w fuel = .returned st →
      self.x_size * self.y_size ≤ done_reads st.trace) := by
  have hcount : (self.wait_all w fuel).state.done_counter
      = done_reads (self.wait_all w fuel).state.trace := by
    refine wait_all_loop_invariant self w (fun st => st.done_counter = done_reads st.trace)
      ?_ fuel 0 ⟨0, []⟩ (by simp [done_reads])
    intro pass x y st hP
    simp only [done_reads, List.countP_append] at hP ⊢
    rw [hP]
    congr 1
    unfold body_done body_events follow_events
    have hv := fun data => visit_done_reads w x y data
    simp only [done_reads] at hv
    cases ha : w.arrivals pass x y with
    | none => simp
    | some data =>
        by_cases h0 : data.index = 0
        · have hd := (Var.index_eq_zero_iff data).1 h0
          simp [hd, Var.index]
        · have hd : data ≠ .done_rpc := fun hd => h0 ((Var.index_eq_zero_iff data).2 hd)
          cases hr : (host_side.visit w x y data).2 <;>
            simp [hd, h0, hr, List.countP_append, List.countP_cons, hv]
  refine ⟨hcount, ?_⟩
  intro st hret
  have hge := wait_all_loop_returned_ge self w fuel 0 ⟨0, []⟩ st hret
  have hst : (self.wait_all w fuel).state = st := by rw [hret]; rfl
  rw [hst] at hcount
  omega

/-- C6. In every state that one tile and the host can reach by any
interleaving of the statements of `device_side::perform` and of the body of
`wait_all`: the payloads the host has dispatched are the requests the tile has
performed, in order and each once, except possibly the request in flight; at
most one request is in flight; the tile is between two calls of `perform` only
when every request it has issued has been dispatched and its response read and
the host is back at polling, and only then does a step of the tile start a new
`perform` and overwrite the payload; and when the host is about to read the
payload, it is the payload of the request in flight. -/
theorem perform_single_request_in_flight (w : device_world) (x y : Nat) (program : List Var)
    (r0 : Nat) (s : link_state) (h : link_reachable w x y program r0 s) :
    (s.served <+: s.issued ∧ s.issued.length ≤ s.served.length + 1) ∧
    (s.answers.length ≤ s.issued.length ∧ s.issued.length ≤ s.answers.length + 1) ∧
    (s.dpc = .idle →
      s.answers.length = s.issued.length ∧ s.served = s.issued ∧ s.hpc = .poll) ∧
    (∀ s1, device_side.perform_step s = some s1 → s1.issued ≠ s.issued →
      s.answers.length = s.issued.length ∧ s.served = s.issued ∧ s.hpc = .poll) ∧
    (s.hpc = .read → s.issued = s.served ++ [s.data] ∧ s.answers.length = s.served.length) := by
  obtain ⟨past, hF, hcfg⟩ := link_reachable_inv w x y program r0 s h
  have hlen := hF.length_eq
  have hidle : s.dpc = .idle →
      s.answers.length = s.issued.length ∧ s.served = s.issued ∧ s.hpc = .poll := by
    intro hd
    rcases hcfg with ⟨_, hh, _, hi, hs⟩ | ⟨_, ⟨_, hc⟩ | ⟨_, hc⟩⟩
    · exact ⟨by rw [hi]; omega, by rw [hi, hs], hh⟩
    · rcases hc with ⟨hd1, _⟩ | ⟨hd1, _⟩ | ⟨⟨hd1, _⟩ | ⟨hd1, _⟩ | ⟨hd1, _⟩, _⟩ <;>
        rw [hd1] at hd <;> cases hd
    · rcases hc with ⟨⟨hd1, _⟩ | ⟨hd1, _⟩ | ⟨hd1, _⟩, _⟩ | ⟨⟨hd1, _⟩ | ⟨hd1, _⟩ | ⟨hd1, _⟩, _⟩ |
          ⟨hd1 | hd1, _⟩ | ⟨⟨hd1, _⟩ | ⟨hd1, _⟩ | ⟨hd1, _⟩, _⟩ <;>
        rw [hd1] at hd <;> cases hd
  refine ⟨?_, ?_, hidle, fun s1 hstep hne => hidle (perform_step_issues s s1 hstep hne), ?_⟩
  · rcases hcfg with ⟨_, _, _, hi, hs⟩ | ⟨hi, ⟨hs, _⟩ | ⟨hs, _⟩⟩
    · exact ⟨by rw [hi, hs], by rw [hi, hs]; omega⟩
    · exact ⟨by rw [hi, hs]; exact List.prefix_append _ _, by rw [hi, hs]; simp⟩
    · exact ⟨by rw [hi, hs], by rw [hi, hs]; omega⟩
  · rcases hcfg with ⟨_, _, _, hi, _⟩ | ⟨hi, _⟩
    · exact ⟨by rw [hi]; omega, by rw [hi]; omega⟩
    · exact ⟨by rw [hi]; simp; omega, by rw [hi]; simp; omega⟩
  · intro hr
    rcases hcfg with ⟨_, hh, _, _, _⟩ | ⟨hi, ⟨hs, _⟩ | ⟨_, hc⟩⟩
    · rw [hh] at hr
      cases hr
    · exact ⟨by rw [hi, hs], by rw [hs]; omega⟩
    · rcases hc with ⟨_, _, hh, _⟩ | ⟨_, hh, _⟩ | ⟨_, _, hh, _⟩ | ⟨_, _, hh⟩ <;>
        rw [hh] at hr <;> cases hr

/-- C6, witness: the tile blocked in its first `barrier.wait()` with a log
request, the host about to read it. -/
theorem perform_single_request_in_flight_witness :
    link_demo.issued = link_demo.served ++ [link_demo.data] ∧
      link_demo.answers.length = link_demo.served.length :=
  (perform_single_request_in_flight log_then_done 0 0 [.send_log_rpc ⟨0, 2⟩, .done_rpc] 7
    link_demo (link_demo_reachable log_then_done 0 0)).2.2.2.2 rfl

/-- C7, as stated, fails: when `barrier` is called with the same lock for the
rows and the columns, `barrier(14, 14)`, on a 2 by 2 grid, the tile at `(1, 0)`
can return while the tile at `(0, 1)` has not made the call. -/
theorem barrier_same_slot_returns_early :
    grid_reachable ⟨2, 2⟩ (fun t => tile.barrier ⟨2, 2⟩ t 14 14) same_slot_state ∧
    same_slot_state.returned (fun t => tile.barrier ⟨2, 2⟩ t 14 14) ⟨1, 0⟩ ∧
    (⟨2, 2⟩ : geography).in_grid ⟨0, 1⟩ ∧ same_slot_state.pc ⟨0, 1⟩ = 0 :=
  ⟨reachable_of_run ⟨2, 2⟩ _ same_slot_schedule grid_state.init same_slot_state .init
      (by decide) (some_getD_of_isSome _ _ (by decide)),
    by unfold grid_state.returned; decide, by decide, by decide⟩

/-- C7, amended. When the lock of the rows and the lock of the columns differ,
in every state that the tiles of a grid reach by any interleaving of the lock
operations of `barrier(h_id, v_id)`, starting with all locks "not armed", a
tile has returned from `barrier` only if every tile of the grid has made the
call. -/
theorem barrier_is_grid_barrier (g : geography) (h_id v_id : Nat) (hne : h_id ≠ v_id)
    (p q : position) (hp : g.in_grid p) (hq : g.in_grid q) (s : grid_state)
    (hs : grid_reachable g (fun t => tile.barrier g t h_id v_id) s)
    (hret : s.returned (fun t => tile.barrier g t h_id v_id) p) : s.entered q := by
  have rowc := barrier_row_chain g h_id v_id q.y hne
  have colc := barrier_column_chain g h_id v_id p.x hne
  -- the tile in the column of `p` and the row of `q`
  have hm : g.in_grid ⟨p.x, q.y⟩ := ⟨hp.1, hq.2⟩
  obtain ⟨k, hk, hmk⟩ := in_grid_row g ⟨p.x, q.y⟩ hm
  simp only at hmk
  obtain ⟨j, hj, hqj⟩ := in_grid_row g q hq
  have hmid : s.entered ⟨p.x, q.y⟩ ∧
      ∀ i, i < g.x_size → ops_on ⟨row_tile g q.y i, h_id⟩ (tile.barrier g ⟨p.x, q.y⟩ h_id v_id)
        ≤ s.count (fun t => tile.barrier g t h_id v_id) ⟨row_tile g q.y i, h_id⟩ ⟨p.x, q.y⟩ := by
    by_cases hy : q.y = p.y
    · have hpe : (⟨p.x, q.y⟩ : position) = p := by rw [hy]
      rw [hpe]
      refine ⟨?_, fun i _ => le_of_eq (count_of_returned _ s _ _ hret).symm⟩
      unfold grid_state.returned at hret
      unfold grid_state.entered
      omega
    · have hpc : p = column_tile p.x p.y := rfl
      rw [hpc] at hret
      obtain ⟨i, _, hi⟩ := colc.safety s hs p.y hp.2 (colc.passed_of_returned s p.y hp.2 hret)
        q.y hq.2 hy
      exact ⟨entered_of_count _ s _ _ hi, fun i1 _ =>
        barrier_row_before_column g h_id v_id hne s ⟨p.x, q.y⟩ ⟨column_tile p.x i, v_id⟩
          ⟨row_tile g q.y i1, h_id⟩ rfl rfl hi⟩
  rw [hmk] at hmid
  rw [hqj]
  by_cases hjk : j = k
  · rw [hjk]
    exact hmid.1
  · obtain ⟨i, _, hi⟩ := rowc.safety s hs k hk (rowc.passed_of_full s k hk hmid.2) j hj hjk
    exact entered_of_count _ s _ _ hi

/-- C7, witness: on a 2 by 1 grid the eastern tile has returned from
`barrier(14, 15)` after `round_trip_schedule`, and the western tile has made
the call. -/
theorem barrier_is_grid_barrier_witness : round_trip_state.entered ⟨0, 0⟩ :=
  barrier_is_grid_barrier ⟨2, 1⟩ 14 15 (by decide) ⟨1, 0⟩ ⟨0, 0⟩ (by decide) (by decide)
    round_trip_state round_trip_reachable (by unfold grid_state.returned; decide)

/-- C8. In every state that the tiles of a grid reach by any interleaving of
the lock operations of `horizontal_barrier(lock)`, starting with all locks "not
armed", a tile has returned from `horizontal_barrier` only if every tile of its
row has made the call; and likewise for `vertical_barrier(lock)` and the tiles
of a column. -/
theorem row_and_column_barrier (g : geography) (lock : Nat) (p q : position)
    (hp : g.in_grid p) (hq : g.in_grid q) :
    (∀ s, grid_reachable g (fun t => tile.horizontal_barrier g t lock) s → q.y = p.y →
      s.returned (fun t => tile.horizontal_barrier g t lock) p → s.entered q) ∧
    (∀ s, grid_reachable g (fun t => tile.vertical_barrier g t lock) s → q.x = p.x →
      s.returned (fun t => tile.vertical_barrier g t lock) p → s.entered q) := by
  refine ⟨?_, ?_⟩
  · intro s hs hy hret
    obtain ⟨k, hk, hpk⟩ := in_grid_row g p hp
    obtain ⟨j, hj, hqj⟩ := in_grid_row g q hq
    rw [hy] at hqj
    rw [hpk] at hret
    rw [hqj]
    exact (horizontal_only_chain g lock p.y).entered_of_returned s hs k hk hret j hj
  · intro s hs hx hret
    have hpk : p = column_tile p.x p.y := rfl
    have hqj : q = column_tile p.x q.y := by rw [← hx]; rfl
    rw [hpk] at hret
    rw [hqj]
    exact (vertical_only_chain g lock p.x).entered_of_returned s hs p.y hp.2 hret q.y hq.2

/-- C8, witness: on a 2 by 1 grid the eastern tile has returned from
`horizontal_barrier(14)` after `row_demo_schedule`, and the western tile has
made the call. -/
theorem row_and_column_barrier_witness : row_demo_state.entered ⟨0, 0⟩ :=
  (row_and_column_barrier ⟨2, 1⟩ 14 ⟨1, 0⟩ ⟨0, 0⟩ (by decide) (by decide)).1
    row_demo_state row_demo_reachable rfl (by unfold grid_state.returned; decide)

/-- C9, evaluated on a 2 by 1 grid with `barrier(14, 15)`.  After
`round_trip_schedule` both tiles have returned from `barrier` and lock 14 of the
tile at `(0, 0)` holds "not armed" but is still consumed, by the last acquire of
the eastern tile, which came after the reset of the western tile.  When every
tile calls `barrier` twice in a row, the same schedule leads to a state in
which no tile has returned from its second call and no tile can take a step. -/
theorem barrier_round_trip_leaves_lock_consumed :
    (grid_reachable ⟨2, 1⟩ (fun t => tile.barrier ⟨2, 1⟩ t 14 15) round_trip_state ∧
      (∀ t, (⟨2, 1⟩ : geography).in_grid t →
        round_trip_state.returned (fun t => tile.barrier ⟨2, 1⟩ t 14 15) t) ∧
      round_trip_state.locks ⟨⟨0, 0⟩, 14⟩ = ⟨false, true⟩) ∧
    (grid_reachable ⟨2, 1⟩ (barrier_twice ⟨2, 1⟩) second_call_state ∧
      ∀ t, (⟨2, 1⟩ : geography).in_grid t →
        (tile_step (barrier_twice ⟨2, 1⟩) second_call_state t).isSome = false ∧
        second_call_state.pc t < (barrier_twice ⟨2, 1⟩ t).length + 1) := by
  refine ⟨⟨round_trip_reachable, ?_, by decide⟩, ?_, ?_⟩
  · intro t ht
    unfold grid_state.returned
    rcases in_grid_two_by_one t ht with rfl | rfl <;> decide
  · exact reachable_of_run ⟨2, 1⟩ _ round_trip_schedule grid_state.init second_call_state
      .init (by decide) (some_getD_of_isSome _ _ (by decide))
  · intro t ht
    rcases in_grid_two_by_one t ht with rfl | rfl <;> exact ⟨by decide, by decide⟩

/-- C10. In every state that the tiles of a grid with rows of 8 tiles reach by
any interleaving of the lock operations of `horizontal_barrier(lock)`,
starting with all locks "not armed", and for every row, of either parity:
either all 8 tiles of the row have returned, or the next lock operation of one
of them does not block. -/
theorem horizontal_barrier_deadlock_free (g : geography) (hx : g.x_size = 8) (lock y : Nat)
    (s : grid_state)
    (hs : grid_reachable g (fun t => tile.horizontal_barrier g t lock) s) :
    (∀ x, x < 8 → s.returned (fun t => tile.horizontal_barrier g t lock) ⟨x, y⟩) ∨
    ∃ x op, x < 8 ∧ s.next_op (fun t => tile.horizontal_barrier g t lock) ⟨x, y⟩ = some op ∧
      op.enabled s = true := by
  have hrow : ∀ x, x < 8 → ∃ k, k < g.x_size ∧ (⟨x, y⟩ : position) = row_tile g y k := by
    intro x hlt
    by_cases hy : y % 2 = 1
    · exact ⟨x, by omega, by simp [row_tile, hy]⟩
    · refine ⟨g.x_size - 1 - x, by omega, ?_⟩
      have e : g.x_size - 1 - (g.x_size - 1 - x) = x := by omega
      simp [row_tile, hy, e]
  have hcol : ∀ k, k < g.x_size → (row_tile g y k).x < 8 ∧ (row_tile g y k).y = y := by
    intro k hk
    unfold row_tile
    split
    · exact ⟨by simp only; omega, rfl⟩
    · exact ⟨by simp only; omega, rfl⟩
  rcases (horizontal_only_chain g lock y).deadlock_free s hs with hall | ⟨k, op, hk, hn, he⟩
  · left
    intro x hlt
    obtain ⟨k, hk, hxk⟩ := hrow x hlt
    rw [hxk]
    exact hall k hk
  · right
    obtain ⟨h1, h2⟩ := hcol k hk
    refine ⟨(row_tile g y k).x, op, h1, ?_, he⟩
    have e : (⟨(row_tile g y k).x, y⟩ : position) = row_tile g y k := by
      cases hr : row_tile g y k with
      | mk rx ry =>
          rw [hr] at h2
          simp only at h2
          rw [h2]
    rw [e]
    exact hn

/-- C10, witness: the northern row, of odd parity, of an 8 by 2 grid after
`row8_schedule`. -/
theorem horizontal_barrier_deadlock_free_witness :
    (∀ x, x < 8 →
      row8_state.returned (fun t => tile.horizontal_barrier ⟨8, 2⟩ t 14) ⟨x, 1⟩) ∨
    ∃ x op, x < 8 ∧
      row8_state.next_op (fun t => tile.horizontal_barrier ⟨8, 2⟩ t 14) ⟨x, 1⟩ = some op ∧
      op.enabled row8_state = true :=
  horizontal_barrier_deadlock_free ⟨8, 2⟩ rfl 14 1 row8_state
    (reachable_of_run ⟨8, 2⟩ _ row8_schedule grid_state.init row8_state .init
      (by decide) (some_getD_of_isSome _ _ (by decide)))

/-- C12. After `set_handler(f)`, `act_on_data(x, y, h, d)` of a `functor_rpc`
returns `f(x, y, h, d)` as a `uint32_t`, which is `f(x, y, h, d)` itself when
that is a 32 bit value, and `wait_all` answers an image update with it.  When
no handler is registered for image updates, `act_on_data` fails with
`bad_function_call`, and `wait_all`, once it has read an image update from the
tile at `(x, y)`, is left by that exception right after the call of
`act_on_data`: no response is written and the tile is not released.  A poll
that finds anything else than an image update goes the same way whatever is
registered for image updates. -/
theorem functor_rpc_missing_handler_is_fatal (self : host_side) (w : device_world)
    (fuel : Nat) (pre : List event) (x y : Nat) (d : image_update_data) (post : List event)
    (hsplit : (self.wait_all w fuel).state.trace
      = pre ++ .memcpy_d2h x y (.image_update_rpc d) :: post)
    (hnone : w.image_update.impl = none) :
    (∀ (DataTy : Type) (r : functor_rpc DataTy) (f : Nat → Nat → handle → DataTy → Nat)
        (x1 y1 : Nat) (h1 : handle) (d1 : DataTy),
      (r.set_handler f).act_on_data x1 y1 h1 d1 = .ok (f x1 y1 h1 d1 % 2 ^ 32) ∧
      (f x1 y1 h1 d1 < 2 ^ 32 →
        (r.set_handler f).act_on_data x1 y1 h1 d1 = .ok (f x1 y1 h1 d1))) ∧
    (∀ (f : Nat → Nat → handle → image_update_data → Nat) (pass : Nat) (st : wait_state),
      f x y ⟨x, y⟩ d < 2 ^ 32 →
      w.arrivals pass x y = some (.image_update_rpc d) →
      host_side.wait_all_body
          ⟨w.image_update.set_handler f, w.dev_mem, w.arrivals, w.string_capacity,
            w.visit_undefined⟩ pass x y st
        = .ok ⟨st.done_counter, st.trace ++
            [.try_arrive x y true, .memcpy_d2h x y (.image_update_rpc d),
              .act_on_data 1 x y (.image_update_rpc d), .mem_write x y (f x y ⟨x, y⟩ d),
              .wait x y]⟩) ∧
    (∀ h1, w.image_update.act_on_data x y h1 d = .error .bad_function_call) ∧
    post = [.act_on_data 1 x y (.image_update_rpc d)] ∧
    (∃ counter, self.wait_all w fuel = .aborted .bad_function_call
      ⟨counter, pre ++ [.memcpy_d2h x y (.image_update_rpc d),
        .act_on_data 1 x y (.image_update_rpc d)]⟩) ∧
    (∀ (r : functor_rpc image_update_data) (pass x1 y1 : Nat) (st : wait_state),
      (∀ d1, w.arrivals pass x1 y1 ≠ some (.image_update_rpc d1)) →
      host_side.wait_all_body
          ⟨r, w.dev_mem, w.arrivals, w.string_capacity, w.visit_undefined⟩ pass x1 y1 st
        = host_side.wait_all_body w pass x1 y1 st) := by
  have hact : ∀ h1, w.image_update.act_on_data x y h1 d = .error .bad_function_call := by
    intro h1
    simp [functor_rpc.act_on_data, hnone]
  have hvis : host_side.visit w x y (.image_update_rpc d)
      = ([.act_on_data 1 x y (.image_update_rpc d)], .error .bad_function_call) := by
    simp [host_side.visit, hact]
  obtain ⟨hpost, hab⟩ := wait_all_fatal_read self w fuel pre x y (.image_update_rpc d) post
    hsplit (by simp [Var.index]) .bad_function_call (by rw [hvis])
  rw [hvis] at hpost
  simp only at hpost
  subst hpost
  refine ⟨?_, ?_, hact, rfl, ?_, ?_⟩
  · intro DataTy r f x1 y1 h1 d1
    refine ⟨rfl, ?_⟩
    intro hlt
    have hlt2 : f x1 y1 h1 d1 < 4294967296 := hlt
    simp [functor_rpc.act_on_data, functor_rpc.set_handler, Nat.mod_eq_of_lt hlt2]
  · intro f pass st hlt ha
    have hlt2 : f x y ⟨x, y⟩ d < 4294967296 := hlt
    simp [host_side.wait_all_body, ha, Var.index, host_side.visit, functor_rpc.act_on_data,
      functor_rpc.set_handler, Nat.mod_eq_of_lt hlt2]
  · cases hst : (self.wait_all w fuel).state with
    | mk c t =>
        rw [hst] at hsplit hab
        simp only at hsplit
        subst hsplit
        exact ⟨c, hab⟩
  · intro r pass x1 y1 st hother
    unfold host_side.wait_all_body
    cases ha : w.arrivals pass x1 y1 with
    | none => rfl
    | some data =>
        cases data with
        | image_update_rpc d1 => exact absurd ha (hother d1)
        | _ => rfl

/-- C12, witness: on a 1 by 2 grid with no handler registered for image
updates, the log request of the tile at `(0, 0)` is answered, then the image
update of the tile at `(0, 1)` is read and `wait_all` is left by the
exception; and once a handler that returns the field `counter` of the payload
is registered, `act_on_data` returns that field. -/
theorem functor_rpc_missing_handler_is_fatal_witness :
    (∃ counter, (⟨1, 2⟩ : host_side).wait_all image_unhandled 1
      = .aborted .bad_function_call ⟨counter,
          [.try_arrive 0 0 true, .memcpy_d2h 0 0 (.send_log_rpc ⟨0, 2⟩),
            .act_on_data 2 0 0 (.send_log_rpc ⟨0, 2⟩), .cout ['h', 'h'], .mem_write 0 0 0,
            .wait 0 0, .try_arrive 0 1 true] ++
          [.memcpy_d2h 0 1 (.image_update_rpc ⟨0, 0, 255, 1⟩),
            .act_on_data 1 0 1 (.image_update_rpc ⟨0, 0, 255, 1⟩)]⟩) ∧
    ((functor_rpc.get_default image_update_data).set_handler
        (fun _ _ _ d => d.counter)).act_on_data 0 1 ⟨0, 1⟩ ⟨0, 0, 255, 1⟩ = .ok 1 :=
  have T := functor_rpc_missing_handler_is_fatal ⟨1, 2⟩ image_unhandled 1
    [.try_arrive 0 0 true, .memcpy_d2h 0 0 (.send_log_rpc ⟨0, 2⟩),
      .act_on_data 2 0 0 (.send_log_rpc ⟨0, 2⟩), .cout ['h', 'h'], .mem_write 0 0 0,
      .wait 0 0, .try_arrive 0 1 true] 0 1 ⟨0, 0, 255, 1⟩
    [.act_on_data 1 0 1 (.image_update_rpc ⟨0, 0, 255, 1⟩)] (by decide) rfl
  ⟨T.2.2.2.2.1,
    (T.1 image_update_data (functor_rpc.get_default image_update_data)
      (fun _ _ _ d => d.counter) 0 1 ⟨0, 1⟩ ⟨0, 0, 255, 1⟩).2 (by decide)⟩

/-- C13, as stated, fails: for a payload whose `size` is `2^64 - 1`, more than
a string of the host can have, the handler of log requests prints nothing and
does not return 0: `str.resize` throws, and `wait_all` is left by the
exception with nothing printed. -/
theorem send_log_size_refused :
    send_log_rpc.act_on_data log_too_long 0 0 ⟨100, 18446744073709551615⟩
      = ([], .error .length_error) ∧
    (⟨1, 1⟩ : host_side).wait_all log_too_long 1
      = .aborted .length_error ⟨0,
          [.try_arrive 0 0 true, .memcpy_d2h 0 0 (.send_log_rpc ⟨100, 18446744073709551615⟩),
            .act_on_data 2 0 0 (.send_log_rpc ⟨100, 18446744073709551615⟩)]⟩ :=
  ⟨rfl, by decide⟩

/-- C13, amended. For a payload whose `size` a string of the host can have, the
handler of log requests prints exactly the `size` characters that the payload
designates and returns 0; for a larger `size` it prints nothing and
`str.resize` throws; whenever it returns, it returns 0.  On a 2 by 2 grid,
with a host whose strings can have 2 characters, where each tile is found once
with a log request for the 2 characters "hi" and, in a later scan pass, once
with its done signal, whatever the passes in which this happens: `wait_all`,
followed until after the last done signal, has returned with counter 4; it has
printed "hi" 4 times and nothing else; the log handler has been called once for
each tile; and the responses written are one 0 for each of these calls. -/
theorem wait_all_hi_scenario (w : device_world) (a p q : Nat → Nat → Nat) (n : Nat)
    (hcap : 2 ≤ w.string_capacity)
    (hmem : ∀ x y, x < 2 → y < 2 →
      w.dev_mem x y (a x y) = 'h' ∧ w.dev_mem x y (a x y + 1) = 'i')
    (harr : ∀ pass x y, x < 2 → y < 2 → w.arrivals pass x y =
      if pass = p x y then some (.send_log_rpc ⟨a x y, 2⟩)
      else if pass = q x y then some .done_rpc else none)
    (hpq : ∀ x y, x < 2 → y < 2 → p x y < q x y ∧ q x y < n) :
    (∀ x y d,
      (d.size ≤ w.string_capacity →
        ∃ str, send_log_rpc.act_on_data w x y d = ([.cout str], .ok 0) ∧
          str.length = d.size ∧
          ∀ i, i < d.size → str[i]? = some (w.dev_mem x y (d.data + i))) ∧
      (w.string_capacity < d.size →
        send_log_rpc.act_on_data w x y d = ([], .error .length_error)) ∧
      (∀ r, (send_log_rpc.act_on_data w x y d).2 = .ok r → r = 0)) ∧
    ∃ st, (⟨2, 2⟩ : host_side).wait_all w n = .returned st ∧ st.done_counter = 4 ∧
      printed st.trace = List.replicate 4 ['h', 'i'] ∧
      (logged st.trace).Perm [(0, 0), (0, 1), (1, 0), (1, 1)] ∧
      responses st.trace = (logged st.trace).map (fun t => (t.1, t.2, 0)) := by
  refine ⟨?_, ?_⟩
  · intro x y d
    refine ⟨?_, ?_, ?_⟩
    · intro hle
      refine ⟨(List.range d.size).map (fun i => w.dev_mem x y (d.data + i)),
        by simp [send_log_rpc.act_on_data, hle], by simp, ?_⟩
      intro i hi
      simp [List.getElem?_map, List.getElem?_range hi]
    · intro hlt
      have hle : ¬ d.size ≤ w.string_capacity := by omega
      simp [send_log_rpc.act_on_data, hle]
    · intro r hr
      rcases send_log_cases w x y d with ⟨_, h⟩ | ⟨_, h⟩
      · rw [h] at hr
        injection hr with hr
        exact hr.symm
      · rw [h] at hr
        cases hr
  -- what the host sees of the world
  have hw : ∀ pass x y, (w.on_grid ⟨2, 2⟩).arrivals pass x y =
      if x < 2 ∧ y < 2 then
        (if pass = p x y then some (.send_log_rpc ⟨a x y, 2⟩)
         else if pass = q x y then some .done_rpc else none)
      else none := by
    intro pass x y
    by_cases hxy : x < 2 ∧ y < 2
    · simp only [device_world.on_grid, hxy, and_self, if_true]
      exact harr pass x y hxy.1 hxy.2
    · simp only [device_world.on_grid, hxy, if_false]
  have hdone : ∀ pass x y, (w.on_grid ⟨2, 2⟩).arrivals pass x y = some .done_rpc →
      x < 2 ∧ y < 2 ∧ pass = q x y := by
    intro pass x y h
    rw [hw] at h
    split_ifs at h with h1 h2 h3
    · cases h
    · exact ⟨h1.1, h1.2, h3⟩
  have hhi : says_hi (w.on_grid ⟨2, 2⟩) := by
    intro pass x y data h
    rw [hw] at h
    split_ifs at h with h1 h2 h3
    · injection h with h
      subst h
      exact Or.inr ⟨_, rfl, rfl, hcap, hmem x y h1.1 h1.2⟩
    · injection h with h
      exact Or.inl h.symm
  have honce : ∀ x y p1 p2, (w.on_grid ⟨2, 2⟩).arrivals p1 x y = some .done_rpc →
      (w.on_grid ⟨2, 2⟩).arrivals p2 x y = some .done_rpc → p1 = p2 := by
    intro x y p1 p2 h1 h2
    rw [(hdone p1 x y h1).2.2, (hdone p2 x y h2).2.2]
  have hok : ∀ pass x y data, (w.on_grid ⟨2, 2⟩).arrivals pass x y = some data →
      data.index ≠ 0 → ∃ r, (host_side.visit (w.on_grid ⟨2, 2⟩) x y data).2 = .ok r := by
    intro pass x y data h h0
    rcases hhi pass x y data h with rfl | ⟨d, rfl, _, hle, _⟩
    · exact absurd rfl h0
    · exact ⟨0, by simp [host_side.visit, send_log_rpc.act_on_data, hle]⟩
  have hall : (⟨2, 2⟩ : host_side).all_done_by (w.on_grid ⟨2, 2⟩) n := by
    intro x y hx hy
    simp only at hx hy
    obtain ⟨h1, h2⟩ := hpq x y hx hy
    refine ⟨q x y, h2, ?_⟩
    rw [hw]
    have hne : ¬ q x y = p x y := by omega
    simp [hx, hy, hne]
  have hfull := dones_before_full_iff ⟨2, 2⟩ (w.on_grid ⟨2, 2⟩) honce
  have hn : 0 < n := by
    have := (hpq 0 0 (by decide) (by decide)).2
    omega
  -- `wait_all` has returned
  have hret : ∃ st, (⟨2, 2⟩ : host_side).wait_all (w.on_grid ⟨2, 2⟩) n = .returned st := by
    rcases wait_all_loop_char ⟨2, 2⟩ (w.on_grid ⟨2, 2⟩) hok n 0 ⟨0, []⟩ rfl with
      ⟨st1, hr, _⟩ | ⟨st1, _, _, h3⟩
    · exact ⟨st1, hr⟩
    · have hlt := h3 n hn (by omega)
      have hge := ((hfull n).2).2 hall
      omega
  obtain ⟨st, hst⟩ := hret
  obtain ⟨m, _, _, hc, hge, htr⟩ :=
    wait_all_loop_returned_trace ⟨2, 2⟩ (w.on_grid ⟨2, 2⟩) n 0 ⟨0, []⟩ st rfl rfl hst
  have hall2 := ((hfull (m + 1)).2).1 hge
  have hlog : ∀ pass, ∀ t ∈ (⟨2, 2⟩ : host_side).scan_order,
      log_now (w.on_grid ⟨2, 2⟩) pass t = decide (pass = p t.1 t.2) := by
    intro pass t ht
    obtain ⟨hx, hy⟩ := (mem_scan_order ⟨2, 2⟩ t).1 ht
    simp only at hx hy
    unfold log_now
    rw [hw]
    by_cases h1 : pass = p t.1 t.2
    · simp [hx, hy, h1]
    · by_cases h2 : pass = q t.1 t.2
      · rw [if_pos ⟨hx, hy⟩, if_neg h1, if_pos h2]
        simp [h1]
      · simp [hx, hy, h1, h2]
  have hperm := logged_trace_before_perm ⟨2, 2⟩ (w.on_grid ⟨2, 2⟩) (fun t => p t.1 t.2) hlog
    (m + 1)
  have hfilter : (⟨2, 2⟩ : host_side).scan_order.filter (fun t => decide (p t.1 t.2 < m + 1))
      = (⟨2, 2⟩ : host_side).scan_order := by
    rw [List.filter_eq_self]
    intro t ht
    obtain ⟨hx, hy⟩ := (mem_scan_order ⟨2, 2⟩ t).1 ht
    obtain ⟨pass, hpass, hd⟩ := hall2 t.1 t.2 hx hy
    have := (hdone pass t.1 t.2 hd).2.2
    have := (hpq t.1 t.2 hx hy).1
    simp only [decide_eq_true_eq]
    omega
  rw [hfilter, ← htr] at hperm
  have hscan : (⟨2, 2⟩ : host_side).scan_order = [(0, 0), (0, 1), (1, 0), (1, 1)] := by decide
  rw [hscan] at hperm
  obtain ⟨hprint, hresp⟩ := says_hi_trace ⟨2, 2⟩ (w.on_grid ⟨2, 2⟩) hhi n
  rw [hst] at hprint hresp
  simp only [outcome.state] at hprint hresp
  have hsame : (⟨2, 2⟩ : host_side).wait_all w n = .returned st := by
    rw [← hst]
    exact (wait_all_loop_on_grid ⟨2, 2⟩ w n 0 ⟨0, []⟩).symm
  have h4 : (⟨2, 2⟩ : host_side).x_size * (⟨2, 2⟩ : host_side).y_size = 4 := rfl
  refine ⟨st, hsame, ?_, ?_, hperm, hresp⟩
  · have hle := (hfull (m + 1)).1
    rw [h4] at hle hge
    omega
  · rw [hprint, List.map_const', hperm.length_eq]
    rfl

/-- C13, witness: every tile is found with its log request in the first scan
pass and with its done signal in the second. -/
theorem wait_all_hi_scenario_witness :
    ∃ st, (⟨2, 2⟩ : host_side).wait_all hi_then_done 2 = .returned st ∧ st.done_counter = 4 ∧
      printed st.trace = List.replicate 4 ['h', 'i'] ∧
      (logged st.trace).Perm [(0, 0), (0, 1), (1, 0), (1, 1)] ∧
      responses st.trace = (logged st.trace).map (fun t => (t.1, t.2, 0)) :=
  (wait_all_hi_scenario hi_then_done (fun _ _ => 100) (fun _ _ => 0) (fun _ _ => 1) 2
    (by decide) (fun _ _ _ _ => ⟨rfl, rfl⟩) (fun _ _ _ _ _ => rfl)
    (fun _ _ _ _ => ⟨Nat.zero_lt_one, Nat.one_lt_two⟩)).2

/-- C14, as stated, fails: on a 2 by 2 grid, in the even row 0 the tile in the
west column waits for a token and the tile in the east column does not and
unleashes its western neighbour; in the odd row 1 the tile in the east column
waits for a token and the tile in the west column does not and unleashes its
eastern neighbour. -/
theorem horizontal_barrier_even_row_from_east :
    (waits_for_token (tile.get_self_lock ⟨0, 0⟩ 14) (tile.horizontal_barrier ⟨2, 2⟩ ⟨0, 0⟩ 14)
        = true ∧
      waits_for_token (tile.get_self_lock ⟨1, 0⟩ 14) (tile.horizontal_barrier ⟨2, 2⟩ ⟨1, 0⟩ 14)
        = false ∧
      unleashed (tile.horizontal_barrier ⟨2, 2⟩ ⟨1, 0⟩ 14) = [⟨0, 0⟩]) ∧
    (waits_for_token (tile.get_self_lock ⟨1, 1⟩ 14) (tile.horizontal_barrier ⟨2, 2⟩ ⟨1, 1⟩ 14)
        = true ∧
      waits_for_token (tile.get_self_lock ⟨0, 1⟩ 14) (tile.horizontal_barrier ⟨2, 2⟩ ⟨0, 1⟩ 14)
        = false ∧
      unleashed (tile.horizontal_barrier ⟨2, 2⟩ ⟨0, 1⟩ 14) = [⟨1, 1⟩]) := by
  decide

/-- C14, amended. The direction of `horizontal_barrier` is chosen by the parity
of the row as follows.  In an odd row the token goes from west to east and
back: the tile in the west column, and no other, does not wait for a token, and
each tile unleashes its eastern neighbour, if it has one, and no other tile.
In an even row it goes from east to west and back: the tile in the east column,
and no other, does not wait for a token, and each tile unleashes its western
neighbour, if it has one, and no other tile. -/
theorem horizontal_barrier_direction (g : geography) (p : position) (lock : Nat)
    (hp : g.in_grid p) :
    (p.y % 2 = 1 →
      waits_for_token (tile.get_self_lock p lock) (tile.horizontal_barrier g p lock)
        = decide (p.x ≠ 0) ∧
      unleashed (tile.horizontal_barrier g p lock)
        = if p.x + 1 < g.x_size then [⟨p.x + 1, p.y⟩] else []) ∧
    (p.y % 2 = 0 →
      waits_for_token (tile.get_self_lock p lock) (tile.horizontal_barrier g p lock)
        = decide (p.x + 1 ≠ g.x_size) ∧
      unleashed (tile.horizontal_barrier g p lock)
        = if 0 < p.x then [⟨p.x - 1, p.y⟩] else []) := by
  obtain ⟨px, py⟩ := p
  obtain ⟨hx, _⟩ := hp
  simp only at hx
  refine ⟨?_, ?_⟩
  · intro hy
    simp only at hy
    have hrow : (⟨px, py⟩ : position) = row_tile g py px := by simp [row_tile, hy]
    rw [get_self_lock_eq]
    rw [hrow, horizontal_barrier_eq_phase g py px lock hx, waits_for_token_phase,
      unleashed_phase, ← hrow]
    refine ⟨by simp, ?_⟩
    by_cases h1 : px + 1 < g.x_size <;> simp [chain_succ, h1, row_tile, hy]
  · intro hy
    simp only at hy
    have hy1 : ¬ py % 2 = 1 := by omega
    have e : g.x_size - 1 - (g.x_size - 1 - px) = px := by omega
    have hrow : (⟨px, py⟩ : position) = row_tile g py (g.x_size - 1 - px) := by
      simp [row_tile, hy1, e]
    rw [get_self_lock_eq]
    rw [hrow, horizontal_barrier_eq_phase g py (g.x_size - 1 - px) lock (by omega),
      waits_for_token_phase, unleashed_phase, ← hrow]
    refine ⟨?_, ?_⟩
    · by_cases h0 : px + 1 = g.x_size
      · have : g.x_size - 1 - px = 0 := by omega
        simp [h0, this]
      · have : ¬ g.x_size - 1 - px = 0 := by omega
        simp [h0, this]
    · by_cases h1 : 0 < px
      · have h2 : g.x_size - 1 - px + 1 < g.x_size := by omega
        have h3 : g.x_size - 1 - (g.x_size - 1 - px + 1) = px - 1 := by omega
        simp [chain_succ, h1, h2, row_tile, hy1, h3]
      · have h2 : ¬ g.x_size - 1 - px + 1 < g.x_size := by omega
        simp [chain_succ, h1, h2]

/-- C14, witness: the tile at `(1, 0)` of a 2 by 2 grid, in an even row and in
the east column. -/
theorem horizontal_barrier_direction_witness :
    waits_for_token (tile.get_self_lock ⟨1, 0⟩ 14) (tile.horizontal_barrier ⟨2, 2⟩ ⟨1, 0⟩ 14)
        = false ∧
      unleashed (tile.horizontal_barrier ⟨2, 2⟩ ⟨1, 0⟩ 14) = [⟨0, 0⟩] :=
  (horizontal_barrier_direction ⟨2, 2⟩ ⟨1, 0⟩ 14 (by decide)).2 (by decide)

/-- C15. For the tile number `k` of a row in the order in which the token
travels, one call of `horizontal_barrier(lock)` performs exactly these lock
operations, in this order: unless it is the first (`k = 0`), acquire its own
lock "armed"; if it has a successor, acquire the lock of the successor "not
armed", release it "armed", acquire it "not armed"; unless it is the first,
release its own lock "not armed"; at last release its own lock "not armed".
So a tile with a predecessor and a successor performs 6 operations, the first
tile of a row of several 4, the last tile of such a row 3, a tile alone in its
row 1, all of them on slot `lock`. -/
theorem horizontal_barrier_operations (g : geography) (y k lock : Nat) (hk : k < g.x_size) :
    tile.horizontal_barrier g (row_tile g y k) lock
      = (if k = 0 then [] else [.acquire_with_value ⟨row_tile g y k, lock⟩ true]) ++
        (if k + 1 < g.x_size then
          [.acquire_with_value ⟨row_tile g y (k + 1), lock⟩ false,
           .release_with_value ⟨row_tile g y (k + 1), lock⟩ true,
           .acquire_with_value ⟨row_tile g y (k + 1), lock⟩ false] else []) ++
        (if k = 0 then [] else [.release_with_value ⟨row_tile g y k, lock⟩ false]) ++
        [.release_with_value ⟨row_tile g y k, lock⟩ false] ∧
    tile.get_self_lock (row_tile g y k) lock = ⟨row_tile g y k, lock⟩ ∧
    (0 < k → k + 1 < g.x_size →
      (tile.horizontal_barrier g (row_tile g y k) lock).length = 6) ∧
    (k = 0 → 1 < g.x_size → (tile.horizontal_barrier g (row_tile g y k) lock).length = 4) ∧
    (0 < k → k + 1 = g.x_size →
      (tile.horizontal_barrier g (row_tile g y k) lock).length = 3) ∧
    (g.x_size = 1 → (tile.horizontal_barrier g (row_tile g y k) lock).length = 1) ∧
    (∀ op ∈ tile.horizontal_barrier g (row_tile g y k) lock, op.lock.slot = lock) := by
  have heq := horizontal_barrier_eq_phase g y k lock hk
  rw [token_phase_chain] at heq
  refine ⟨?_, get_self_lock_eq _ _, ?_, ?_, ?_, ?_, ?_⟩
  · exact heq
  · intro h0 h1
    have h2 : ¬ k = 0 := by omega
    rw [heq]
    simp [h2, h1]
  · intro h0 h1
    subst h0
    rw [heq]
    simp [h1]
  · intro h0 h1
    have h2 : ¬ k = 0 := by omega
    have h3 : ¬ k + 1 < g.x_size := by omega
    rw [heq]
    simp [h2, h3]
  · intro h1
    have h2 : k = 0 := by omega
    subst h2
    rw [heq]
    simp [h1]
  · intro op hop
    exact horizontal_barrier_slot g (row_tile g y k) lock op hop

/-- C15, witness: the second tile from the east of the even row 0 of a 3 by 1
grid, which has a predecessor and a successor. -/
theorem horizontal_barrier_operations_witness :
    tile.horizontal_barrier ⟨3, 1⟩ ⟨1, 0⟩ 14
      = [.acquire_with_value ⟨⟨1, 0⟩, 14⟩ true,
         .acquire_with_value ⟨⟨0, 0⟩, 14⟩ false,
         .release_with_value ⟨⟨0, 0⟩, 14⟩ true,
         .acquire_with_value ⟨⟨0, 0⟩, 14⟩ false,
         .release_with_value ⟨⟨1, 0⟩, 14⟩ false,
         .release_with_value ⟨⟨1, 0⟩, 14⟩ false] :=
  (horizontal_barrier_operations ⟨3, 1⟩ 0 1 14 (by decide)).1

/-- C16. For every tile of the grid, whatever the parity of its row, one call
of `vertical_barrier(lock)` performs exactly these lock operations, in this
order: unless the tile is in the south row, acquire its own lock "armed"; if it
has a northern neighbour, acquire the lock of that neighbour "not armed",
release it "armed", acquire it "not armed"; unless it is in the south row,
release its own lock "not armed"; at last release its own lock "not armed".
This is the procedure of `horizontal_barrier` (`token_phase`), with the column
from south to north in place of the row.  `barrier(h_id, v_id)` performs the
operations of `horizontal_barrier(h_id)` and then those of
`vertical_barrier(v_id)`; its default arguments are 14 and 15. -/
theorem vertical_barrier_operations (g : geography) (p : position) (lock h_id v_id : Nat)
    (hp : g.in_grid p) :
    tile.vertical_barrier g p lock
      = (if p.y = 0 then [] else [.acquire_with_value ⟨p, lock⟩ true]) ++
        (if p.y + 1 < g.y_size then
          [.acquire_with_value ⟨⟨p.x, p.y + 1⟩, lock⟩ false,
           .release_with_value ⟨⟨p.x, p.y + 1⟩, lock⟩ true,
           .acquire_with_value ⟨⟨p.x, p.y + 1⟩, lock⟩ false] else []) ++
        (if p.y = 0 then [] else [.release_with_value ⟨p, lock⟩ false]) ++
        [.release_with_value ⟨p, lock⟩ false] ∧
    tile.get_self_lock p lock = ⟨p, lock⟩ ∧
    tile.vertical_barrier g p lock
      = token_phase ⟨p, lock⟩ (decide (p.y = 0))
          (if p.y + 1 < g.y_size then some ⟨⟨p.x, p.y + 1⟩, lock⟩ else none) ∧
    (∀ k, k < g.x_size → tile.horizontal_barrier g (row_tile g p.y k) lock
      = token_phase ⟨row_tile g p.y k, lock⟩ (decide (k = 0))
          (if k + 1 < g.x_size then some ⟨row_tile g p.y (k + 1), lock⟩ else none)) ∧
    tile.barrier g p h_id v_id
      = tile.horizontal_barrier g p h_id ++ tile.vertical_barrier g p v_id ∧
    tile.barrier g p tile.default_h_id tile.default_v_id
      = tile.horizontal_barrier g p 14 ++ tile.vertical_barrier g p 15 := by
  have heq := vertical_barrier_eq_phase g p.x p.y lock hp.2
  have hchain := token_phase_chain lock g.y_size (column_tile p.x) p.y
  refine ⟨heq.trans hchain, get_self_lock_eq _ _, ?_, ?_, rfl, rfl⟩
  · refine heq.trans ?_
    unfold chain_succ
    rfl
  · intro k hk
    exact horizontal_barrier_eq_phase g p.y k lock hk

/-- C16, witness: the tile at `(1, 1)` of a 2 by 3 grid, in an odd row, with a
neighbour to the south and one to the north. -/
theorem vertical_barrier_operations_witness :
    tile.vertical_barrier ⟨2, 3⟩ ⟨1, 1⟩ 15
      = [.acquire_with_value ⟨⟨1, 1⟩, 15⟩ true,
         .acquire_with_value ⟨⟨1, 2⟩, 15⟩ false,
         .release_with_value ⟨⟨1, 2⟩, 15⟩ true,
         .acquire_with_value ⟨⟨1, 2⟩, 15⟩ false,
         .release_with_value ⟨⟨1, 1⟩, 15⟩ false,
         .release_with_value ⟨⟨1, 1⟩, 15⟩ false] :=
  (vertical_barrier_operations ⟨2, 3⟩ ⟨1, 1⟩ 15 14 15 (by decide)).1

/-- C17, as stated, fails: on a 2 by 2 grid whose tiles are all found with a
log request in the first scan pass, the tiles are polled, and their handlers
run, in the order `(0, 0)`, `(0, 1)`, `(1, 0)`, `(1, 1)`: the tile at `(0, 1)`
comes before the tile at `(1, 0)`. -/
theorem wait_all_scan_not_row_major :
    polled ((⟨2, 2⟩ : host_side).wait_all log_then_done 1).state.trace
      = [(0, 0), (0, 1), (1, 0), (1, 1)] ∧
    handled ((⟨2, 2⟩ : host_side).wait_all log_then_done 1).state.trace
      = [(0, 0), (0, 1), (1, 0), (1, 1)] ∧
    polled ((⟨2, 2⟩ : host_side).wait_all log_then_done 1).state.trace
      ≠ [(0, 0), (1, 0), (0, 1), (1, 1)] := by
  decide

/-- C17, amended. In every scan pass of `wait_all` each tile of the grid is
polled exactly once, and the tiles are polled column by column, `x` being the
index of the outer loop and `y` increasing within each `x`: `(0, 0)`,
`(0, 1)`, ..., `(0, y_size - 1)`, `(1, 0)`, ....  The tiles polled by
`wait_all` are this sequence, once for each pass made, cut short only where an
exception leaves `wait_all`; the handlers run in the order of the polls. -/
theorem wait_all_polls_column_by_column (self : host_side) (w : device_world) (fuel : Nat) :
    self.scan_order.Pairwise (fun a b => a.1 < b.1 ∨ (a.1 = b.1 ∧ a.2 < b.2)) ∧
    self.scan_order.Nodup ∧
    (∀ x y, (x, y) ∈ self.scan_order ↔ x < self.x_size ∧ y < self.y_size) ∧
    (∃ m j, m ≤ fuel ∧
      polled (self.wait_all w fuel).state.trace
        = (List.replicate m self.scan_order).flatten ++ self.scan_order.take j ∧
      ((∀ e st, self.wait_all w fuel ≠ .aborted e st) → j = 0)) ∧
    (handled (self.wait_all w fuel).state.trace).Sublist
      (polled (self.wait_all w fuel).state.trace) := by
  refine ⟨scan_order_pairwise self, scan_order_nodup self,
    fun x y => mem_scan_order self (x, y), ?_, ?_⟩
  · obtain ⟨m, j, hm, hp, hj⟩ := wait_all_loop_polled self w fuel 0 ⟨0, []⟩
    exact ⟨m, j, hm, by simpa [polled] using hp, hj⟩
  · refine wait_all_loop_invariant self w
      (fun st => (handled st.trace).Sublist (polled st.trace)) ?_ fuel 0 ⟨0, []⟩
      (by simp [handled, polled])
    intro pass x y st hP
    have hb := handled_body_events w pass x y
    simp only [handled, polled, List.filterMap_append] at hP hb ⊢
    exact hP.append hb

/-- C18. Whatever requests of the three kinds the tiles send, `wait_all` never
calls `done_rpc::act_on_data` and is never left by its `assert(false)`: `visit` is
reached only with a payload whose index is not 0.  A poll that finds a done
signal adds one to the counter and goes on to `get_barrier(x, y).wait()`
without writing a response; in the handshake with one tile, the host goes from
the done payload to the release with the response slot as it was, and in every
state a tile and the host can reach with a done payload in the record, no step
of the host changes the response slot. -/
theorem wait_all_intercepts_done (self : host_side) (w : device_world) (fuel : Nat)
    (hvalid : ∀ pass x y data, w.arrivals pass x y = some data → data.index < 3) :
    (∀ x y v, event.act_on_data 0 x y v ∉ (self.wait_all w fuel).state.trace) ∧
    (∀ st, self.wait_all w fuel ≠ .aborted .assertion_failed st) ∧
    (∀ pass x y st, w.arrivals pass x y = some .done_rpc →
      host_side.wait_all_body w pass x y st = .ok ⟨st.done_counter + 1,
        st.trace ++ [.try_arrive x y true, .memcpy_d2h x y .done_rpc, .wait x y]⟩) ∧
    (∀ x y s s1, s.hpc = .dispatch .done_rpc → host_side.wait_all_step w x y s = some s1 →
      s1.hpc = .release ∧ s1.ret_val = s.ret_val ∧ s1.done_counter = s.done_counter + 1) ∧
    (∀ x y program r0 s s1, link_reachable w x y program r0 s → s.data = .done_rpc →
      host_side.wait_all_step w x y s = some s1 → s1.ret_val = s.ret_val) := by
  refine ⟨?_, ?_, ?_, ?_, ?_⟩
  · refine wait_all_loop_invariant self w
      (fun st => ∀ x y v, event.act_on_data 0 x y v ∉ st.trace) ?_ fuel 0 ⟨0, []⟩ (by simp)
    intro pass x y st hP x1 y1 v hmem
    simp only [List.mem_append] at hmem
    rcases hmem with hmem | hmem
    · exact hP x1 y1 v hmem
    · exact body_events_kind_ne_zero w pass x y x1 y1 v hmem
  · intro st hab
    have hinit : reads_answered w (⟨0, []⟩ : wait_state).trace := by
      intro x1 y1 d1 hmem
      simp at hmem
    obtain ⟨t0, x, y, data, _, h0, hv, ht⟩ :=
      (wait_all_loop_fatal self w fuel 0 ⟨0, []⟩ hinit).1 .assertion_failed st hab
    have hmem : event.memcpy_d2h x y data ∈ (self.wait_all w fuel).state.trace := by
      have hst : (self.wait_all w fuel).state = st := by
        rw [hab]
        rfl
      rw [hst, ht]
      simp
    exact visit_no_assertion w x y data h0 (wait_all_reads_valid self w hvalid fuel x y data hmem)
      hv
  · intro pass x y st ha
    simp [host_side.wait_all_body, ha, Var.index]
  · intro x y s s1 hpc hstep
    simp only [host_side.wait_all_step, hpc, Var.index, if_true, Option.some.injEq] at hstep
    subst hstep
    exact ⟨rfl, rfl, rfl⟩
  · intro x y program r0 s s1 hreach hdata hstep
    obtain ⟨past, _, hcfg⟩ := link_reachable_inv w x y program r0 s hreach
    have hnw : ∀ ret, s.hpc ≠ .write ret := by
      intro ret hw
      rcases hcfg with ⟨_, hh, _⟩ | ⟨_, ⟨_, hc⟩ | ⟨_, hc⟩⟩
      · rw [hh] at hw; cases hw
      · rcases hc with ⟨_, hh, _⟩ | ⟨_, hh, _⟩ | ⟨_, hh | hh⟩ <;> rw [hh] at hw <;> cases hw
      · rcases hc with ⟨_, ret1, _, hi, _⟩ | ⟨_, hh, _⟩ | ⟨_, _, hh, _⟩ | ⟨_, e, hh⟩
        · rw [hdata] at hi
          exact hi rfl
        · rw [hh] at hw; cases hw
        · rw [hh] at hw; cases hw
        · rw [hh] at hw; cases hw
    unfold host_side.wait_all_step at hstep
    cases hpc : s.hpc with
    | write ret => exact absurd hpc (hnw ret)
    | poll =>
        rw [hpc] at hstep
        simp only at hstep
        split at hstep <;> injection hstep with hstep <;> subst hstep <;> rfl
    | read =>
        rw [hpc] at hstep
        injection hstep with hstep
        subst hstep
        rfl
    | dispatch d1 =>
        rw [hpc] at hstep
        simp only at hstep
        split at hstep
        · injection hstep with hstep
          subst hstep
          rfl
        · split at hstep <;> injection hstep with hstep <;> subst hstep <;> rfl
    | release =>
        rw [hpc] at hstep
        simp only at hstep
        split at hstep
        · injection hstep with hstep
          subst hstep
          rfl
        · cases hstep
    | dead e =>
        rw [hpc] at hstep
        cases hstep

/-- C18, witness: the 2 by 2 grid whose tiles each log once and then signal
done; `wait_all` has not called `done_rpc::act_on_data` and has not been left
by its assertion. -/
theorem wait_all_intercepts_done_witness :
    (∀ x y v, event.act_on_data 0 x y v
      ∉ ((⟨2, 2⟩ : host_side).wait_all log_then_done 2).state.trace) ∧
    (∀ st, (⟨2, 2⟩ : host_side).wait_all log_then_done 2 ≠ .aborted .assertion_failed st) :=
  have T := wait_all_intercepts_done ⟨2, 2⟩ log_then_done 2 (by
    intro pass x y data h
    simp only [log_then_done] at h
    split_ifs at h <;> simp at h <;> subst h <;> simp [Var.index])
  ⟨T.1, T.2.1⟩

/-- C19, evaluated on a port that is not connected (`p` is null).
`input::in` does not raise the `runtime_error` "This input is not connected":
it goes on to `pipe_of`, which dereferences the null pointer; `output::out`
raises its `runtime_error`.  With a medium that is not a `static_pipe<T, 4>`
both raise the `runtime_error` of `pipe_of`, and with a `static_pipe<T, 4>`
both return their accessor. -/
theorem input_in_unconnected_not_rejected (T : cpp_type) (Target : access_target) :
    connection.input.in_ ⟨none⟩ T Target = .error .null_dereference ∧
    connection.input.in_ ⟨none⟩ T Target
      ≠ .error (.runtime_error "This input is not connected") ∧
    connection.output.out ⟨none⟩ T Target
      = .error (.runtime_error "This output is not connected") ∧
    (∀ a, a ≠ std_any.static_pipe T 4 →
      connection.input.in_ ⟨some a⟩ T Target
        = .error (.runtime_error ("The current connection is not of type " ++ T.pretty_name)) ∧
      connection.output.out ⟨some a⟩ T Target
        = .error (.runtime_error ("The current connection is not of type " ++ T.pretty_name))) ∧
    connection.input.in_ ⟨some (.static_pipe T 4)⟩ T Target = .ok ⟨T, .read, Target⟩ ∧
    connection.output.out ⟨some (.static_pipe T 4)⟩ T Target = .ok ⟨T, .write, Target⟩ := by
  refine ⟨rfl, ?_, rfl, ?_, ?_, ?_⟩
  · intro h
    cases h
  · intro a ha
    simp [connection.input.in_, connection.output.out, connection.base.pipe_of, ha]
  · simp [connection.input.in_, connection.base.pipe_of]
  · simp [connection.output.out, connection.base.pipe_of]

end aie
